import Mathlib

/-! The JSON validator of `pkg/jsonparser/parser.go`.

A shallow embedding of the recursive-descent validator and of the number
extraction it performs while validating.

* A Go `string` is a sequence of bytes: `Bytes := List Nat` (every definition
  only compares bytes, so nothing depends on the bound `< 256`).
* `strings.IndexByte` returns `-1` when the byte is absent; here it returns
  `none`.
* A Go `error` built by `fmt.Errorf` is the list of the pieces of its message:
  the literal text of the format string and the formatted arguments.  Wrapping
  an error with `"...: %s"` puts a text piece in front of the pieces of the
  wrapped error.
* The loops whose trip count is not the length of a list being scanned take a
  fuel argument; `none` means that the fuel ran out.
-/

namespace jsonparser

/-- A Go string: its bytes. -/
abbrev Bytes := List Nat

/-- The bytes of an ASCII literal. -/
def lit (s : String) : Bytes := s.toList.map Char.toNat

/-- One piece of an error message. -/
inductive Piece where
  /-- literal text of a format string -/
  | text (s : String)
  /-- a string argument formatted with the verb q -/
  | q (data : Bytes)
  /-- a string argument formatted with the verb s -/
  | s (data : Bytes)
  /-- a byte formatted with the verb c -/
  | c (b : Nat)
  /-- a byte formatted with the verb 02X -/
  | x02 (b : Nat)
  /-- the error of strconv.ParseUint on the given digits, formatted with the verb s -/
  | numError (xs : Bytes)
  deriving DecidableEq

/-- A Go error value: the pieces of its message, in order. -/
abbrev Err := List Piece

/-- The formatting verbs of package fmt, which the messages use and which are
not part of this repository: each maps its argument to the bytes it prints. -/
structure Verbs where
  q : Bytes → Bytes
  s : Bytes → Bytes
  c : Nat → Bytes
  x02 : Nat → Bytes
  numError : Bytes → Bytes

/-- The bytes one piece prints. -/
def Piece.render (v : Verbs) : Piece → Bytes
  | .text t => lit t
  | .q d => v.q d
  | .s d => v.s d
  | .c b => v.c b
  | .x02 b => v.x02 b
  | .numError xs => v.numError xs

/-- The message of an error: `err.Error()`. -/
def render (v : Verbs) : Err → Bytes
  | [] => []
  | p :: ps => p.render v ++ render v ps

/-- The struct `JsonParser`. -/
structure JsonParser where
  data : Bytes
  Integers : List Bytes
  Floating : List Bytes
  deriving DecidableEq

/-- `NewParser` -/
def NewParser (data : Bytes) : JsonParser := ⟨data, [], []⟩

/-- `strings.IndexByte`: the index of the first occurrence of `c`, `none` for `-1`. -/
def IndexByte : Bytes → Nat → Option Nat
  | [], _ => none
  | b :: rest, c => if b = c then some 0 else (IndexByte rest c).map (· + 1)

/-- The loop of `removeWS` (lines 43-48), looking at `data[i:]`. -/
def removeWSLoop : Bytes → Bytes
  | [] => []
  | b :: rest =>
    if b ≠ 0x20 ∧ b ≠ 0x0A ∧ b ≠ 0x09 ∧ b ≠ 0x0D then b :: rest else removeWSLoop rest

/-- `removeWS` (lines 36-49). -/
def removeWS (data : Bytes) : Bytes :=
  match data with
  | [] => data
  | b :: rest =>
    if b > 0x20 then data
    else if b ≠ 0x20 ∧ b ≠ 0x0A ∧ b ≠ 0x09 ∧ b ≠ 0x0D then data
    else removeWSLoop rest

/-- `maxStartEndStringLen` -/
def maxStartEndStringLen : Nat := 80

/-- `makeErrorTrace` (lines 51-58). -/
def makeErrorTrace (data : Bytes) : Bytes :=
  if data.length ≤ maxStartEndStringLen then data
  else data.take 40 ++ lit "..." ++ data.drop (data.length - 40)

/-- The digit loops of `parseNumber` (lines 264-270 and 288-294): the bytes they
append to `number`; the final value of `i` is the length of this run. -/
def digitRun : Bytes → Bytes
  | [] => []
  | b :: rest => if b < 0x30 ∨ b > 0x39 then [] else b :: digitRun rest

/-- `parseNumber` from line 263 on: `number` holds the sign, `data` is not empty. -/
def parseNumberDigits (number data : Bytes) : Bytes × Bytes × Option Err :=
  let i := (digitRun data).length
  let number := number ++ digitRun data
  if i ≤ 0 then
    (number, data, some [.text "expecting 0..9 digit, got ", .c (data.headD 0)])
  else if data.headD 0 = 0x30 ∧ i ≠ 1 then
    (number, data, some [.text "unexpected number starting from 0"])
  else if i ≥ data.length then
    (number, [], none)
  else if data.getD i 0 = 0x2E then
    let number := number ++ [data.getD i 0]
    let data := data.drop (i + 1)
    if data.length = 0 then
      (number, data, some [.text "missing fractional part"])
    else
      let i := (digitRun data).length
      let number := number ++ digitRun data
      if i = 0 then
        (number, data, some [.text "expecting 0..9 digit in fractional part, got ", .c (data.headD 0)])
      else if i ≥ data.length then
        (number, [], none)
      else
        (number, data.drop i, none)
  else
    (number, data.drop i, none)

/-- `parseNumber` (lines 251-303): the literal, the tail and the error. -/
def parseNumber (data : Bytes) : Bytes × Bytes × Option Err :=
  match data with
  | [] => ([], data, some [.text "zero-length number"])
  | b :: rest =>
    if b = 0x2D then
      if rest.length = 0 then
        ([0x2D], rest, some [.text "missing number after minus"])
      else parseNumberDigits [0x2D] rest
    else parseNumberDigits [] data

/-- The inner loop of `parseRawString` (lines 319-321): from `i`, step back over
the backslashes that end at `data[i-1]`. -/
def backslashStart (data : Bytes) : Nat → Nat
  | 0 => 0
  | i + 1 => if data.getD i 0 = 0x5C then backslashStart data i else i + 1

/-- The outer loop of `parseRawString` (lines 317-334); `n` is the index in
`data` of a quote that follows a backslash. -/
def parseRawStringLoop (ss : Bytes) : Nat → Bytes → Nat → Option (Bytes × Bytes × Option Err)
  | 0, _, _ => none
  | fuel + 1, data, n =>
    let i := backslashStart data (n - 1)
    if (n - i) % 2 = 0 then
      some (ss.take (ss.length - data.length + n), data.drop (n + 1), none)
    else
      let data := data.drop (n + 1)
      match IndexByte data 0x22 with
      | none => some (ss, [], some [.text "missing closing '\"'"])
      | some n =>
        if n = 0 ∨ data.getD (n - 1) 0 ≠ 0x5C then
          some (ss.take (ss.length - data.length + n), data.drop (n + 1), none)
        else parseRawStringLoop ss fuel data n

/-- `parseRawString` (lines 305-335): the raw string, the tail and the error. -/
def parseRawString (data : Bytes) : Option (Bytes × Bytes × Option Err) :=
  match IndexByte data 0x22 with
  | none => some (data, [], some [.text "missing closing '\"'"])
  | some n =>
    if n = 0 ∨ data.getD (n - 1) 0 ≠ 0x5C then
      some (data.take n, data.drop (n + 1), none)
    else parseRawStringLoop data (data.length + 1) data n

/-- A hexadecimal digit, as `strconv.ParseUint` reads it in base 16. -/
def isHexDigit (b : Nat) : Bool :=
  (0x30 ≤ b && b ≤ 0x39) || (0x61 ≤ b && b ≤ 0x66) || (0x41 ≤ b && b ≤ 0x46)

/-- Whether `strconv.ParseUint(xs, 16, 16)` returns no error, for the four
bytes `xs` that `parseString` passes.  The function belongs to the Go library:
in base 16 it accepts a non-empty run of digits `0-9a-fA-F` (no sign, no
prefix, no underscore) whose value fits 16 bits, which four digits always do. -/
def ParseUintOk (xs : Bytes) : Bool :=
  xs ≠ [] && xs.all isHexDigit

/-- The loop of `parseString` (lines 215-248) over the escape sequences of the
raw string `rs`. -/
def parseStringLoop : Nat → Bytes → Bytes → Option (Bytes × Option Err)
  | 0, _, _ => none
  | fuel + 1, rs, tail =>
    match IndexByte rs 0x5C with
    | none => some (tail, none)
    | some n =>
      let n := n + 1
      if n ≥ rs.length then
        some (tail, some [.text "BUG: parseRawString returned invalid string with trailing backslash: ", .q rs])
      else
        let ch := rs.getD n 0
        let rs := rs.drop (n + 1)
        if ch < 0x20 then
          some (tail, some [.text "string cannot contain control char 0x", .x02 ch])
        else if ch = 0x22 ∨ ch = 0x5C ∨ ch = 0x2F ∨ ch = 0x62 ∨ ch = 0x66 ∨ ch = 0x6E
            ∨ ch = 0x72 ∨ ch = 0x74 then
          parseStringLoop fuel rs tail
        else if ch = 0x75 then
          if rs.length < 4 then
            some (tail, some [.text "too short escape sequence: \\u", .s rs])
          else
            let xs := rs.take 4
            if ParseUintOk xs then parseStringLoop fuel (rs.drop 4) tail
            else some (tail, some [.text "invalid escape sequence \\u", .s xs, .text ": ", .numError xs])
        else
          some (tail, some [.text "unknown escape sequence \\", .c ch])

/-- `parseString` (lines 204-249): the tail and the error. -/
def parseString (data : Bytes) : Option (Bytes × Option Err) :=
  let slow : Option (Bytes × Option Err) :=
    match parseRawString data with
    | none => none
    | some (_, tail, some err) => some (tail, some err)
    | some (rs, tail, none) => parseStringLoop (rs.length + 1) rs tail
  match IndexByte data 0x22 with
  | some n => if IndexByte (data.take n) 0x5C = none then some (data.drop (n + 1), none) else slow
  | none => slow

/-- The loop of `validateKey` (lines 340-349), looking at `data[i:]`. -/
def validateKeyLoop (data : Bytes) : Bytes → Option (Bytes × Option Err)
  | [] => some (data, some [.text "missing closing '\"'"])
  | b :: rest =>
    if b = 0x22 then some (rest, none)
    else if b = 0x5C then parseString data
    else validateKeyLoop data rest

/-- `validateKey` (lines 339-351). -/
def validateKey (data : Bytes) : Option (Bytes × Option Err) := validateKeyLoop data data

/-- What a parsing method leaves: the parser with its captures, the tail and
the error. -/
structure Res where
  json : JsonParser
  tail : Bytes
  err : Option Err
  deriving DecidableEq

/-- Put the text of a wrapping format string in front of an error. -/
def wrap (t : String) (r : Res) : Res :=
  match r.err with
  | some e => { r with err := some (.text t :: e) }
  | none => r

mutual

/-- `parseJson` (lines 60-119). -/
def parseJson : Nat → JsonParser → Bytes → Option Res
  | 0, _, _ => none
  | fuel + 1, json, data =>
    match data with
    | [] => some ⟨json, data, some [.text "cannot parse empty string"]⟩
    | b :: rest =>
      if b = 0x7B then
        (parseObject fuel json rest).map (wrap "cannot parse object: ")
      else if b = 0x5B then
        (parseArray fuel json rest).map (wrap "cannot parse array: ")
      else if b = 0x22 then
        match parseString rest with
        | none => none
        | some (tail, some e) => some ⟨json, tail, some (.text "cannot parse string: " :: e)⟩
        | some (tail, none) => some ⟨json, tail, none⟩
      else if b = 0x74 then
        if data.length < 4 ∨ data.take 4 ≠ [0x74, 0x72, 0x75, 0x65] then
          some ⟨json, data, some [.text "unexpected value found: ", .q data]⟩
        else some ⟨json, data.drop 4, none⟩
      else if b = 0x66 then
        if data.length < 5 ∨ data.take 5 ≠ [0x66, 0x61, 0x6C, 0x73, 0x65] then
          some ⟨json, data, some [.text "unexpected value found: ", .q data]⟩
        else some ⟨json, data.drop 5, none⟩
      else if b = 0x6E then
        if data.length < 4 ∨ data.take 4 ≠ [0x6E, 0x75, 0x6C, 0x6C] then
          some ⟨json, data, some [.text "unexpected value found: ", .q data]⟩
        else some ⟨json, data.drop 4, none⟩
      else
        match parseNumber data with
        | (_, tail, some e) => some ⟨json, tail, some (.text "cannot parse number: " :: e)⟩
        | (number, tail, none) =>
          match IndexByte number 0x2E with
          | some n =>
            if n > 0 then some ⟨{ json with Floating := json.Floating ++ [number] }, tail, none⟩
            else some ⟨{ json with Integers := json.Integers ++ [number] }, tail, none⟩
          | none => some ⟨{ json with Integers := json.Integers ++ [number] }, tail, none⟩

/-- `parseObject` (lines 121-168) up to its loop. -/
def parseObject : Nat → JsonParser → Bytes → Option Res
  | 0, _, _ => none
  | fuel + 1, json, data =>
    match removeWS data with
    | [] => some ⟨json, [], some [.text "missing '\x7d'"]⟩
    | b :: rest =>
      if b = 0x7D then some ⟨json, rest, none⟩
      else parseObjectLoop fuel json (b :: rest)

/-- The loop of `parseObject` (lines 130-167). -/
def parseObjectLoop : Nat → JsonParser → Bytes → Option Res
  | 0, _, _ => none
  | fuel + 1, json, data =>
    match removeWS data with
    | [] => some ⟨json, [], some [.text "cannot find opening '\"\" for object key"]⟩
    | b :: rest =>
      if b ≠ 0x22 then
        some ⟨json, b :: rest, some [.text "cannot find opening '\"\" for object key"]⟩
      else
        match validateKey rest with
        | none => none
        | some (data, some e) => some ⟨json, data, some (.text "cannot parse object key: " :: e)⟩
        | some (data, none) =>
          match removeWS data with
          | [] => some ⟨json, [], some [.text "missing ':' after object key"]⟩
          | b :: rest =>
            if b ≠ 0x3A then some ⟨json, b :: rest, some [.text "missing ':' after object key"]⟩
            else
              match parseJson fuel json (removeWS rest) with
              | none => none
              | some ⟨json, data, some e⟩ =>
                some ⟨json, data, some (.text "cannot parse object value: " :: e)⟩
              | some ⟨json, data, none⟩ =>
                match removeWS data with
                | [] => some ⟨json, [], some [.text "unexpected end of object"]⟩
                | b :: rest =>
                  if b = 0x2C then parseObjectLoop fuel json rest
                  else if b = 0x7D then some ⟨json, rest, none⟩
                  else some ⟨json, b :: rest, some [.text "missing ',' after object value"]⟩

/-- `parseArray` (lines 170-202) up to its loop. -/
def parseArray : Nat → JsonParser → Bytes → Option Res
  | 0, _, _ => none
  | fuel + 1, json, data =>
    match removeWS data with
    | [] => some ⟨json, [], some [.text "missing ']'"]⟩
    | b :: rest =>
      if b = 0x5D then some ⟨json, rest, none⟩
      else parseArrayLoop fuel json (b :: rest)

/-- The loop of `parseArray` (lines 179-201). -/
def parseArrayLoop : Nat → JsonParser → Bytes → Option Res
  | 0, _, _ => none
  | fuel + 1, json, data =>
    match parseJson fuel json (removeWS data) with
    | none => none
    | some ⟨json, data, some e⟩ =>
      some ⟨json, data, some (.text "cannot parse array value: " :: e)⟩
    | some ⟨json, data, none⟩ =>
      match removeWS data with
      | [] => some ⟨json, [], some [.text "unexpected end of array"]⟩
      | b :: rest =>
        if b = 0x2C then parseArrayLoop fuel json rest
        else if b = 0x5D then some ⟨json, rest, none⟩
        else some ⟨json, b :: rest, some [.text "missing ',' after array value"]⟩

end

/-- The fuel `IsValid` gives `parseJson`: enough for every input of that length. -/
def fuelFor (data : Bytes) : Nat := 3 * data.length + 1

/-- `IsValid` (lines 22-34): the parser afterwards and the error. -/
def IsValid (json : JsonParser) : Option (JsonParser × Option Err) :=
  let json := { json with data := removeWS json.data }
  match parseJson (fuelFor json.data) json json.data with
  | none => none
  | some ⟨json, tail, some e⟩ =>
    some (json, some (.text "cannot parse JSON: " :: e ++
      [.text "; unparsed tail: ", .q (makeErrorTrace tail)]))
  | some ⟨json, tail, none⟩ =>
    let tail := removeWS tail
    if tail.length > 0 then
      some (json, some [.text "unexpected tail: ", .q (makeErrorTrace tail)])
    else some (json, none)

/-! ## Vocabulary of the specification -/

/-- Whitespace: exactly the four bytes 0x09, 0x0A, 0x0D, 0x20. -/
def isWS (b : Nat) : Prop := b = 0x09 ∨ b = 0x0A ∨ b = 0x0D ∨ b = 0x20

instance : DecidablePred isWS := fun b => by unfold isWS; infer_instance

/-- A digit `0`-`9`. -/
def isDigit (b : Nat) : Prop := 0x30 ≤ b ∧ b ≤ 0x39

instance : DecidablePred isDigit := fun b => by unfold isDigit; infer_instance

/-- The message `msg` begins with the text `t`. -/
def BeginsWith (msg : Bytes) (t : String) : Prop := lit t <+: msg

/-- The message `msg` contains the text `t`. -/
def ContainsText (msg : Bytes) (t : String) : Prop := lit t <:+: msg

/-- The rule `int := '0' | [1-9] [0-9]*` of the number grammar. -/
def IsInt (l : Bytes) : Prop :=
  l = [0x30] ∨ ∃ d ds, l = d :: ds ∧ 0x31 ≤ d ∧ d ≤ 0x39 ∧ ∀ b ∈ ds, isDigit b

/-- The rule `frac := [0-9]+` of the number grammar. -/
def IsFrac (l : Bytes) : Prop := l ≠ [] ∧ ∀ b ∈ l, isDigit b

/-- The rule `number := '-'? int ( '.' frac )?` of the specification. -/
def IsNumber (l : Bytes) : Prop :=
  ∃ sign int frac, l = sign ++ int ++ frac ∧ (sign = [] ∨ sign = [0x2D]) ∧ IsInt int ∧
    (frac = [] ∨ ∃ fd, frac = 0x2E :: fd ∧ IsFrac fd)

/-- The byte after a number literal, when there is one, neither continues its
digits nor starts a fractional part. -/
def NumberEnds (rest : Bytes) : Prop := ∀ b, rest.head? = some b → ¬ isDigit b ∧ b ≠ 0x2E

/-- One step of reading a raw string from the left: the state is `true` right
after a backslash that escapes the next byte. -/
def escStep (esc : Bool) (b : Nat) : Bool := if esc then false else decide (b = 0x5C)

/-- The closing quote read from the left: the first `"` that no backslash
escapes splits the input into the raw string before it and the tail after it. -/
def splitAtClosingQuote : Bool → Bytes → Option (Bytes × Bytes)
  | _, [] => none
  | esc, b :: rest =>
    if esc = false ∧ b = 0x22 then some ([], rest)
    else (splitAtClosingQuote (escStep esc b) rest).map (fun p => (b :: p.1, p.2))

/-- The number of consecutive backslashes at the end of `l`. -/
def trailingBackslashes (l : Bytes) : Nat := (l.reverse.takeWhile (fun b => decide (b = 0x5C))).length

/-- What `parseRawString` returns, in terms of the search from the left. -/
def rawStringResult (done data : Bytes) : Bytes × Bytes × Option Err :=
  match splitAtClosingQuote false data with
  | some (rs, tail) => (done ++ rs, tail, none)
  | none => (done ++ data, [], some [.text "missing closing '\"'"])

/-- The letters that may follow a backslash: `" \ / b f n r t`. -/
def IsEscapeLetter (e : Nat) : Prop :=
  e = 0x22 ∨ e = 0x5C ∨ e = 0x2F ∨ e = 0x62 ∨ e = 0x66 ∨ e = 0x6E ∨ e = 0x72 ∨ e = 0x74

/-- The rule `char*` of the string grammar, for the bytes `ok` that stand for
themselves: a byte that is `ok`, a backslash and an escape letter, or a
backslash, `u` and four hexadecimal digits. -/
inductive Chars (ok : Nat → Prop) : Bytes → Prop where
  | nil : Chars ok []
  | plain {b : Nat} {rest : Bytes} : ok b → Chars ok rest → Chars ok (b :: rest)
  | escape {e : Nat} {rest : Bytes} : IsEscapeLetter e → Chars ok rest →
      Chars ok (0x5C :: e :: rest)
  | unicode {h1 h2 h3 h4 : Nat} {rest : Bytes} : isHexDigit h1 = true → isHexDigit h2 = true →
      isHexDigit h3 = true → isHexDigit h4 = true → Chars ok rest →
      Chars ok (0x5C :: 0x75 :: h1 :: h2 :: h3 :: h4 :: rest)

/-- The bytes that stand for themselves in a string of the specification: any
byte from 0x20 on except the quote and the backslash. -/
def IsPlainChar (b : Nat) : Prop := 0x20 ≤ b ∧ b ≠ 0x22 ∧ b ≠ 0x5C

/-- The bytes that stand for themselves in a string the code accepts: any byte
except the quote and the backslash. -/
def IsUnescaped (b : Nat) : Prop := b ≠ 0x22 ∧ b ≠ 0x5C

instance : DecidablePred IsEscapeLetter := fun e => by unfold IsEscapeLetter; infer_instance

instance : DecidablePred IsPlainChar := fun b => by unfold IsPlainChar; infer_instance

instance : DecidablePred IsUnescaped := fun b => by unfold IsUnescaped; infer_instance

/-- The parser with more captured numbers. -/
def JsonParser.add (json : JsonParser) (ints floats : List Bytes) : JsonParser :=
  { json with Integers := json.Integers ++ ints, Floating := json.Floating ++ floats }

/-- What every run of a parsing method maintains, whether it fails or not: the
tail is a suffix of the input, and the parser only gains captured numbers,
each a number of the grammar, those with a `.` in `Floating` and the others
in `Integers`. -/
def Inv (json : JsonParser) (data : Bytes) (r : Res) : Prop :=
  r.tail <:+ data ∧ ∃ ints floats, r.json = json.add ints floats ∧
    (∀ l ∈ ints, IsNumber l ∧ 0x2E ∉ l) ∧ (∀ l ∈ floats, IsNumber l ∧ 0x2E ∈ l)

/-- `IsValid`, run on a fresh parser for `data`, returns no error. -/
def Accepts (data : Bytes) : Prop := ∃ json, IsValid (NewParser data) = some (json, none)

/-- `IsValid`, run on a fresh parser for `data`, returns an error. -/
def Rejects (data : Bytes) : Prop := ∃ json e, IsValid (NewParser data) = some (json, some e)

/-- Lines 110-116 of `parseJson`: the parser after it filed a literal. -/
def capture (json : JsonParser) (number : Bytes) : JsonParser :=
  if 0x2E ∈ number then json.add [] [number] else json.add [number] []

/-- The last byte of the input is a digit. -/
def EndsWithDigit (data : Bytes) : Prop :=
  match data.getLast? with
  | some b => isDigit b
  | none => False

instance : DecidablePred EndsWithDigit := fun data => by
  unfold EndsWithDigit
  split <;> infer_instance

/-- The values `vs`, each followed by a comma. -/
def withCommas : List Bytes → Bytes
  | [] => []
  | v :: vs => v ++ 0x2C :: withCommas vs

/-- When bytes `ext` put after the input cannot change what `parseJson`
reads: something is left after the value, or `ext` cannot continue a number,
or the input does not end with a digit. -/
def NumberCond (data tail ext : Bytes) : Prop :=
  tail ≠ [] ∨ NumberEnds ext ∨ ¬ EndsWithDigit data

/-- A successful run of `run` with fuel `f` stays the same run, with any fuel
from `f` on, in any parser and with any bytes `ext` after the input that
`cond` allows: it captures the same numbers and leaves the same tail before
`ext`. -/
def Extends (run : Nat → JsonParser → Bytes → Option Res) (f : Nat)
    (cond : Bytes → Bytes → Bytes → Prop) : Prop :=
  ∀ json data json2 tail, run f json data = some ⟨json2, tail, none⟩ →
    ∃ ints floats, json2 = json.add ints floats ∧
      ∀ g, f ≤ g → ∀ json3 ext, cond data tail ext →
        run g json3 (data ++ ext) = some ⟨json3.add ints floats, tail ++ ext, none⟩

/-- The literals joined by `", "`. -/
def joinCommaSpace : List Bytes → Bytes
  | [] => []
  | [l] => l
  | l :: l2 :: rest => l ++ 0x2C :: 0x20 :: joinCommaSpace (l2 :: rest)

/-- The rule `WS`: a run of whitespace bytes, possibly empty. -/
def IsWSRun (w : Bytes) : Prop := ∀ b ∈ w, isWS b

instance : DecidablePred IsWSRun := fun w => by unfold IsWSRun; infer_instance

/-- The nonterminals of the grammar of section 6: `value`; the inside of a
non-empty array, `value WS? ( ',' WS? value WS? )*`; the inside of a non-empty
object, `string WS? ':' WS? value WS? ( ',' WS? string WS? ':' WS? value WS? )*`. -/
inductive Kind where
  | value
  | elements
  | members

/-- The grammar of section 6 of the specification, for the bytes `ok` that stand
for themselves in a string: `Derives ok k l` when the nonterminal `k` derives
the bytes `l`. -/
inductive Derives (ok : Nat → Prop) : Kind → Bytes → Prop where
  | number {l : Bytes} : IsNumber l → Derives ok .value l
  | litTrue : Derives ok .value [0x74, 0x72, 0x75, 0x65]
  | litFalse : Derives ok .value [0x66, 0x61, 0x6C, 0x73, 0x65]
  | litNull : Derives ok .value [0x6E, 0x75, 0x6C, 0x6C]
  | string {c : Bytes} : Chars ok c → Derives ok .value (0x22 :: (c ++ [0x22]))
  | emptyArray {w : Bytes} : IsWSRun w → Derives ok .value (0x5B :: (w ++ [0x5D]))
  | array {w es : Bytes} : IsWSRun w → Derives ok .elements es →
      Derives ok .value (0x5B :: (w ++ (es ++ [0x5D])))
  | emptyObject {w : Bytes} : IsWSRun w → Derives ok .value (0x7B :: (w ++ [0x7D]))
  | object {w ms : Bytes} : IsWSRun w → Derives ok .members ms →
      Derives ok .value (0x7B :: (w ++ (ms ++ [0x7D])))
  | lastElement {v w : Bytes} : Derives ok .value v → IsWSRun w → Derives ok .elements (v ++ w)
  | moreElements {v w1 w2 es : Bytes} : Derives ok .value v → IsWSRun w1 → IsWSRun w2 →
      Derives ok .elements es → Derives ok .elements (v ++ (w1 ++ 0x2C :: (w2 ++ es)))
  | lastMember {k w1 w2 v w3 : Bytes} : Chars ok k → IsWSRun w1 → IsWSRun w2 →
      Derives ok .value v → IsWSRun w3 →
      Derives ok .members (0x22 :: (k ++ 0x22 :: (w1 ++ 0x3A :: (w2 ++ (v ++ w3)))))
  | moreMembers {k w1 w2 v w3 w4 ms : Bytes} : Chars ok k → IsWSRun w1 → IsWSRun w2 →
      Derives ok .value v → IsWSRun w3 → IsWSRun w4 → Derives ok .members ms →
      Derives ok .members
        (0x22 :: (k ++ 0x22 :: (w1 ++ 0x3A :: (w2 ++ (v ++ (w3 ++ 0x2C :: (w4 ++ ms)))))))

/-- The inputs of the form `WS value WS` of the specification. -/
def InGrammar (s : Bytes) : Prop :=
  ∃ w1 v w2, s = w1 ++ (v ++ w2) ∧ IsWSRun w1 ∧ Derives IsPlainChar .value v ∧ IsWSRun w2

/-- The first byte of what a nonterminal derives: no whitespace and no closing
bracket. -/
def StartsValue (l : Bytes) : Prop :=
  ∃ b r, l = b :: r ∧ ¬ isWS b ∧ b ≠ 0x5D ∧ b ≠ 0x7D

/-- What the parsing method of a nonterminal does on the bytes it derives: it
accepts them and leaves what follows, with fuel three times their length. -/
def Complete : Kind → Bytes → Prop
  | .value, l => ∀ (f : Nat) (json : JsonParser) (rest : Bytes), NumberEnds rest →
      3 * l.length + 1 ≤ f → ∃ json2, parseJson f json (l ++ rest) = some ⟨json2, rest, none⟩
  | .elements, l => ∀ (f : Nat) (json : JsonParser) (rest : Bytes),
      3 * l.length + 2 ≤ f →
      ∃ json2, parseArrayLoop f json (l ++ 0x5D :: rest) = some ⟨json2, rest, none⟩
  | .members, l => ∀ (f : Nat) (json : JsonParser) (rest : Bytes),
      3 * l.length + 2 ≤ f →
      ∃ json2, parseObjectLoop f json (l ++ 0x7D :: rest) = some ⟨json2, rest, none⟩

/-- The byte at index `k` is a quote that an even number (zero included) of
consecutive backslashes precedes. -/
def IsClosingQuote (data : Bytes) (k : Nat) : Prop :=
  data.get? k = some 0x22 ∧ trailingBackslashes (data.take k) % 2 = 0

/-- The error of line 222 of `parseString`, for the raw string `rs`. -/
def bugError (rs : Bytes) : Err :=
  [.text "BUG: parseRawString returned invalid string with trailing backslash: ", .q rs]

/-- The grammar of section 6 with the number literals of a text, from left to
right: `Captures ok k l ns` when the nonterminal `k` derives the bytes `l` and
the values of `l` that are numbers are, in order, `ns`.  Strings and keys
give no literal. -/
inductive Captures (ok : Nat → Prop) : Kind → Bytes → List Bytes → Prop where
  | number {l : Bytes} : IsNumber l → Captures ok .value l [l]
  | litTrue : Captures ok .value [0x74, 0x72, 0x75, 0x65] []
  | litFalse : Captures ok .value [0x66, 0x61, 0x6C, 0x73, 0x65] []
  | litNull : Captures ok .value [0x6E, 0x75, 0x6C, 0x6C] []
  | string {c : Bytes} : Chars ok c → Captures ok .value (0x22 :: (c ++ [0x22])) []
  | emptyArray {w : Bytes} : IsWSRun w → Captures ok .value (0x5B :: (w ++ [0x5D])) []
  | array {w es : Bytes} {ns : List Bytes} : IsWSRun w → Captures ok .elements es ns →
      Captures ok .value (0x5B :: (w ++ (es ++ [0x5D]))) ns
  | emptyObject {w : Bytes} : IsWSRun w → Captures ok .value (0x7B :: (w ++ [0x7D])) []
  | object {w ms : Bytes} {ns : List Bytes} : IsWSRun w → Captures ok .members ms ns →
      Captures ok .value (0x7B :: (w ++ (ms ++ [0x7D]))) ns
  | lastElement {v w : Bytes} {ns : List Bytes} : Captures ok .value v ns → IsWSRun w →
      Captures ok .elements (v ++ w) ns
  | moreElements {v w1 w2 es : Bytes} {ns1 ns2 : List Bytes} : Captures ok .value v ns1 →
      IsWSRun w1 → IsWSRun w2 → Captures ok .elements es ns2 →
      Captures ok .elements (v ++ (w1 ++ 0x2C :: (w2 ++ es))) (ns1 ++ ns2)
  | lastMember {k w1 w2 v w3 : Bytes} {ns : List Bytes} : Chars ok k → IsWSRun w1 →
      IsWSRun w2 → Captures ok .value v ns → IsWSRun w3 →
      Captures ok .members (0x22 :: (k ++ 0x22 :: (w1 ++ 0x3A :: (w2 ++ (v ++ w3))))) ns
  | moreMembers {k w1 w2 v w3 w4 ms : Bytes} {ns1 ns2 : List Bytes} : Chars ok k →
      IsWSRun w1 → IsWSRun w2 → Captures ok .value v ns1 → IsWSRun w3 → IsWSRun w4 →
      Captures ok .members ms ns2 →
      Captures ok .members
        (0x22 :: (k ++ 0x22 :: (w1 ++ 0x3A :: (w2 ++ (v ++ (w3 ++ 0x2C :: (w4 ++ ms)))))))
        (ns1 ++ ns2)

/-- The parser after the literals `ns` were captured in this order: those
without a `.` join `Integers`, the others `Floating`. -/
def JsonParser.addAll (json : JsonParser) (ns : List Bytes) : JsonParser :=
  json.add (ns.filter (fun l => decide (0x2E ∉ l))) (ns.filter (fun l => decide (0x2E ∈ l)))

/-- What the parsing method of a nonterminal does on the bytes it derives, with
the captures: it accepts them, leaves what follows, and captures the number
literals of the text in order. -/
def CompleteCaps : Kind → Bytes → List Bytes → Prop
  | .value, l, ns => ∀ (f : Nat) (json : JsonParser) (rest : Bytes), NumberEnds rest →
      3 * l.length + 1 ≤ f → parseJson f json (l ++ rest) = some ⟨json.addAll ns, rest, none⟩
  | .elements, l, ns => ∀ (f : Nat) (json : JsonParser) (rest : Bytes),
      3 * l.length + 2 ≤ f →
      parseArrayLoop f json (l ++ 0x5D :: rest) = some ⟨json.addAll ns, rest, none⟩
  | .members, l, ns => ∀ (f : Nat) (json : JsonParser) (rest : Bytes),
      3 * l.length + 2 ≤ f →
      parseObjectLoop f json (l ++ 0x7D :: rest) = some ⟨json.addAll ns, rest, none⟩

/-- The inputs of the form `WS value WS` in which no value is a number, for the
strings that the code accepts. -/
def NumberFree (s : Bytes) : Prop :=
  ∃ w1 v w2, s = w1 ++ (v ++ w2) ∧ IsWSRun w1 ∧ Captures IsUnescaped .value v [] ∧ IsWSRun w2

/-- What stands in an array between its first element and a later one: values
of the grammar, each followed by `WS? ',' WS?`. -/
inductive ElementsBefore (ok : Nat → Prop) : Bytes → Prop where
  | nil : ElementsBefore ok []
  | cons {v w1 w2 q : Bytes} : Derives ok .value v → IsWSRun w1 → IsWSRun w2 →
      ElementsBefore ok q → ElementsBefore ok (v ++ (w1 ++ 0x2C :: (w2 ++ q)))

/-- What stands in an object between its first key and the value of a member:
members of the grammar, each followed by `WS? ',' WS?`, and then the key of
that member with `WS? ':' WS?`. -/
inductive MembersBefore (ok : Nat → Prop) : Bytes → Prop where
  | key {k w1 w2 : Bytes} : Chars ok k → IsWSRun w1 → IsWSRun w2 →
      MembersBefore ok (0x22 :: (k ++ 0x22 :: (w1 ++ 0x3A :: w2)))
  | cons {k w1 w2 v w3 w4 q : Bytes} : Chars ok k → IsWSRun w1 → IsWSRun w2 →
      Derives ok .value v → IsWSRun w3 → IsWSRun w4 → MembersBefore ok q →
      MembersBefore ok
        (0x22 :: (k ++ 0x22 :: (w1 ++ 0x3A :: (w2 ++ (v ++ (w3 ++ 0x2C :: (w4 ++ q)))))))

/-- The way to a nested value: `Nesting ok pre layers first` when `pre` is the
text from the start of the outermost value to the start of a value nested in
arrays and objects, `layers` holds, outermost first, the two prefixes of each
array ("cannot parse array: ", "cannot parse array value: ") or object
("cannot parse object: ", "cannot parse object value: ") that encloses that
value, and `first` tells whether the value is the first element of the array
right around it (where `parseArray` looks for `]` before it calls
`parseJson`). -/
inductive Nesting (ok : Nat → Prop) : Bytes → Err → Bool → Prop where
  | top : Nesting ok [] [] false
  | array {pre : Bytes} {layers : Err} {first : Bool} {w q : Bytes} :
      Nesting ok pre layers first → IsWSRun w → ElementsBefore ok q →
      Nesting ok (pre ++ 0x5B :: (w ++ q))
        (layers ++ [.text "cannot parse array: ", .text "cannot parse array value: "])
        q.isEmpty
  | object {pre : Bytes} {layers : Err} {first : Bool} {w q : Bytes} :
      Nesting ok pre layers first → IsWSRun w → MembersBefore ok q →
      Nesting ok (pre ++ 0x7B :: (w ++ q))
        (layers ++ [.text "cannot parse object: ", .text "cannot parse object value: "])
        false

/-- The method `run` fails on `data` with the error `e` and the tail `tail`, in
every parser and with every fuel from some fuel on. -/
def FailsWith (run : Nat → JsonParser → Bytes → Option Res) (data tail : Bytes) (e : Err) :
    Prop :=
  ∃ f, ∀ g, f ≤ g → ∀ json, ∃ j, run g json data = some ⟨j, tail, some e⟩

/-! # Properties -/

/-! ## Whitespace -/

theorem removeWSLoop_eq_dropWhile (data : Bytes) :
    removeWSLoop data = data.dropWhile (fun b => decide (isWS b)) := by
  induction data with
  | nil => rfl
  | cons b rest ih =>
    unfold removeWSLoop
    by_cases h : isWS b
    · have h2 : ¬ (b ≠ 0x20 ∧ b ≠ 0x0A ∧ b ≠ 0x09 ∧ b ≠ 0x0D) := by
        unfold isWS at h; omega
      simp [h2, h, ih]
    · have h2 : b ≠ 0x20 ∧ b ≠ 0x0A ∧ b ≠ 0x09 ∧ b ≠ 0x0D := by
        unfold isWS at h; omega
      simp [h2, h]

theorem removeWS_eq_dropWhile (data : Bytes) :
    removeWS data = data.dropWhile (fun b => decide (isWS b)) := by
  cases data with
  | nil => rfl
  | cons b rest =>
    unfold removeWS
    by_cases h : isWS b
    · have h1 : ¬ b > 0x20 := by unfold isWS at h; omega
      have h2 : ¬ (b ≠ 0x20 ∧ b ≠ 0x0A ∧ b ≠ 0x09 ∧ b ≠ 0x0D) := by
        unfold isWS at h; omega
      simp only [h1, h2, if_false]
      simp [h, removeWSLoop_eq_dropWhile]
    · by_cases h1 : b > 0x20
      · simp [h1, h]
      · have h2 : b ≠ 0x20 ∧ b ≠ 0x0A ∧ b ≠ 0x09 ∧ b ≠ 0x0D := by
          unfold isWS at h; omega
        simp only [h1, if_false]
        simp [h2, h]

theorem removeWS_nil : removeWS [] = [] := rfl

theorem removeWS_cons_of_not_ws {b : Nat} (rest : Bytes) (h : ¬ isWS b) :
    removeWS (b :: rest) = b :: rest := by
  simp [removeWS_eq_dropWhile, h]

theorem removeWS_cons_of_ws {b : Nat} (rest : Bytes) (h : isWS b) :
    removeWS (b :: rest) = removeWS rest := by
  simp [removeWS_eq_dropWhile, h]

theorem removeWS_append_of_ws (w rest : Bytes) (h : ∀ b ∈ w, isWS b) :
    removeWS (w ++ rest) = removeWS rest := by
  induction w with
  | nil => rfl
  | cons b w ih =>
    rw [List.cons_append, removeWS_cons_of_ws _ (h b (List.mem_cons_self _ _))]
    exact ih (fun c hc => h c (List.mem_cons_of_mem _ hc))

theorem removeWS_of_ws (w : Bytes) (h : ∀ b ∈ w, isWS b) : removeWS w = [] := by
  have := removeWS_append_of_ws w [] h
  simpa using this

theorem removeWS_head_not_ws {data : Bytes} {b : Nat} {rest : Bytes}
    (h : removeWS data = b :: rest) : ¬ isWS b := by
  rw [removeWS_eq_dropWhile] at h
  have := List.head_dropWhile_not (fun b => decide (isWS b)) data (by rw [h]; simp)
  simpa [h] using this

theorem removeWS_idem (data : Bytes) : removeWS (removeWS data) = removeWS data := by
  cases h : removeWS data with
  | nil => rfl
  | cons b rest => exact removeWS_cons_of_not_ws rest (removeWS_head_not_ws h)

theorem removeWS_suffix (data : Bytes) : removeWS data <:+ data := by
  rw [removeWS_eq_dropWhile]; exact List.dropWhile_suffix _

theorem removeWS_length_le (data : Bytes) : (removeWS data).length ≤ data.length :=
  (removeWS_suffix data).length_le

/-! ## Lists of bytes -/

theorem getD_append_length (l : Bytes) (c : Nat) (r : Bytes) :
    (l ++ c :: r).getD l.length 0 = c := by
  induction l with
  | nil => rfl
  | cons a l ih => simpa using ih

theorem drop_append_length_succ (l : Bytes) (c : Nat) (r : Bytes) :
    (l ++ c :: r).drop (l.length + 1) = r := by
  induction l with
  | nil => rfl
  | cons a l ih => simp

/-! ## The number parser -/

theorem digitRun_all (data : Bytes) : ∀ b ∈ digitRun data, isDigit b := by
  induction data with
  | nil => simp [digitRun]
  | cons c rest ih =>
    unfold digitRun
    by_cases h : c < 0x30 ∨ c > 0x39
    · simp [h]
    · simp only [h, if_false, List.mem_cons]
      rintro b (rfl | hb)
      · unfold isDigit; omega
      · exact ih b hb

theorem digitRun_append_drop (data : Bytes) :
    digitRun data ++ data.drop (digitRun data).length = data := by
  induction data with
  | nil => simp [digitRun]
  | cons c rest ih =>
    unfold digitRun
    by_cases h : c < 0x30 ∨ c > 0x39
    · simp [h]
    · simp only [h, if_false, List.length_cons, List.drop_succ_cons, List.cons_append, ih]

theorem digitRun_drop_head (data : Bytes) (b : Nat)
    (h : (data.drop (digitRun data).length).head? = some b) : ¬ isDigit b := by
  induction data with
  | nil => simp [digitRun] at h
  | cons c rest ih =>
    unfold digitRun at h
    by_cases hc : c < 0x30 ∨ c > 0x39
    · simp [hc] at h
      subst h; unfold isDigit; omega
    · simp only [hc, if_false, List.length_cons, List.drop_succ_cons] at h
      exact ih h

theorem digitRun_append (ds rest : Bytes) (hds : ∀ b ∈ ds, isDigit b)
    (hrest : ∀ b, rest.head? = some b → ¬ isDigit b) : digitRun (ds ++ rest) = ds := by
  induction ds with
  | nil =>
    cases rest with
    | nil => rfl
    | cons c r =>
      have := hrest c rfl
      unfold isDigit at this
      have h : c < 0x30 ∨ c > 0x39 := by omega
      simp [digitRun, h]
  | cons d ds ih =>
    have hd := hds d (List.mem_cons_self _ _)
    unfold isDigit at hd
    have h : ¬ (d < 0x30 ∨ d > 0x39) := by omega
    have ih2 := ih (fun b hb => hds b (List.mem_cons_of_mem _ hb))
    rw [List.cons_append]
    unfold digitRun
    simp only [h, if_false, ih2]

/-- What `parseNumber` does after the sign on a maximal run of digits `d :: ds`
that is a well-formed integer part. -/
theorem parseNumberDigits_append (number : Bytes) (d : Nat) (ds rest : Bytes)
    (hds : ∀ b ∈ d :: ds, isDigit b)
    (hrest : ∀ b, rest.head? = some b → ¬ isDigit b) (hz : d = 0x30 → ds = []) :
    parseNumberDigits number (d :: ds ++ rest) =
      match rest with
      | [] => (number ++ d :: ds, [], none)
      | c :: rest2 =>
        if c = 0x2E then
          if rest2 = [] then
            (number ++ d :: ds ++ [0x2E], [], some [.text "missing fractional part"])
          else if digitRun rest2 = [] then
            (number ++ d :: ds ++ [0x2E], rest2,
              some [.text "expecting 0..9 digit in fractional part, got ", .c (rest2.headD 0)])
          else
            (number ++ d :: ds ++ [0x2E] ++ digitRun rest2,
              rest2.drop (digitRun rest2).length, none)
        else (number ++ d :: ds, c :: rest2, none) := by
  have hrun : digitRun (d :: ds ++ rest) = d :: ds := digitRun_append (d :: ds) rest hds hrest
  unfold parseNumberDigits
  simp only [hrun]
  have h1 : ¬ (d :: ds).length ≤ 0 := by simp
  have h2 : ¬ ((d :: ds ++ rest).headD 0 = 0x30 ∧ (d :: ds).length ≠ 1) := by
    rintro ⟨ha, hb⟩
    simp at ha
    simp [hz ha] at hb
  simp only [h1, h2, if_false]
  cases rest with
  | nil => simp
  | cons c rest2 =>
    have h3 : ¬ (d :: ds).length ≥ (d :: ds ++ c :: rest2).length := by simp
    have h4 : (d :: ds ++ c :: rest2).getD (d :: ds).length 0 = c :=
      getD_append_length (d :: ds) c rest2
    have h5 : (d :: ds ++ c :: rest2).drop ((d :: ds).length + 1) = rest2 :=
      drop_append_length_succ (d :: ds) c rest2
    have h6 : (d :: ds ++ c :: rest2).drop (d :: ds).length = c :: rest2 := by
      simp
    simp only [h3, h4, h5, h6, if_false]
    by_cases hc : c = 0x2E
    · subst hc
      simp only [if_true]
      by_cases hr : rest2 = []
      · subst hr; simp
      · have hl : ¬ rest2.length = 0 := by simpa using hr
        simp only [hl, hr, if_false]
        by_cases hf : digitRun rest2 = []
        · simp [hf]
        · have hl2 : ¬ (digitRun rest2).length = 0 := by simpa using hf
          simp only [hl2, hf, if_false]
          by_cases hg : (digitRun rest2).length ≥ rest2.length
          · simp [hg, List.drop_eq_nil_of_le hg]
          · simp [hg]
    · simp [hc]

theorem IsInt_iff (l : Bytes) :
    IsInt l ↔ ∃ d ds, l = d :: ds ∧ (∀ b ∈ d :: ds, isDigit b) ∧ (d = 0x30 → ds = []) := by
  constructor
  · rintro (rfl | ⟨d, ds, rfl, h1, h2, h3⟩)
    · exact ⟨0x30, [], rfl, by simp [isDigit], fun _ => rfl⟩
    · refine ⟨d, ds, rfl, ?_, fun h => by omega⟩
      intro b hb
      rcases List.mem_cons.1 hb with rfl | hb
      · unfold isDigit; omega
      · exact h3 b hb
  · rintro ⟨d, ds, rfl, h1, h2⟩
    by_cases hd : d = 0x30
    · left; rw [h2 hd, hd]
    · right
      have := h1 d (List.mem_cons_self _ _)
      unfold isDigit at this
      exact ⟨d, ds, rfl, by omega, by omega, fun b hb => h1 b (List.mem_cons_of_mem _ hb)⟩

/-- The three ways `parseNumber` goes on after the sign. -/
theorem parseNumberDigits_cases (number data : Bytes) :
    (digitRun data = [] ∧ parseNumberDigits number data =
        (number, data, some [.text "expecting 0..9 digit, got ", .c (data.headD 0)])) ∨
    ((∃ d ds, digitRun data = 0x30 :: d :: ds) ∧ parseNumberDigits number data =
        (number ++ digitRun data, data, some [.text "unexpected number starting from 0"])) ∨
    (∃ d ds rest, data = d :: ds ++ rest ∧ (∀ b ∈ d :: ds, isDigit b) ∧
        (∀ b, rest.head? = some b → ¬ isDigit b) ∧ (d = 0x30 → ds = [])) := by
  have hsplit := digitRun_append_drop data
  have hall := digitRun_all data
  have hhead := digitRun_drop_head data
  cases hrun : digitRun data with
  | nil =>
    left
    refine ⟨rfl, ?_⟩
    unfold parseNumberDigits
    simp [hrun]
  | cons d ds =>
    right
    rw [hrun] at hsplit hall hhead
    have hd0 : data.headD 0 = d := by rw [← hsplit]; rfl
    by_cases hz : d = 0x30 ∧ ds ≠ []
    · left
      obtain ⟨rfl, hne⟩ := hz
      obtain ⟨d2, ds2, rfl⟩ := List.exists_cons_of_ne_nil hne
      refine ⟨⟨d2, ds2, rfl⟩, ?_⟩
      unfold parseNumberDigits
      have h1 : ¬ (digitRun data).length ≤ 0 := by simp [hrun]
      have h2 : data.headD 0 = 0x30 ∧ (digitRun data).length ≠ 1 := ⟨hd0, by simp [hrun]⟩
      rw [if_neg h1, if_pos h2, hrun]
    · right
      refine ⟨d, ds, _, hsplit.symm, hall, hhead, ?_⟩
      intro h
      by_contra hne
      exact hz ⟨h, hne⟩

theorem not_dot_of_digits (l : Bytes) (h : ∀ b ∈ l, isDigit b) : 0x2E ∉ l := by
  intro hm
  have := h _ hm
  simp [isDigit] at this

/-- The number parser accepts every literal of the grammar and stops right
after it, when the next byte is no digit and, after a literal without
fractional part, no `.`. -/
theorem parseNumber_of_IsNumber_maximal (l rest : Bytes) (hl : IsNumber l)
    (hrest : ∀ b, rest.head? = some b → ¬ isDigit b ∧ (0x2E ∈ l ∨ b ≠ 0x2E)) :
    parseNumber (l ++ rest) = (l, rest, none) := by
  obtain ⟨sign, int, frac, rfl, hsign, hint, hfrac⟩ := hl
  obtain ⟨d, ds, rfl, hds, hz⟩ := (IsInt_iff int).1 hint
  have hd := hds d (List.mem_cons_self _ _)
  have hsd : 0x2E ∉ sign := by rcases hsign with rfl | rfl <;> simp
  have hfr : ∀ b, (frac ++ rest).head? = some b → ¬ isDigit b := by
    intro b hb
    rcases hfrac with rfl | ⟨fd, rfl, _⟩
    · exact (hrest b (by simpa using hb)).1
    · simp at hb; subst hb; simp [isDigit]
  have key : ∀ number : Bytes, parseNumberDigits number (d :: ds ++ (frac ++ rest)) =
      (number ++ d :: ds ++ frac, rest, none) := by
    intro number
    rw [parseNumberDigits_append number d ds (frac ++ rest) hds hfr hz]
    rcases hfrac with rfl | ⟨fd, rfl, hfd1, hfd2⟩
    · cases rest with
      | nil => simp
      | cons c r =>
        have hc : c ≠ 0x2E := by
          rcases (hrest c rfl).2 with h | h
          · exfalso
            simp only [List.append_nil, List.mem_append] at h
            rcases h with h | h
            · exact hsd h
            · exact not_dot_of_digits _ hds h
          · exact h
        simp [hc]
    · have hrun : digitRun (fd ++ rest) = fd :=
        digitRun_append fd rest hfd2 (fun b hb => (hrest b hb).1)
      simp [hrun, hfd1]
  rcases hsign with rfl | rfl
  · have hne : d ≠ 0x2D := by unfold isDigit at hd; omega
    have : ([] ++ d :: ds ++ frac) ++ rest = d :: (ds ++ (frac ++ rest)) := by simp
    rw [this]
    unfold parseNumber
    simp only [hne, if_false]
    have := key []
    simpa using this
  · have : ([0x2D] ++ d :: ds ++ frac) ++ rest = 0x2D :: (d :: ds ++ (frac ++ rest)) := by simp
    rw [this]
    unfold parseNumber
    have := key [0x2D]
    simpa using this

/-- The number parser accepts every literal of the grammar and stops right
after it. -/
theorem parseNumber_of_IsNumber (l rest : Bytes) (hl : IsNumber l) (hrest : NumberEnds rest) :
    parseNumber (l ++ rest) = (l, rest, none) :=
  parseNumber_of_IsNumber_maximal l rest hl (fun b hb => ⟨(hrest b hb).1, Or.inr (hrest b hb).2⟩)

/-- When the number parser succeeds, the literal is a number of the grammar, the
input is the literal followed by the tail, and the literal is maximal. -/
theorem parseNumber_ok (data num tail : Bytes) (h : parseNumber data = (num, tail, none)) :
    IsNumber num ∧ data = num ++ tail ∧
      (∀ b, tail.head? = some b → ¬ isDigit b ∧ (0x2E ∈ num ∨ b ≠ 0x2E)) := by
  have key : ∀ number data : Bytes, (number = [] ∨ number = [0x2D]) →
      parseNumberDigits number data = (num, tail, none) →
      IsNumber num ∧ number ++ data = num ++ tail ∧
        (∀ b, tail.head? = some b → ¬ isDigit b ∧ (0x2E ∈ num ∨ b ≠ 0x2E)) := by
    intro number data hnum h
    rcases parseNumberDigits_cases number data with ⟨_, h1⟩ | ⟨_, h1⟩ | ⟨d, ds, rest, rfl, hds, hrest, hz⟩
    · rw [h1] at h; simp at h
    · rw [h1] at h; simp at h
    · have hint : IsInt (d :: ds) := (IsInt_iff _).2 ⟨d, ds, rfl, hds, hz⟩
      rw [parseNumberDigits_append number d ds rest hds hrest hz] at h
      cases rest with
      | nil =>
        simp only [Prod.mk.injEq] at h
        obtain ⟨rfl, rfl, _⟩ := h
        exact ⟨⟨number, d :: ds, [], by simp, hnum, hint, Or.inl rfl⟩, by simp, by simp⟩
      | cons c rest2 =>
        by_cases hc : c = 0x2E
        · subst hc
          simp only [if_true] at h
          by_cases hr : rest2 = []
          · simp [hr] at h
          · by_cases hf : digitRun rest2 = []
            · simp [hr, hf] at h
            · simp only [hr, hf, if_false, Prod.mk.injEq] at h
              obtain ⟨rfl, rfl, _⟩ := h
              refine ⟨⟨number, d :: ds, 0x2E :: digitRun rest2, by simp, hnum, hint,
                Or.inr ⟨_, rfl, hf, digitRun_all rest2⟩⟩, ?_, ?_⟩
              · have := digitRun_append_drop rest2
                simp only [List.append_assoc, List.cons_append, List.nil_append,
                  List.singleton_append, this]
              · intro b hb
                exact ⟨digitRun_drop_head rest2 b hb, Or.inl (by simp)⟩
        · simp only [hc, if_false, Prod.mk.injEq] at h
          obtain ⟨rfl, rfl, _⟩ := h
          refine ⟨⟨number, d :: ds, [], by simp, hnum, hint, Or.inl rfl⟩, by simp, ?_⟩
          intro b hb
          simp at hb
          subst hb
          exact ⟨hrest _ rfl, Or.inr hc⟩
  cases data with
  | nil => simp [parseNumber] at h
  | cons b rest =>
    unfold parseNumber at h
    by_cases hb : b = 0x2D
    · subst hb
      simp only [if_true] at h
      by_cases hr : rest.length = 0
      · simp [hr] at h
      · simp only [hr, if_false] at h
        have := key [0x2D] rest (Or.inr rfl) h
        simpa using this
    · simp only [hb, if_false] at h
      have := key [] (b :: rest) (Or.inl rfl) h
      simpa using this

/-! ## Searching a byte -/

theorem IndexByte_eq_none {data : Bytes} {c : Nat} : IndexByte data c = none ↔ c ∉ data := by
  induction data with
  | nil => simp [IndexByte]
  | cons b rest ih =>
    unfold IndexByte
    by_cases h : b = c
    · simp [h]
    · simp [h, ih, Ne.symm h]

theorem IndexByte_append_cons (pre post : Bytes) (c : Nat) (h : c ∉ pre) :
    IndexByte (pre ++ c :: post) c = some pre.length := by
  induction pre with
  | nil => simp [IndexByte]
  | cons b pre ih =>
    have hb : b ≠ c := fun e => h (e ▸ List.mem_cons_self _ _)
    have := ih (fun hc => h (List.mem_cons_of_mem _ hc))
    simp [IndexByte, hb, this]

theorem IndexByte_eq_some {data : Bytes} {c n : Nat} (h : IndexByte data c = some n) :
    ∃ pre post, data = pre ++ c :: post ∧ c ∉ pre ∧ pre.length = n := by
  induction data generalizing n with
  | nil => simp [IndexByte] at h
  | cons b rest ih =>
    unfold IndexByte at h
    by_cases hb : b = c
    · simp [hb] at h
      exact ⟨[], rest, by simp [hb], by simp, by simpa using h⟩
    · simp only [hb, if_false, Option.map_eq_some'] at h
      obtain ⟨m, hm, rfl⟩ := h
      obtain ⟨pre, post, rfl, hpre, rfl⟩ := ih hm
      exact ⟨b :: pre, post, rfl, by simp [hpre, Ne.symm hb], rfl⟩

/-! ## The raw string -/

theorem trailingBackslashes_snoc (l : Bytes) (c : Nat) :
    trailingBackslashes (l ++ [c]) = if c = 0x5C then trailingBackslashes l + 1 else 0 := by
  unfold trailingBackslashes
  by_cases h : c = 0x5C
  · simp [h, List.takeWhile]
  · simp [h, List.takeWhile]

theorem trailingBackslashes_le (l : Bytes) : trailingBackslashes l ≤ l.length := by
  unfold trailingBackslashes
  have := (List.takeWhile_sublist (fun b => decide (b = 0x5C)) (l := l.reverse)).length_le
  simpa using this

/-- The inner loop of `parseRawString` stops at the first of the backslashes
that end the prefix. -/
theorem backslashStart_add (pre rest : Bytes) :
    backslashStart (pre ++ rest) pre.length + trailingBackslashes pre = pre.length := by
  induction pre using List.reverseRecOn generalizing rest with
  | nil => simp [backslashStart, trailingBackslashes]
  | append_singleton l c ih =>
    have hg : (l ++ [c] ++ rest).getD l.length 0 = c := by
      have := getD_append_length l c rest
      simpa using this
    have hlen : (l ++ [c]).length = l.length + 1 := by simp
    rw [hlen, backslashStart, hg, trailingBackslashes_snoc]
    by_cases h : c = 0x5C
    · subst h
      have := ih ([0x5C] ++ rest)
      simp only [if_true]
      rw [List.append_assoc]
      omega
    · simp [h]

/-- Reading from the left, the state after a prefix is the parity of the
backslashes that end it. -/
theorem foldl_escStep (l : Bytes) :
    l.foldl escStep false = decide (trailingBackslashes l % 2 = 1) := by
  induction l using List.reverseRecOn with
  | nil => simp [trailingBackslashes]
  | append_singleton l c ih =>
    rw [List.foldl_append, ih, trailingBackslashes_snoc]
    by_cases h : c = 0x5C
    · by_cases hp : trailingBackslashes l % 2 = 1
      · have : ¬ (trailingBackslashes l + 1) % 2 = 1 := by omega
        simp [h, hp, this, escStep]
      · have : (trailingBackslashes l + 1) % 2 = 1 := by omega
        simp [h, hp, this, escStep]
    · by_cases hp : trailingBackslashes l % 2 = 1
      · simp [h, hp, escStep]
      · simp [h, hp, escStep]

theorem splitAtClosingQuote_none (esc : Bool) (data : Bytes) (h : 0x22 ∉ data) :
    splitAtClosingQuote esc data = none := by
  induction data generalizing esc with
  | nil => rfl
  | cons b rest ih =>
    have hb : b ≠ 0x22 := fun e => h (e ▸ List.mem_cons_self _ _)
    simp [splitAtClosingQuote, hb, ih _ (fun hc => h (List.mem_cons_of_mem _ hc))]

/-- The search from the left, over a prefix without quote. -/
theorem splitAtClosingQuote_append (esc : Bool) (pre post : Bytes) (h : 0x22 ∉ pre) :
    splitAtClosingQuote esc (pre ++ 0x22 :: post) =
      if pre.foldl escStep esc = false then some (pre, post)
      else (splitAtClosingQuote false post).map (fun p => (pre ++ 0x22 :: p.1, p.2)) := by
  induction pre generalizing esc with
  | nil =>
    cases esc
    · simp [splitAtClosingQuote]
    · simp [splitAtClosingQuote, escStep]
  | cons b pre ih =>
    have hb : b ≠ 0x22 := fun e => h (e ▸ List.mem_cons_self _ _)
    have := ih (escStep esc b) (fun hc => h (List.mem_cons_of_mem _ hc))
    rw [List.cons_append, splitAtClosingQuote]
    simp only [hb, and_false, if_false, List.foldl_cons]
    rw [this]
    split <;> simp [Option.map_map, Function.comp_def]

theorem getD_pred_length_snoc (l : Bytes) (c : Nat) (rest : Bytes) :
    (l ++ [c] ++ rest).getD ((l ++ [c]).length - 1) 0 = c := by
  have := getD_append_length l c rest
  simpa using this

/-- The test of lines 310 and 331 holds when no backslash ends the prefix. -/
theorem trailingBackslashes_of_fast (pre post : Bytes)
    (h : pre.length = 0 ∨ (pre ++ 0x22 :: post).getD (pre.length - 1) 0 ≠ 0x5C) :
    trailingBackslashes pre = 0 := by
  rcases List.eq_nil_or_concat pre with rfl | ⟨l, c, rfl⟩
  · rfl
  · simp only [List.concat_eq_append] at h ⊢
    rw [getD_pred_length_snoc] at h
    rw [trailingBackslashes_snoc]
    have : c ≠ 0x5C := by
      rcases h with h | h
      · simp at h
      · exact h
    simp [this]

/-- The test of lines 310 and 331 fails when a backslash ends the prefix. -/
theorem snoc_backslash_of_slow (pre post : Bytes)
    (h : ¬ (pre.length = 0 ∨ (pre ++ 0x22 :: post).getD (pre.length - 1) 0 ≠ 0x5C)) :
    ∃ l, pre = l ++ [0x5C] := by
  rcases List.eq_nil_or_concat pre with rfl | ⟨l, c, rfl⟩
  · simp at h
  · simp only [List.concat_eq_append] at h ⊢
    rw [getD_pred_length_snoc] at h
    refine ⟨l, ?_⟩
    have : c = 0x5C := by
      by_contra hc
      exact h (Or.inr hc)
    rw [this]

theorem take_done (done pre rest : Bytes) :
    (done ++ (pre ++ rest)).take ((done ++ (pre ++ rest)).length - (pre ++ rest).length
      + pre.length) = done ++ pre := by
  have : (done ++ (pre ++ rest)).length - (pre ++ rest).length + pre.length
      = (done ++ pre).length := by simp
  rw [this, ← List.append_assoc, List.take_left]

/-- The outer loop of `parseRawString` finds the closing quote that the search
from the left finds. -/
theorem parseRawStringLoop_eq (fuel : Nat) (done data : Bytes) (n : Nat)
    (hfuel : data.length ≤ fuel) (hn : IndexByte data 0x22 = some n)
    (hslow : ¬ (n = 0 ∨ data.getD (n - 1) 0 ≠ 0x5C)) :
    parseRawStringLoop (done ++ data) fuel data n = some (rawStringResult done data) := by
  induction fuel generalizing done data n with
  | zero =>
    have : data = [] := List.eq_nil_of_length_eq_zero (by omega)
    subst this
    simp [IndexByte] at hn
  | succ fuel ih =>
    obtain ⟨pre, post, rfl, hpre, rfl⟩ := IndexByte_eq_some hn
    obtain ⟨l, rfl⟩ := snoc_backslash_of_slow pre post hslow
    have hi := backslashStart_add l ([0x5C] ++ 0x22 :: post)
    have hle := trailingBackslashes_le l
    have htb := trailingBackslashes_snoc l 0x5C
    have hfold := foldl_escStep (l ++ [0x5C])
    have hsplit := splitAtClosingQuote_append false (l ++ [0x5C]) post hpre
    simp only [if_true] at htb
    unfold parseRawStringLoop
    have hlen : (l ++ [0x5C]).length - 1 = l.length := by simp
    have hdrop : (l ++ [0x5C] ++ 0x22 :: post).drop ((l ++ [0x5C]).length + 1) = post :=
      drop_append_length_succ _ _ _
    simp only [hlen, hdrop]
    rw [show l ++ [0x5C] ++ 0x22 :: post = l ++ ([0x5C] ++ 0x22 :: post) by simp] at *
    by_cases hpar : ((l ++ [0x5C]).length - backslashStart (l ++ ([0x5C] ++ 0x22 :: post)) l.length) % 2 = 0
    · have hev : ¬ trailingBackslashes (l ++ [0x5C]) % 2 = 1 := by
        rw [List.length_append, List.length_singleton] at hpar
        omega
      simp only [hpar, if_true]
      rw [hfold] at hsplit
      simp only [hev, decide_False, if_true] at hsplit
      unfold rawStringResult
      rw [hsplit]
      have := take_done done (l ++ [0x5C]) (0x22 :: post)
      simp only [List.append_assoc] at this
      simp only [List.append_assoc]
      rw [this]
    · have hodd : trailingBackslashes (l ++ [0x5C]) % 2 = 1 := by
        rw [List.length_append, List.length_singleton] at hpar
        omega
      simp only [hpar, if_false]
      rw [hfold] at hsplit
      simp only [hodd, decide_True, Bool.true_eq_false, if_false] at hsplit
      unfold rawStringResult
      rw [hsplit]
      cases hn2 : IndexByte post 0x22 with
      | none =>
        rw [splitAtClosingQuote_none false post (IndexByte_eq_none.1 hn2)]
        simp
      | some n2 =>
        obtain ⟨pre2, post2, rfl, hpre2, rfl⟩ := IndexByte_eq_some hn2
        have hdrop2 : (pre2 ++ 0x22 :: post2).drop (pre2.length + 1) = post2 :=
          drop_append_length_succ _ _ _
        by_cases hfast : pre2.length = 0 ∨ (pre2 ++ 0x22 :: post2).getD (pre2.length - 1) 0 ≠ 0x5C
        · have h0 := trailingBackslashes_of_fast pre2 post2 hfast
          have hs2 := splitAtClosingQuote_append false pre2 post2 hpre2
          rw [foldl_escStep, h0] at hs2
          simp only [Nat.zero_mod, zero_ne_one, decide_False, if_true] at hs2
          simp only [hfast, if_true, hs2, hdrop2, Option.map_some']
          have := take_done (done ++ (l ++ ([0x5C] ++ [0x22]))) pre2 (0x22 :: post2)
          simp only [List.append_assoc, List.cons_append, List.nil_append] at this
          simp only [List.append_assoc, List.cons_append, List.nil_append]
          rw [this]
        · simp only [hfast, if_false]
          have := ih (done ++ (l ++ ([0x5C] ++ [0x22]))) (pre2 ++ 0x22 :: post2) pre2.length
            (by simp at hfuel ⊢; omega) hn2 hfast
          simp only [List.append_assoc, List.cons_append, List.nil_append] at this
          simp only [List.append_assoc, List.cons_append, List.nil_append]
          rw [this]
          unfold rawStringResult
          cases splitAtClosingQuote false (pre2 ++ 0x22 :: post2) with
          | none => simp
          | some p => simp

/-- `parseRawString` returns the raw string and the tail that the search from
the left returns, and fails when that search finds no closing quote. -/
theorem parseRawString_eq (data : Bytes) :
    parseRawString data = some (rawStringResult [] data) := by
  unfold parseRawString
  cases hn : IndexByte data 0x22 with
  | none =>
    unfold rawStringResult
    rw [splitAtClosingQuote_none false data (IndexByte_eq_none.1 hn)]
    simp
  | some n =>
    by_cases hfast : n = 0 ∨ data.getD (n - 1) 0 ≠ 0x5C
    · obtain ⟨pre, post, rfl, hpre, rfl⟩ := IndexByte_eq_some hn
      have h0 := trailingBackslashes_of_fast pre post hfast
      have hs := splitAtClosingQuote_append false pre post hpre
      rw [foldl_escStep, h0] at hs
      simp only [Nat.zero_mod, zero_ne_one, decide_False, if_true] at hs
      unfold rawStringResult
      simp only [hfast, if_true, hs, drop_append_length_succ, List.nil_append]
      rw [List.take_left]
    · simp only [hfast, if_false]
      have := parseRawStringLoop_eq (data.length + 1) [] data n (by omega) hn hfast
      simpa using this

/-! ## The escape sequences -/

theorem Chars.mono {ok1 ok2 : Nat → Prop} (h : ∀ b, ok1 b → ok2 b) {l : Bytes}
    (hl : Chars ok1 l) : Chars ok2 l := by
  induction hl with
  | nil => exact Chars.nil
  | plain hb _ ih => exact Chars.plain (h _ hb) ih
  | escape he _ ih => exact Chars.escape he ih
  | unicode a b c d _ ih => exact Chars.unicode a b c d ih

theorem Chars.cons_inv {ok : Nat → Prop} {b : Nat} {l : Bytes} (h : Chars ok (b :: l)) :
    (ok b ∧ Chars ok l) ∨ (b = 0x5C ∧
      ((∃ e rest, l = e :: rest ∧ IsEscapeLetter e ∧ Chars ok rest) ∨
      (∃ h1 h2 h3 h4 rest, l = 0x75 :: h1 :: h2 :: h3 :: h4 :: rest ∧
        isHexDigit h1 = true ∧ isHexDigit h2 = true ∧ isHexDigit h3 = true ∧
        isHexDigit h4 = true ∧ Chars ok rest))) := by
  cases h with
  | plain hb hr => exact Or.inl ⟨hb, hr⟩
  | escape he hr => exact Or.inr ⟨rfl, Or.inl ⟨_, _, rfl, he, hr⟩⟩
  | unicode a b c d hr => exact Or.inr ⟨rfl, Or.inr ⟨_, _, _, _, _, rfl, a, b, c, d, hr⟩⟩

/-- What follows the first backslash of a well-formed run of characters. -/
theorem Chars.after_backslash {ok : Nat → Prop} (hok : ¬ ok 0x5C) (pre post : Bytes)
    (hpre : 0x5C ∉ pre) (h : Chars ok (pre ++ 0x5C :: post)) :
    (∃ e rest, post = e :: rest ∧ IsEscapeLetter e ∧ Chars ok rest) ∨
    (∃ h1 h2 h3 h4 rest, post = 0x75 :: h1 :: h2 :: h3 :: h4 :: rest ∧
      isHexDigit h1 = true ∧ isHexDigit h2 = true ∧ isHexDigit h3 = true ∧
      isHexDigit h4 = true ∧ Chars ok rest) := by
  induction pre with
  | nil =>
    rcases Chars.cons_inv h with ⟨hb, _⟩ | ⟨_, h2⟩
    · exact absurd hb hok
    · exact h2
  | cons b pre ih =>
    have hb : b ≠ 0x5C := fun e => hpre (e ▸ List.mem_cons_self _ _)
    have hpre2 : 0x5C ∉ pre := fun hc => hpre (List.mem_cons_of_mem _ hc)
    rw [List.cons_append] at h
    rcases Chars.cons_inv h with ⟨_, hr⟩ | ⟨hb2, _⟩
    · exact ih hpre2 hr
    · exact absurd hb2 hb

theorem ParseUintOk_four {h1 h2 h3 h4 : Nat} (a : isHexDigit h1 = true)
    (b : isHexDigit h2 = true) (c : isHexDigit h3 = true) (d : isHexDigit h4 = true) :
    ParseUintOk [h1, h2, h3, h4] = true := by
  simp [ParseUintOk, a, b, c, d]

/-- The loop of `parseString` accepts every well-formed run of characters. -/
theorem parseStringLoop_of_Chars (fuel : Nat) (rs tail : Bytes) (hfuel : rs.length < fuel)
    (h : Chars (fun b => b ≠ 0x5C) rs) : parseStringLoop fuel rs tail = some (tail, none) := by
  induction fuel generalizing rs with
  | zero => omega
  | succ fuel ih =>
    unfold parseStringLoop
    cases hn : IndexByte rs 0x5C with
    | none => rfl
    | some n =>
      obtain ⟨pre, post, rfl, hpre, rfl⟩ := IndexByte_eq_some hn
      simp only
      rcases Chars.after_backslash (by simp) pre post hpre h with
        ⟨e, rest, rfl, he, hr⟩ | ⟨h1, h2, h3, h4, rest, rfl, a, b, c, d, hr⟩
      · have hlen : ¬ pre.length + 1 ≥ (pre ++ 0x5C :: e :: rest).length := by simp
        have hg : (pre ++ 0x5C :: e :: rest).getD (pre.length + 1) 0 = e := by
          have := getD_append_length (pre ++ [0x5C]) e rest
          simpa using this
        have hd : (pre ++ 0x5C :: e :: rest).drop (pre.length + 1 + 1) = rest := by
          have := drop_append_length_succ (pre ++ [0x5C]) e rest
          simpa using this
        have hc : ¬ e < 0x20 := by unfold IsEscapeLetter at he; omega
        have he2 : e = 0x22 ∨ e = 0x5C ∨ e = 0x2F ∨ e = 0x62 ∨ e = 0x66 ∨ e = 0x6E
            ∨ e = 0x72 ∨ e = 0x74 := he
        simp only [hlen, hg, hd, hc, he2, if_true, if_false]
        exact ih rest (by simp at hfuel; omega) hr
      · have hlen : ¬ pre.length + 1 ≥
            (pre ++ 0x5C :: 0x75 :: h1 :: h2 :: h3 :: h4 :: rest).length := by simp
        have hg : (pre ++ 0x5C :: 0x75 :: h1 :: h2 :: h3 :: h4 :: rest).getD
            (pre.length + 1) 0 = 0x75 := by
          have := getD_append_length (pre ++ [0x5C]) 0x75 (h1 :: h2 :: h3 :: h4 :: rest)
          simpa using this
        have hd : (pre ++ 0x5C :: 0x75 :: h1 :: h2 :: h3 :: h4 :: rest).drop
            (pre.length + 1 + 1) = h1 :: h2 :: h3 :: h4 :: rest := by
          have := drop_append_length_succ (pre ++ [0x5C]) 0x75 (h1 :: h2 :: h3 :: h4 :: rest)
          simpa using this
        simp only [hlen, hg, hd, if_false]
        have hu := ParseUintOk_four a b c d
        simp only [List.take, List.drop] at hu ⊢
        simp [hu]
        exact ih rest (by simp at hfuel; omega) hr

/-- The loop of `parseString` ends within `len(rs) + 1` rounds and returns the
tail it was given. -/
theorem parseStringLoop_total (fuel : Nat) (rs tail : Bytes) (hfuel : rs.length < fuel) :
    ∃ e, parseStringLoop fuel rs tail = some (tail, e) := by
  induction fuel generalizing rs with
  | zero => omega
  | succ fuel ih =>
    unfold parseStringLoop
    cases hn : IndexByte rs 0x5C with
    | none => exact ⟨none, rfl⟩
    | some n =>
      obtain ⟨pre, post, rfl, hpre, rfl⟩ := IndexByte_eq_some hn
      simp only
      have hfuel2 : ∀ k,
          (((pre ++ 0x5C :: post).drop (pre.length + 1 + 1)).drop k).length < fuel := by
        intro k
        simp at hfuel ⊢
        omega
      split
      · exact ⟨_, rfl⟩
      · split
        · exact ⟨_, rfl⟩
        · split
          · exact ih _ (by simpa using hfuel2 0)
          · split
            · split
              · exact ⟨_, rfl⟩
              · split
                · exact ih _ (hfuel2 4)
                · exact ⟨_, rfl⟩
            · exact ⟨_, rfl⟩

/-! ## The string parser and the key validator -/

theorem splitAtClosingQuote_eq_some {esc : Bool} {data rs tail : Bytes}
    (h : splitAtClosingQuote esc data = some (rs, tail)) : data = rs ++ 0x22 :: tail := by
  induction data generalizing esc rs with
  | nil => simp [splitAtClosingQuote] at h
  | cons b rest ih =>
    unfold splitAtClosingQuote at h
    by_cases hc : esc = false ∧ b = 0x22
    · simp only [hc, and_self, if_true, Option.some.injEq, Prod.mk.injEq] at h
      obtain ⟨rfl, rfl⟩ := h
      simp [hc.2]
    · simp only [hc, if_false, Option.map_eq_some'] at h
      obtain ⟨⟨rs2, tail2⟩, h2, h3⟩ := h
      simp only [Prod.mk.injEq] at h3
      obtain ⟨rfl, rfl⟩ := h3
      rw [ih h2]
      rfl

theorem splitAtClosingQuote_ext {esc : Bool} {data rs tail : Bytes} (ext : Bytes)
    (h : splitAtClosingQuote esc data = some (rs, tail)) :
    splitAtClosingQuote esc (data ++ ext) = some (rs, tail ++ ext) := by
  induction data generalizing esc rs with
  | nil => simp [splitAtClosingQuote] at h
  | cons b rest ih =>
    unfold splitAtClosingQuote at h
    rw [List.cons_append, splitAtClosingQuote]
    by_cases hc : esc = false ∧ b = 0x22
    · simp only [hc, and_self, if_true, Option.some.injEq, Prod.mk.injEq] at h ⊢
      obtain ⟨rfl, rfl⟩ := h
      exact ⟨rfl, rfl⟩
    · simp only [hc, if_false, Option.map_eq_some'] at h ⊢
      obtain ⟨⟨rs2, tail2⟩, h2, h3⟩ := h
      simp only [Prod.mk.injEq] at h3
      obtain ⟨rfl, rfl⟩ := h3
      exact ⟨(rs2, tail2 ++ ext), ih h2, rfl⟩

/-- The search from the left stops right after a well-formed run of characters. -/
theorem splitAtClosingQuote_of_Chars {content : Bytes} (rest : Bytes)
    (h : Chars IsUnescaped content) :
    splitAtClosingQuote false (content ++ 0x22 :: rest) = some (content, rest) := by
  induction h with
  | nil => simp [splitAtClosingQuote]
  | plain hb _ ih =>
    obtain ⟨h1, h2⟩ := hb
    simp [splitAtClosingQuote, h1, h2, escStep, ih]
  | escape he _ ih =>
    simp [splitAtClosingQuote, escStep, ih]
  | @unicode h1 h2 h3 h4 r a b c d _ ih =>
    have n1 : h1 ≠ 0x22 ∧ h1 ≠ 0x5C := by
      simp only [isHexDigit, Bool.or_eq_true, Bool.and_eq_true, decide_eq_true_eq] at a; omega
    have n2 : h2 ≠ 0x22 ∧ h2 ≠ 0x5C := by
      simp only [isHexDigit, Bool.or_eq_true, Bool.and_eq_true, decide_eq_true_eq] at b; omega
    have n3 : h3 ≠ 0x22 ∧ h3 ≠ 0x5C := by
      simp only [isHexDigit, Bool.or_eq_true, Bool.and_eq_true, decide_eq_true_eq] at c; omega
    have n4 : h4 ≠ 0x22 ∧ h4 ≠ 0x5C := by
      simp only [isHexDigit, Bool.or_eq_true, Bool.and_eq_true, decide_eq_true_eq] at d; omega
    simp [splitAtClosingQuote, escStep, ih, n1, n2, n3, n4]

theorem trailingBackslashes_of_not_mem (pre : Bytes) (h : 0x5C ∉ pre) :
    trailingBackslashes pre = 0 := by
  rcases List.eq_nil_or_concat pre with rfl | ⟨l, c, rfl⟩
  · rfl
  · simp only [List.concat_eq_append] at h ⊢
    rw [trailingBackslashes_snoc]
    have : c ≠ 0x5C := fun e => h (by simp [e])
    simp [this]

/-- `parseString` in terms of the search from the left: it fails when there is
no closing quote, and otherwise walks the escape sequences of the raw string. -/
theorem parseString_eq (data : Bytes) :
    parseString data =
      match splitAtClosingQuote false data with
      | none => some ([], some [.text "missing closing '\"'"])
      | some (rs, tail) => parseStringLoop (rs.length + 1) rs tail := by
  have hslow : (match parseRawString data with
      | none => none
      | some (_, tail, some err) => some (tail, some err)
      | some (rs, tail, none) => parseStringLoop (rs.length + 1) rs tail) =
      match splitAtClosingQuote false data with
      | none => some ([], some [.text "missing closing '\"'"])
      | some (rs, tail) => parseStringLoop (rs.length + 1) rs tail := by
    rw [parseRawString_eq]
    unfold rawStringResult
    cases splitAtClosingQuote false data with
    | none => rfl
    | some p => rfl
  unfold parseString
  cases hn : IndexByte data 0x22 with
  | none => exact hslow
  | some n =>
    simp only
    by_cases hf : IndexByte (data.take n) 0x5C = none
    · obtain ⟨pre, post, rfl, hpre, rfl⟩ := IndexByte_eq_some hn
      rw [List.take_left] at hf
      have hs := splitAtClosingQuote_append false pre post hpre
      rw [foldl_escStep, trailingBackslashes_of_not_mem pre (IndexByte_eq_none.1 hf)] at hs
      simp only [Nat.zero_mod, zero_ne_one, decide_False, if_true] at hs
      simp only [List.take_left, hf, if_true, hs, drop_append_length_succ]
      unfold parseStringLoop
      simp [hf]
    · simp only [hf, if_false]
      exact hslow

/-- `parseString` returns on every input, and its tail is a suffix of the input. -/
theorem parseString_total (data : Bytes) :
    ∃ tail e, parseString data = some (tail, e) ∧ tail <:+ data := by
  rw [parseString_eq]
  cases h : splitAtClosingQuote false data with
  | none => exact ⟨[], _, rfl, List.nil_suffix⟩
  | some p =>
    obtain ⟨rs, tail⟩ := p
    obtain ⟨e, he⟩ := parseStringLoop_total (rs.length + 1) rs tail (by omega)
    refine ⟨tail, e, he, ?_⟩
    rw [splitAtClosingQuote_eq_some h]
    exact ⟨rs ++ [0x22], by simp⟩

/-- `parseString` accepts every well-formed run of characters that a quote closes. -/
theorem parseString_of_Chars {content : Bytes} (rest : Bytes) (h : Chars IsUnescaped content) :
    parseString (content ++ 0x22 :: rest) = some (rest, none) := by
  rw [parseString_eq, splitAtClosingQuote_of_Chars rest h]
  exact parseStringLoop_of_Chars _ _ _ (by omega) (h.mono (fun b hb => hb.2))

/-- The error of the loop of `parseString` does not depend on the tail it carries. -/
theorem parseStringLoop_tail (fuel : Nat) (rs tail tail2 : Bytes) :
    (parseStringLoop fuel rs tail).map Prod.snd = (parseStringLoop fuel rs tail2).map Prod.snd := by
  induction fuel generalizing rs with
  | zero => rfl
  | succ fuel ih =>
    unfold parseStringLoop
    cases IndexByte rs 0x5C with
    | none => rfl
    | some n =>
      simp only
      split_ifs <;> first | rfl | exact ih _

theorem parseStringLoop_tail_eq {fuel : Nat} {rs tail t : Bytes} {e : Option Err} (tail2 : Bytes)
    (hfuel : rs.length < fuel) (h : parseStringLoop fuel rs tail = some (t, e)) :
    t = tail ∧ parseStringLoop fuel rs tail2 = some (tail2, e) := by
  obtain ⟨e1, h1⟩ := parseStringLoop_total fuel rs tail hfuel
  obtain ⟨e2, h2⟩ := parseStringLoop_total fuel rs tail2 hfuel
  have := parseStringLoop_tail fuel rs tail tail2
  rw [h1, h2] at this
  rw [h1] at h
  simp only [Option.map_some', Option.some.injEq] at this
  simp only [Option.some.injEq, Prod.mk.injEq] at h
  obtain ⟨rfl, rfl⟩ := h
  exact ⟨rfl, by rw [h2, ← this]⟩

/-- Bytes after the tail of an accepted string do not change how it is read. -/
theorem parseString_ext {data tail : Bytes} (ext : Bytes)
    (h : parseString data = some (tail, none)) :
    parseString (data ++ ext) = some (tail ++ ext, none) := by
  rw [parseString_eq] at h ⊢
  cases hs : splitAtClosingQuote false data with
  | none => simp [hs] at h
  | some p =>
    obtain ⟨rs, t⟩ := p
    rw [hs] at h
    rw [splitAtClosingQuote_ext ext hs]
    simp only at h ⊢
    obtain ⟨rfl, h2⟩ := parseStringLoop_tail_eq (t ++ ext) (by omega) h
    exact h2

theorem parseString_fast (pre post : Bytes) (h1 : 0x22 ∉ pre) (h2 : 0x5C ∉ pre) :
    parseString (pre ++ 0x22 :: post) = some (post, none) := by
  unfold parseString
  simp only [IndexByte_append_cons pre post 0x22 h1, List.take_left,
    IndexByte_eq_none.2 h2, if_true, drop_append_length_succ]

theorem parseString_no_quote (data : Bytes) (h : 0x22 ∉ data) :
    parseString data = some ([], some [.text "missing closing '\"'"]) := by
  rw [parseString_eq, splitAtClosingQuote_none false data h]

/-- The loop of `validateKey`, after a prefix without quote and backslash. -/
theorem validateKeyLoop_eq (pre rest : Bytes) (h1 : 0x22 ∉ pre) (h2 : 0x5C ∉ pre) :
    validateKeyLoop (pre ++ rest) rest =
      if 0x22 ∉ rest ∧ 0x5C ∉ rest then
        some (pre ++ rest, some [.text "missing closing '\"'"])
      else parseString (pre ++ rest) := by
  induction rest generalizing pre with
  | nil => simp [validateKeyLoop]
  | cons b r ih =>
    unfold validateKeyLoop
    by_cases hq : b = 0x22
    · subst hq
      simp [parseString_fast pre r h1 h2]
    · by_cases hb : b = 0x5C
      · subst hb
        simp
      · simp only [hq, hb, if_false]
        have := ih (pre ++ [b]) (by simp [h1, Ne.symm hq]) (by simp [h2, Ne.symm hb])
        simp only [List.append_assoc, List.singleton_append] at this
        rw [this]
        simp [Ne.symm hq, Ne.symm hb]

/-- `validateKey` is `parseString`, except for the tail it returns when the key
has neither a quote nor a backslash. -/
theorem validateKey_eq (data : Bytes) :
    validateKey data =
      if 0x22 ∉ data ∧ 0x5C ∉ data then some (data, some [.text "missing closing '\"'"])
      else parseString data := by
  have := validateKeyLoop_eq [] data (by simp) (by simp)
  simpa [validateKey] using this

/-- `validateKey` accepts what `parseString` accepts, with the same tail. -/
theorem validateKey_ok_iff (data tail : Bytes) :
    validateKey data = some (tail, none) ↔ parseString data = some (tail, none) := by
  rw [validateKey_eq]
  by_cases h : 0x22 ∉ data ∧ 0x5C ∉ data
  · simp [h, parseString_no_quote data h.1]
  · simp [h]

theorem validateKey_total (data : Bytes) :
    ∃ tail e, validateKey data = some (tail, e) ∧ tail <:+ data := by
  rw [validateKey_eq]
  by_cases h : 0x22 ∉ data ∧ 0x5C ∉ data
  · exact ⟨data, some [.text "missing closing '\"'"], by simp [h], List.suffix_refl _⟩
  · simp only [h, if_false]
    exact parseString_total data

theorem validateKey_of_Chars {content : Bytes} (rest : Bytes) (h : Chars IsUnescaped content) :
    validateKey (content ++ 0x22 :: rest) = some (rest, none) :=
  (validateKey_ok_iff _ _).2 (parseString_of_Chars rest h)

theorem validateKey_ext {data tail : Bytes} (ext : Bytes)
    (h : validateKey data = some (tail, none)) :
    validateKey (data ++ ext) = some (tail ++ ext, none) :=
  (validateKey_ok_iff _ _).2 (parseString_ext ext ((validateKey_ok_iff _ _).1 h))

/-! ## What every run maintains -/

theorem JsonParser.add_nil (json : JsonParser) : json.add [] [] = json := by
  simp [JsonParser.add]

theorem JsonParser.add_add (json : JsonParser) (i1 f1 i2 f2 : List Bytes) :
    (json.add i1 f1).add i2 f2 = json.add (i1 ++ i2) (f1 ++ f2) := by
  simp [JsonParser.add]

theorem Inv.base {json : JsonParser} {data tail : Bytes} (e : Option Err)
    (h : tail <:+ data) : Inv json data ⟨json, tail, e⟩ :=
  ⟨h, [], [], (json.add_nil).symm, by simp, by simp⟩

theorem Inv.step {json : JsonParser} {data : Bytes} {r1 r2 : Res}
    (h1 : Inv json data r1) (h2 : Inv r1.json r1.tail r2) : Inv json data r2 := by
  obtain ⟨s1, i1, f1, e1, hi1, hf1⟩ := h1
  obtain ⟨s2, i2, f2, e2, hi2, hf2⟩ := h2
  refine ⟨s2.trans s1, i1 ++ i2, f1 ++ f2, ?_, ?_, ?_⟩
  · rw [e2, e1, JsonParser.add_add]
  · intro l hl
    rcases List.mem_append.1 hl with h | h
    · exact hi1 l h
    · exact hi2 l h
  · intro l hl
    rcases List.mem_append.1 hl with h | h
    · exact hf1 l h
    · exact hf2 l h

theorem Inv.weaken {json : JsonParser} {data data1 : Bytes} {r : Res}
    (hs : data1 <:+ data) (h : Inv json data1 r) : Inv json data r :=
  ⟨h.1.trans hs, h.2⟩

theorem Inv.retail {json : JsonParser} {data : Bytes} {r : Res} (h : Inv json data r)
    (t : Bytes) (e : Option Err) (ht : t <:+ r.tail) : Inv json data ⟨r.json, t, e⟩ :=
  ⟨ht.trans h.1, h.2⟩

theorem Inv.wrap {json : JsonParser} {data : Bytes} {r : Res} (t : String)
    (h : Inv json data r) : Inv json data (wrap t r) := by
  unfold jsonparser.wrap
  cases r.err with
  | none => exact h
  | some e => exact h

theorem suffix_of_removeWS_eq {data : Bytes} {b : Nat} {rest : Bytes}
    (h : removeWS data = b :: rest) : rest <:+ data :=
  (List.suffix_cons b rest).trans (h ▸ removeWS_suffix data)

theorem parseNumberDigits_tail_suffix (number data : Bytes) :
    (parseNumberDigits number data).2.1 <:+ data := by
  unfold parseNumberDigits
  simp only
  split_ifs
  all_goals first
    | exact List.suffix_refl _
    | exact List.nil_suffix
    | exact List.drop_suffix _ _
    | exact (List.drop_suffix _ _).trans (List.drop_suffix _ _)

theorem parseNumber_tail_suffix (data : Bytes) : (parseNumber data).2.1 <:+ data := by
  unfold parseNumber
  cases data with
  | nil => exact List.suffix_refl _
  | cons b rest =>
    simp only
    split_ifs
    · exact List.suffix_cons _ _
    · exact (parseNumberDigits_tail_suffix _ _).trans (List.suffix_cons _ _)
    · exact parseNumberDigits_tail_suffix _ _

theorem IsNumber.head {l : Bytes} (h : IsNumber l) :
    ∃ b rest, l = b :: rest ∧ (b = 0x2D ∨ isDigit b) := by
  obtain ⟨sign, int, frac, rfl, hsign, hint, _⟩ := h
  obtain ⟨d, ds, rfl, hds, _⟩ := (IsInt_iff int).1 hint
  rcases hsign with rfl | rfl
  · exact ⟨d, ds ++ frac, by simp, Or.inr (hds d (List.mem_cons_self _ _))⟩
  · exact ⟨0x2D, d :: ds ++ frac, by simp, Or.inl rfl⟩

/-- How `parseJson` files a literal of the number parser (lines 110-116). -/
theorem classify_number {l : Bytes} (h : IsNumber l) :
    (IndexByte l 0x2E = none ∧ 0x2E ∉ l) ∨
    (∃ n, IndexByte l 0x2E = some n ∧ n > 0 ∧ 0x2E ∈ l) := by
  cases hn : IndexByte l 0x2E with
  | none => exact Or.inl ⟨rfl, IndexByte_eq_none.1 hn⟩
  | some n =>
    right
    obtain ⟨pre, post, rfl, hpre, rfl⟩ := IndexByte_eq_some hn
    refine ⟨_, rfl, ?_, by simp⟩
    obtain ⟨b, rest, hb, hb2⟩ := h.head
    cases pre with
    | nil =>
      simp only [List.nil_append, List.cons.injEq] at hb
      obtain ⟨rfl, _⟩ := hb
      simp [isDigit] at hb2
    | cons c pre => simp


theorem parseJson_inv_step (f : Nat)
    (ihO : ∀ json data r, parseObject f json data = some r → Inv json data r)
    (ihA : ∀ json data r, parseArray f json data = some r → Inv json data r) :
    ∀ json data r, parseJson (f + 1) json data = some r → Inv json data r := by
  intro json data r h
  cases data with
  | nil =>
    rw [parseJson] at h
    simp only [Option.some.injEq] at h
    subst h
    exact Inv.base _ (List.suffix_refl _)
  | cons b rest =>
    rw [parseJson] at h
    split_ifs at h with h1 h2 h3 h4 h5 h6 h7 h8 h9
    · obtain ⟨r0, h0, rfl⟩ := Option.map_eq_some'.1 h
      exact ((ihO _ _ _ h0).wrap _).weaken (List.suffix_cons _ _)
    · obtain ⟨r0, h0, rfl⟩ := Option.map_eq_some'.1 h
      exact ((ihA _ _ _ h0).wrap _).weaken (List.suffix_cons _ _)
    · obtain ⟨tail, e, he, hs⟩ := parseString_total rest
      rw [he] at h
      cases e with
      | none =>
        simp only [Option.some.injEq] at h
        subst h
        exact Inv.base _ (hs.trans (List.suffix_cons _ _))
      | some e =>
        simp only [Option.some.injEq] at h
        subst h
        exact Inv.base _ (hs.trans (List.suffix_cons _ _))
    · simp only [Option.some.injEq] at h
      subst h
      exact Inv.base _ (List.suffix_refl _)
    · simp only [Option.some.injEq] at h
      subst h
      exact Inv.base _ (List.drop_suffix _ _)
    · simp only [Option.some.injEq] at h
      subst h
      exact Inv.base _ (List.suffix_refl _)
    · simp only [Option.some.injEq] at h
      subst h
      exact Inv.base _ (List.drop_suffix _ _)
    · simp only [Option.some.injEq] at h
      subst h
      exact Inv.base _ (List.suffix_refl _)
    · simp only [Option.some.injEq] at h
      subst h
      exact Inv.base _ (List.drop_suffix _ _)
    · have hsuf := parseNumber_tail_suffix (b :: rest)
      rcases hp : parseNumber (b :: rest) with ⟨num, tail, e⟩
      rw [hp] at h hsuf
      cases e with
      | some e =>
        simp only [Option.some.injEq] at h
        subst h
        exact Inv.base _ hsuf
      | none =>
        have hnum := (parseNumber_ok _ _ _ hp).1
        simp only at h
        rcases classify_number hnum with ⟨hn, hmem⟩ | ⟨n, hn, hpos, hmem⟩
        · rw [hn] at h
          simp only [Option.some.injEq] at h
          subst h
          exact ⟨hsuf, [num], [], by simp [JsonParser.add], by simp [hnum, hmem], by simp⟩
        · rw [hn] at h
          simp only [hpos, if_true, Option.some.injEq] at h
          subst h
          exact ⟨hsuf, [], [num], by simp [JsonParser.add], by simp, by simp [hnum, hmem]⟩


theorem parseArray_inv_step (f : Nat)
    (ihL : ∀ json data r, parseArrayLoop f json data = some r → Inv json data r) :
    ∀ json data r, parseArray (f + 1) json data = some r → Inv json data r := by
  intro json data r h
  rw [parseArray] at h
  cases hw : removeWS data with
  | nil =>
    simp only [hw, Option.some.injEq] at h
    subst h
    exact Inv.base _ List.nil_suffix
  | cons b rest =>
    simp only [hw] at h
    split_ifs at h with h1
    · simp only [Option.some.injEq] at h
      subst h
      exact Inv.base _ (suffix_of_removeWS_eq hw)
    · exact (ihL _ _ _ h).weaken (hw ▸ removeWS_suffix data)

theorem parseObject_inv_step (f : Nat)
    (ihL : ∀ json data r, parseObjectLoop f json data = some r → Inv json data r) :
    ∀ json data r, parseObject (f + 1) json data = some r → Inv json data r := by
  intro json data r h
  rw [parseObject] at h
  cases hw : removeWS data with
  | nil =>
    simp only [hw, Option.some.injEq] at h
    subst h
    exact Inv.base _ List.nil_suffix
  | cons b rest =>
    simp only [hw] at h
    split_ifs at h with h1
    · simp only [Option.some.injEq] at h
      subst h
      exact Inv.base _ (suffix_of_removeWS_eq hw)
    · exact (ihL _ _ _ h).weaken (hw ▸ removeWS_suffix data)

theorem parseArrayLoop_inv_step (f : Nat)
    (ihJ : ∀ json data r, parseJson f json data = some r → Inv json data r)
    (ihL : ∀ json data r, parseArrayLoop f json data = some r → Inv json data r) :
    ∀ json data r, parseArrayLoop (f + 1) json data = some r → Inv json data r := by
  intro json data r h
  rw [parseArrayLoop] at h
  cases hj : parseJson f json (removeWS data) with
  | none => simp [hj] at h
  | some r1 =>
    have h1 := (ihJ _ _ _ hj).weaken (removeWS_suffix data)
    obtain ⟨j1, t1, e1⟩ := r1
    cases e1 with
    | some e =>
      simp only [hj, Option.some.injEq] at h
      subst h
      exact h1.retail _ _ (List.suffix_refl _)
    | none =>
      simp only [hj] at h
      cases hw : removeWS t1 with
      | nil =>
        simp only [hw, Option.some.injEq] at h
        subst h
        exact h1.retail _ _ List.nil_suffix
      | cons b rest =>
        simp only [hw] at h
        have hrest : rest <:+ t1 := suffix_of_removeWS_eq hw
        split_ifs at h with h2 h3
        · exact h1.step ((ihL _ _ _ h).weaken hrest)
        · simp only [Option.some.injEq] at h
          subst h
          exact h1.retail _ _ hrest
        · simp only [Option.some.injEq] at h
          subst h
          exact h1.retail _ _ (hw ▸ removeWS_suffix t1)

theorem parseObjectLoop_inv_step (f : Nat)
    (ihJ : ∀ json data r, parseJson f json data = some r → Inv json data r)
    (ihL : ∀ json data r, parseObjectLoop f json data = some r → Inv json data r) :
    ∀ json data r, parseObjectLoop (f + 1) json data = some r → Inv json data r := by
  intro json data r h
  rw [parseObjectLoop] at h
  cases hw : removeWS data with
  | nil =>
    simp only [hw, Option.some.injEq] at h
    subst h
    exact Inv.base _ List.nil_suffix
  | cons b rest =>
    simp only [hw] at h
    have hrest : rest <:+ data := suffix_of_removeWS_eq hw
    split_ifs at h with h1
    · simp only [Option.some.injEq] at h
      subst h
      exact Inv.base _ (hw ▸ removeWS_suffix data)
    · obtain ⟨d1, e1, hk, hs1⟩ := validateKey_total rest
      rw [hk] at h
      cases e1 with
      | some e =>
        simp only [Option.some.injEq] at h
        subst h
        exact Inv.base _ (hs1.trans hrest)
      | none =>
        simp only at h
        cases hw2 : removeWS d1 with
        | nil =>
          simp only [hw2, Option.some.injEq] at h
          subst h
          exact Inv.base _ List.nil_suffix
        | cons b2 rest2 =>
          simp only [hw2] at h
          have hrest2 : rest2 <:+ data := (suffix_of_removeWS_eq hw2).trans (hs1.trans hrest)
          split_ifs at h with h2
          · simp only [Option.some.injEq] at h
            subst h
            exact Inv.base _ ((hw2 ▸ removeWS_suffix d1).trans (hs1.trans hrest))
          · cases hj : parseJson f json (removeWS rest2) with
            | none => simp [hj] at h
            | some r1 =>
              have hr1 := (ihJ _ _ _ hj).weaken ((removeWS_suffix rest2).trans hrest2)
              obtain ⟨j1, t1, e1⟩ := r1
              cases e1 with
              | some e =>
                simp only [hj, Option.some.injEq] at h
                subst h
                exact hr1.retail _ _ (List.suffix_refl _)
              | none =>
                simp only [hj] at h
                cases hw3 : removeWS t1 with
                | nil =>
                  simp only [hw3, Option.some.injEq] at h
                  subst h
                  exact hr1.retail _ _ List.nil_suffix
                | cons b3 rest3 =>
                  simp only [hw3] at h
                  have hrest3 : rest3 <:+ t1 := suffix_of_removeWS_eq hw3
                  split_ifs at h with h3 h4
                  · exact hr1.step ((ihL _ _ _ h).weaken hrest3)
                  · simp only [Option.some.injEq] at h
                    subst h
                    exact hr1.retail _ _ hrest3
                  · simp only [Option.some.injEq] at h
                    subst h
                    exact hr1.retail _ _ (hw3 ▸ removeWS_suffix t1)

/-- Every run of the five parsing methods maintains `Inv`. -/
theorem inv_all (f : Nat) :
    (∀ json data r, parseJson f json data = some r → Inv json data r) ∧
    (∀ json data r, parseObject f json data = some r → Inv json data r) ∧
    (∀ json data r, parseObjectLoop f json data = some r → Inv json data r) ∧
    (∀ json data r, parseArray f json data = some r → Inv json data r) ∧
    (∀ json data r, parseArrayLoop f json data = some r → Inv json data r) := by
  induction f with
  | zero =>
    refine ⟨?_, ?_, ?_, ?_, ?_⟩ <;> intro json data r h
    · simp [parseJson] at h
    · simp [parseObject] at h
    · simp [parseObjectLoop] at h
    · simp [parseArray] at h
    · simp [parseArrayLoop] at h
  | succ f ih =>
    obtain ⟨ihJ, ihO, ihOL, ihA, ihAL⟩ := ih
    exact ⟨parseJson_inv_step f ihO ihA, parseObject_inv_step f ihOL,
      parseObjectLoop_inv_step f ihJ ihOL, parseArray_inv_step f ihAL,
      parseArrayLoop_inv_step f ihJ ihAL⟩

/-! ## Termination within the fuel -/

theorem parseJson_total_step (f : Nat)
    (ihO : ∀ json data, 3 * data.length + 3 ≤ f → ∃ r, parseObject f json data = some r)
    (ihA : ∀ json data, 3 * data.length + 3 ≤ f → ∃ r, parseArray f json data = some r) :
    ∀ json data, 3 * data.length + 1 ≤ f + 1 → ∃ r, parseJson (f + 1) json data = some r := by
  intro json data hf
  cases data with
  | nil => exact ⟨_, by rw [parseJson]⟩
  | cons b rest =>
    rw [parseJson]
    simp only [List.length_cons] at hf
    split_ifs
    · obtain ⟨r, hr⟩ := ihO json rest (by omega)
      exact ⟨_, by rw [hr]; rfl⟩
    · obtain ⟨r, hr⟩ := ihA json rest (by omega)
      exact ⟨_, by rw [hr]; rfl⟩
    · obtain ⟨tail, e, he, _⟩ := parseString_total rest
      rw [he]
      cases e <;> exact ⟨_, rfl⟩
    · exact ⟨_, rfl⟩
    · exact ⟨_, rfl⟩
    · exact ⟨_, rfl⟩
    · exact ⟨_, rfl⟩
    · exact ⟨_, rfl⟩
    · exact ⟨_, rfl⟩
    · rcases parseNumber (b :: rest) with ⟨num, tail, e⟩
      cases e with
      | some e => exact ⟨_, rfl⟩
      | none =>
        simp only
        cases IndexByte num 0x2E with
        | none => exact ⟨_, rfl⟩
        | some n =>
          simp only
          split_ifs <;> exact ⟨_, rfl⟩

theorem parseArray_total_step (f : Nat)
    (ihL : ∀ json data, 3 * data.length + 2 ≤ f → ∃ r, parseArrayLoop f json data = some r) :
    ∀ json data, 3 * data.length + 3 ≤ f + 1 → ∃ r, parseArray (f + 1) json data = some r := by
  intro json data hf
  rw [parseArray]
  have hlen := removeWS_length_le data
  cases hw : removeWS data with
  | nil => exact ⟨_, rfl⟩
  | cons b rest =>
    simp only
    rw [hw] at hlen
    split_ifs
    · exact ⟨_, rfl⟩
    · exact ihL json (b :: rest) (by omega)

theorem parseObject_total_step (f : Nat)
    (ihL : ∀ json data, 3 * data.length + 2 ≤ f → ∃ r, parseObjectLoop f json data = some r) :
    ∀ json data, 3 * data.length + 3 ≤ f + 1 → ∃ r, parseObject (f + 1) json data = some r := by
  intro json data hf
  rw [parseObject]
  have hlen := removeWS_length_le data
  cases hw : removeWS data with
  | nil => exact ⟨_, rfl⟩
  | cons b rest =>
    simp only
    rw [hw] at hlen
    split_ifs
    · exact ⟨_, rfl⟩
    · exact ihL json (b :: rest) (by omega)

theorem parseArrayLoop_total_step (f : Nat)
    (ihJ : ∀ json data, 3 * data.length + 1 ≤ f → ∃ r, parseJson f json data = some r)
    (ihL : ∀ json data, 3 * data.length + 2 ≤ f → ∃ r, parseArrayLoop f json data = some r) :
    ∀ json data, 3 * data.length + 2 ≤ f + 1 →
      ∃ r, parseArrayLoop (f + 1) json data = some r := by
  intro json data hf
  rw [parseArrayLoop]
  have hlen := removeWS_length_le data
  obtain ⟨r1, hj⟩ := ihJ json (removeWS data) (by omega)
  have hinv := ((inv_all f).1 _ _ _ hj).1.length_le
  rw [hj]
  obtain ⟨j1, t1, e1⟩ := r1
  cases e1 with
  | some e => exact ⟨_, rfl⟩
  | none =>
    simp only
    have hlen2 := removeWS_length_le t1
    cases hw : removeWS t1 with
    | nil => exact ⟨_, rfl⟩
    | cons b rest =>
      simp only
      rw [hw] at hlen2
      simp only [List.length_cons] at hlen2
      simp only at hinv
      split_ifs
      · exact ihL j1 rest (by omega)
      · exact ⟨_, rfl⟩
      · exact ⟨_, rfl⟩

theorem parseObjectLoop_total_step (f : Nat)
    (ihJ : ∀ json data, 3 * data.length + 1 ≤ f → ∃ r, parseJson f json data = some r)
    (ihL : ∀ json data, 3 * data.length + 2 ≤ f → ∃ r, parseObjectLoop f json data = some r) :
    ∀ json data, 3 * data.length + 2 ≤ f + 1 →
      ∃ r, parseObjectLoop (f + 1) json data = some r := by
  intro json data hf
  rw [parseObjectLoop]
  have hlen := removeWS_length_le data
  cases hw : removeWS data with
  | nil => exact ⟨_, rfl⟩
  | cons b rest =>
    simp only
    rw [hw] at hlen
    simp only [List.length_cons] at hlen
    split_ifs
    · exact ⟨_, rfl⟩
    · obtain ⟨d1, e1, hk, hs1⟩ := validateKey_total rest
      have hl1 := hs1.length_le
      rw [hk]
      cases e1 with
      | some e => exact ⟨_, rfl⟩
      | none =>
        simp only
        have hlen2 := removeWS_length_le d1
        cases hw2 : removeWS d1 with
        | nil => exact ⟨_, rfl⟩
        | cons b2 rest2 =>
          simp only
          rw [hw2] at hlen2
          simp only [List.length_cons] at hlen2
          split_ifs
          · exact ⟨_, rfl⟩
          · have hlen3 := removeWS_length_le rest2
            obtain ⟨r1, hj⟩ := ihJ json (removeWS rest2) (by omega)
            have hinv := ((inv_all f).1 _ _ _ hj).1.length_le
            rw [hj]
            obtain ⟨j1, t1, e1⟩ := r1
            cases e1 with
            | some e => exact ⟨_, rfl⟩
            | none =>
              simp only
              have hlen4 := removeWS_length_le t1
              cases hw3 : removeWS t1 with
              | nil => exact ⟨_, rfl⟩
              | cons b3 rest3 =>
                simp only
                rw [hw3] at hlen4
                simp only [List.length_cons] at hlen4
                simp only at hinv
                split_ifs
                · exact ihL j1 rest3 (by omega)
                · exact ⟨_, rfl⟩
                · exact ⟨_, rfl⟩

/-- With fuel three times the length of the input (and one to three more), the
five parsing methods return. -/
theorem total_all (f : Nat) :
    (∀ json data, 3 * data.length + 1 ≤ f → ∃ r, parseJson f json data = some r) ∧
    (∀ json data, 3 * data.length + 3 ≤ f → ∃ r, parseObject f json data = some r) ∧
    (∀ json data, 3 * data.length + 2 ≤ f → ∃ r, parseObjectLoop f json data = some r) ∧
    (∀ json data, 3 * data.length + 3 ≤ f → ∃ r, parseArray f json data = some r) ∧
    (∀ json data, 3 * data.length + 2 ≤ f → ∃ r, parseArrayLoop f json data = some r) := by
  induction f with
  | zero =>
    refine ⟨?_, ?_, ?_, ?_, ?_⟩ <;> intro json data h <;> omega
  | succ f ih =>
    obtain ⟨ihJ, ihO, ihOL, ihA, ihAL⟩ := ih
    exact ⟨parseJson_total_step f ihO ihA, parseObject_total_step f ihOL,
      parseObjectLoop_total_step f ihJ ihOL, parseArray_total_step f ihAL,
      parseArrayLoop_total_step f ihJ ihAL⟩

/-! ## The entry point -/

theorem parseJson_fuelFor (json : JsonParser) (data : Bytes) :
    ∃ r, parseJson (fuelFor data) json data = some r ∧ Inv json data r := by
  obtain ⟨r, hr⟩ := (total_all (fuelFor data)).1 json data (le_refl _)
  exact ⟨r, hr, (inv_all _).1 _ _ _ hr⟩

/-- `IsValid` returns on every input. -/
theorem IsValid_total (json : JsonParser) : ∃ json2 e, IsValid json = some (json2, e) := by
  unfold IsValid
  simp only
  obtain ⟨r, hr, _⟩ := parseJson_fuelFor { json with data := removeWS json.data } (removeWS json.data)
  rw [hr]
  obtain ⟨j1, t1, e1⟩ := r
  cases e1 with
  | some e => exact ⟨_, _, rfl⟩
  | none =>
    simp only
    split_ifs <;> exact ⟨_, _, rfl⟩

/-- What `IsValid` returns, from what `parseJson` returns. -/
theorem IsValid_of_parseJson {data : Bytes} {r : Res}
    (h : parseJson (fuelFor (removeWS data)) ⟨removeWS data, [], []⟩ (removeWS data) = some r) :
    IsValid (NewParser data) = some (r.json,
      match r.err with
      | some e => some (.text "cannot parse JSON: " :: e ++
          [.text "; unparsed tail: ", .q (makeErrorTrace r.tail)])
      | none =>
        if (removeWS r.tail).length > 0 then
          some [.text "unexpected tail: ", .q (makeErrorTrace (removeWS r.tail))]
        else none) := by
  unfold IsValid NewParser
  simp only
  rw [h]
  obtain ⟨j1, t1, e1⟩ := r
  cases e1 with
  | some e => rfl
  | none =>
    simp only
    split_ifs <;> rfl

theorem render_text_cons (v : Verbs) (t : String) (ps : Err) :
    render v (.text t :: ps) = lit t ++ render v ps := rfl

theorem count_dot_of_digits (l : Bytes) (h : ∀ b ∈ l, isDigit b) : l.count 0x2E = 0 := by
  rw [List.count_eq_zero]
  intro hm
  have := h _ hm
  simp [isDigit] at this

/-- A number with a `.` has exactly one. -/
theorem IsNumber.count_dot {l : Bytes} (h : IsNumber l) (hd : 0x2E ∈ l) : l.count 0x2E = 1 := by
  obtain ⟨sign, int, frac, rfl, hsign, hint, hfrac⟩ := h
  obtain ⟨d, ds, rfl, hds, _⟩ := (IsInt_iff int).1 hint
  have hs : sign.count 0x2E = 0 := by rcases hsign with rfl | rfl <;> simp
  have hi := count_dot_of_digits (d :: ds) hds
  rcases hfrac with rfl | ⟨fd, rfl, _, hfd⟩
  · exfalso
    have : (sign ++ d :: ds ++ []).count 0x2E = 0 := by
      simp only [List.append_nil, List.count_append, hs, hi]
    exact (List.count_eq_zero.1 this) hd
  · have hf := count_dot_of_digits fd hfd
    simp only [List.count_append, hs, hi, List.count_cons_self, hf]

theorem parseNumber_sign (sign int rest : Bytes) (hs : sign = [] ∨ sign = [0x2D])
    (hi : IsInt int) : parseNumber (sign ++ int ++ rest) = parseNumberDigits sign (int ++ rest) := by
  obtain ⟨d, ds, rfl, hds, _⟩ := (IsInt_iff int).1 hi
  have hd := hds d (List.mem_cons_self _ _)
  rcases hs with rfl | rfl
  · have hne : d ≠ 0x2D := by unfold isDigit at hd; omega
    simp [parseNumber, hne]
  · simp [parseNumber]

theorem parseNumberDigits_leading_zero (number rest : Bytes) (d : Nat) (hd : isDigit d) :
    parseNumberDigits number (0x30 :: d :: rest) =
      (number ++ 0x30 :: d :: digitRun rest, 0x30 :: d :: rest,
        some [.text "unexpected number starting from 0"]) := by
  have hrun : digitRun (0x30 :: d :: rest) = 0x30 :: d :: digitRun rest := by
    unfold isDigit at hd
    have h : ¬ (d < 0x30 ∨ d > 0x39) := by omega
    simp [digitRun, h]
  unfold parseNumberDigits
  simp only [hrun]
  have h1 : ¬ (0x30 :: d :: digitRun rest).length ≤ 0 := by simp
  have h2 : (0x30 :: d :: rest).headD 0 = 0x30 ∧ (0x30 :: d :: digitRun rest).length ≠ 1 := by
    simp
  rw [if_neg h1, if_pos h2]

theorem not_containsText_of_length_lt (msg : Bytes) (t : String)
    (h : msg.length < (lit t).length) : ¬ ContainsText msg t := by
  intro hc
  have := List.IsInfix.length_le hc
  omega

/-! ## One step of each parsing method -/

theorem removeWS_eq_nil {data : Bytes} (h : removeWS data = []) : ∀ b ∈ data, isWS b := by
  rw [removeWS_eq_dropWhile, List.dropWhile_eq_nil_iff] at h
  intro b hb
  simpa using h b hb

theorem removeWS_append_of_eq_cons {data : Bytes} {b : Nat} {rest : Bytes} (ext : Bytes)
    (h : removeWS data = b :: rest) : removeWS (data ++ ext) = b :: (rest ++ ext) := by
  induction data with
  | nil => simp [removeWS] at h
  | cons c data ih =>
    by_cases hc : isWS c
    · rw [removeWS_cons_of_ws _ hc] at h
      rw [List.cons_append, removeWS_cons_of_ws _ hc]
      exact ih h
    · rw [removeWS_cons_of_not_ws _ hc] at h
      rw [List.cons_append, removeWS_cons_of_not_ws _ hc]
      injection h with h1 h2
      rw [h1, h2]

theorem wrap_ok_iff (t : String) (r : Res) (json : JsonParser) (tail : Bytes) :
    wrap t r = ⟨json, tail, none⟩ ↔ r = ⟨json, tail, none⟩ := by
  obtain ⟨j, tl, e⟩ := r
  cases e <;> simp [wrap]

theorem capture_eq_add (number : Bytes) :
    ∃ ints floats, ∀ json3 : JsonParser, capture json3 number = json3.add ints floats := by
  by_cases h : 0x2E ∈ number
  · exact ⟨[], [number], fun j => by simp [capture, h]⟩
  · exact ⟨[number], [], fun j => by simp [capture, h]⟩

/-- `parseJson` on a number of the grammar that ends where the literal ends. -/
theorem parseJson_number (f : Nat) (json : JsonParser) (l rest : Bytes) (hl : IsNumber l)
    (hrest : ∀ b, rest.head? = some b → ¬ isDigit b ∧ (0x2E ∈ l ∨ b ≠ 0x2E)) :
    parseJson (f + 1) json (l ++ rest) = some ⟨capture json l, rest, none⟩ := by
  have hp := parseNumber_of_IsNumber_maximal l rest hl hrest
  obtain ⟨b, r, rfl, hb⟩ := hl.head
  have hne : b ≠ 0x7B ∧ b ≠ 0x5B ∧ b ≠ 0x22 ∧ b ≠ 0x74 ∧ b ≠ 0x66 ∧ b ≠ 0x6E := by
    unfold isDigit at hb; omega
  rw [List.cons_append] at hp ⊢
  rw [parseJson]
  simp only [hne.1, hne.2.1, hne.2.2.1, hne.2.2.2.1, hne.2.2.2.2.1, hne.2.2.2.2.2, if_false, hp]
  rcases classify_number hl with ⟨hn, hmem⟩ | ⟨n, hn, hpos, hmem⟩
  · simp [hn, capture, hmem, JsonParser.add]
  · simp [hn, hpos, capture, hmem, JsonParser.add]

theorem parseJson_string (f : Nat) (json : JsonParser) (rest tail : Bytes)
    (h : parseString rest = some (tail, none)) :
    parseJson (f + 1) json (0x22 :: rest) = some ⟨json, tail, none⟩ := by
  rw [parseJson]
  simp [h]

/-- The ways `parseJson` succeeds. -/
theorem parseJson_ok_cases {f : Nat} {json json2 : JsonParser} {data tail : Bytes}
    (h : parseJson (f + 1) json data = some ⟨json2, tail, none⟩) :
    (∃ rest, data = 0x7B :: rest ∧ parseObject f json rest = some ⟨json2, tail, none⟩) ∨
    (∃ rest, data = 0x5B :: rest ∧ parseArray f json rest = some ⟨json2, tail, none⟩) ∨
    (∃ rest, data = 0x22 :: rest ∧ parseString rest = some (tail, none) ∧ json2 = json) ∨
    (data = [0x74, 0x72, 0x75, 0x65] ++ tail ∧ json2 = json) ∨
    (data = [0x66, 0x61, 0x6C, 0x73, 0x65] ++ tail ∧ json2 = json) ∨
    (data = [0x6E, 0x75, 0x6C, 0x6C] ++ tail ∧ json2 = json) ∨
    (∃ num, parseNumber data = (num, tail, none) ∧ json2 = capture json num) := by
  cases data with
  | nil => simp [parseJson] at h
  | cons b rest =>
    rw [parseJson] at h
    split_ifs at h with h1 h2 h3 h4 h5 h6 h7 h8 h9
    · obtain ⟨r0, h0, hr⟩ := Option.map_eq_some'.1 h
      rw [wrap_ok_iff] at hr
      exact Or.inl ⟨rest, by rw [h1], hr ▸ h0⟩
    · obtain ⟨r0, h0, hr⟩ := Option.map_eq_some'.1 h
      rw [wrap_ok_iff] at hr
      exact Or.inr (Or.inl ⟨rest, by rw [h2], hr ▸ h0⟩)
    · obtain ⟨t, e, he, _⟩ := parseString_total rest
      rw [he] at h
      cases e with
      | some e => simp at h
      | none =>
        simp only [Option.some.injEq, Res.mk.injEq, and_true] at h
        obtain ⟨rfl, rfl⟩ := h
        exact Or.inr (Or.inr (Or.inl ⟨rest, by rw [h3], he, rfl⟩))
    · simp at h
    · simp only [Option.some.injEq, Res.mk.injEq, and_true] at h
      obtain ⟨rfl, rfl⟩ := h
      have ht : (b :: rest).take 4 = [0x74, 0x72, 0x75, 0x65] := by
        by_contra hc
        exact h5 (Or.inr hc)
      refine Or.inr (Or.inr (Or.inr (Or.inl ⟨?_, rfl⟩)))
      rw [← ht, List.take_append_drop]
    · simp at h
    · simp only [Option.some.injEq, Res.mk.injEq, and_true] at h
      obtain ⟨rfl, rfl⟩ := h
      have ht : (b :: rest).take 5 = [0x66, 0x61, 0x6C, 0x73, 0x65] := by
        by_contra hc
        exact h7 (Or.inr hc)
      refine Or.inr (Or.inr (Or.inr (Or.inr (Or.inl ⟨?_, rfl⟩))))
      rw [← ht, List.take_append_drop]
    · simp at h
    · simp only [Option.some.injEq, Res.mk.injEq, and_true] at h
      obtain ⟨rfl, rfl⟩ := h
      have ht : (b :: rest).take 4 = [0x6E, 0x75, 0x6C, 0x6C] := by
        by_contra hc
        exact h9 (Or.inr hc)
      refine Or.inr (Or.inr (Or.inr (Or.inr (Or.inr (Or.inl ⟨?_, rfl⟩)))))
      rw [← ht, List.take_append_drop]
    · rcases hp : parseNumber (b :: rest) with ⟨num, t, e⟩
      rw [hp] at h
      cases e with
      | some e => simp at h
      | none =>
        have hnum := (parseNumber_ok _ _ _ hp).1
        refine Or.inr (Or.inr (Or.inr (Or.inr (Or.inr (Or.inr ⟨num, ?_, ?_⟩)))))
        · rcases classify_number hnum with ⟨hn, hmem⟩ | ⟨n, hn, hpos, hmem⟩
          · simp only [hn, Option.some.injEq, Res.mk.injEq, and_true] at h
            rw [h.2]
          · simp only [hn, hpos, if_true, Option.some.injEq, Res.mk.injEq, and_true] at h
            rw [h.2]
        · rcases classify_number hnum with ⟨hn, hmem⟩ | ⟨n, hn, hpos, hmem⟩
          · simp only [hn, Option.some.injEq, Res.mk.injEq, and_true] at h
            rw [← h.1]
            simp [capture, hmem, JsonParser.add]
          · simp only [hn, hpos, if_true, Option.some.injEq, Res.mk.injEq, and_true] at h
            rw [← h.1]
            simp [capture, hmem, JsonParser.add]

theorem parseJson_ok_ne_nil {f : Nat} {json json2 : JsonParser} {data tail : Bytes}
    (h : parseJson f json data = some ⟨json2, tail, none⟩) : data ≠ [] := by
  rintro rfl
  cases f <;> simp [parseJson] at h

theorem parseArray_of {f : Nat} {json : JsonParser} {data : Bytes} {b : Nat} {rest : Bytes}
    (hw : removeWS data = b :: rest) :
    parseArray (f + 1) json data =
      if b = 0x5D then some ⟨json, rest, none⟩ else parseArrayLoop f json (b :: rest) := by
  rw [parseArray]
  simp only [hw]

theorem parseObject_of {f : Nat} {json : JsonParser} {data : Bytes} {b : Nat} {rest : Bytes}
    (hw : removeWS data = b :: rest) :
    parseObject (f + 1) json data =
      if b = 0x7D then some ⟨json, rest, none⟩ else parseObjectLoop f json (b :: rest) := by
  rw [parseObject]
  simp only [hw]

theorem parseArray_ok_cases {f : Nat} {json json2 : JsonParser} {data tail : Bytes}
    (h : parseArray (f + 1) json data = some ⟨json2, tail, none⟩) :
    (∃ rest, removeWS data = 0x5D :: rest ∧ json2 = json ∧ tail = rest) ∨
    (∃ b rest, removeWS data = b :: rest ∧ b ≠ 0x5D ∧
      parseArrayLoop f json (b :: rest) = some ⟨json2, tail, none⟩) := by
  cases hw : removeWS data with
  | nil => simp [parseArray, hw] at h
  | cons b rest =>
    rw [parseArray_of hw] at h
    split_ifs at h with h1
    · simp only [Option.some.injEq, Res.mk.injEq, and_true] at h
      exact Or.inl ⟨rest, by rw [h1], h.1.symm, h.2.symm⟩
    · exact Or.inr ⟨b, rest, rfl, h1, h⟩

theorem parseObject_ok_cases {f : Nat} {json json2 : JsonParser} {data tail : Bytes}
    (h : parseObject (f + 1) json data = some ⟨json2, tail, none⟩) :
    (∃ rest, removeWS data = 0x7D :: rest ∧ json2 = json ∧ tail = rest) ∨
    (∃ b rest, removeWS data = b :: rest ∧ b ≠ 0x7D ∧
      parseObjectLoop f json (b :: rest) = some ⟨json2, tail, none⟩) := by
  cases hw : removeWS data with
  | nil => simp [parseObject, hw] at h
  | cons b rest =>
    rw [parseObject_of hw] at h
    split_ifs at h with h1
    · simp only [Option.some.injEq, Res.mk.injEq, and_true] at h
      exact Or.inl ⟨rest, by rw [h1], h.1.symm, h.2.symm⟩
    · exact Or.inr ⟨b, rest, rfl, h1, h⟩

/-- One round of the loop of `parseArray` whose value is accepted. -/
theorem parseArrayLoop_of {f : Nat} {json j1 : JsonParser} {data t1 : Bytes} {b : Nat}
    {rest : Bytes} (h1 : parseJson f json (removeWS data) = some ⟨j1, t1, none⟩)
    (h2 : removeWS t1 = b :: rest) :
    parseArrayLoop (f + 1) json data =
      if b = 0x2C then parseArrayLoop f j1 rest
      else if b = 0x5D then some ⟨j1, rest, none⟩
      else some ⟨j1, b :: rest, some [.text "missing ',' after array value"]⟩ := by
  rw [parseArrayLoop, h1]
  simp only [h2]

theorem parseArrayLoop_ok_cases {f : Nat} {json json2 : JsonParser} {data tail : Bytes}
    (h : parseArrayLoop (f + 1) json data = some ⟨json2, tail, none⟩) :
    ∃ j1 t1 b rest, parseJson f json (removeWS data) = some ⟨j1, t1, none⟩ ∧
      removeWS t1 = b :: rest ∧
      ((b = 0x2C ∧ parseArrayLoop f j1 rest = some ⟨json2, tail, none⟩) ∨
       (b = 0x5D ∧ json2 = j1 ∧ tail = rest)) := by
  rw [parseArrayLoop] at h
  cases hj : parseJson f json (removeWS data) with
  | none => simp [hj] at h
  | some r1 =>
    obtain ⟨j1, t1, e1⟩ := r1
    cases e1 with
    | some e => simp [hj] at h
    | none =>
      simp only [hj] at h
      cases hw : removeWS t1 with
      | nil => simp [hw] at h
      | cons b rest =>
        simp only [hw] at h
        refine ⟨j1, t1, b, rest, rfl, hw, ?_⟩
        split_ifs at h with h2 h3
        · exact Or.inl ⟨h2, h⟩
        · simp only [Option.some.injEq, Res.mk.injEq, and_true] at h
          exact Or.inr ⟨h3, h.1.symm, h.2.symm⟩
        · simp at h

/-- One round of the loop of `parseObject` whose key and value are accepted. -/
theorem parseObjectLoop_of {f : Nat} {json j1 : JsonParser} {data k d1 rest2 t1 : Bytes}
    {b : Nat} {rest : Bytes} (hw : removeWS data = 0x22 :: k)
    (hk : validateKey k = some (d1, none)) (hw2 : removeWS d1 = 0x3A :: rest2)
    (hj : parseJson f json (removeWS rest2) = some ⟨j1, t1, none⟩)
    (hw3 : removeWS t1 = b :: rest) :
    parseObjectLoop (f + 1) json data =
      if b = 0x2C then parseObjectLoop f j1 rest
      else if b = 0x7D then some ⟨j1, rest, none⟩
      else some ⟨j1, b :: rest, some [.text "missing ',' after object value"]⟩ := by
  rw [parseObjectLoop]
  simp only [hw, ne_eq, not_true_eq_false, if_false, hk, hw2, hj, hw3]

theorem parseObjectLoop_ok_cases {f : Nat} {json json2 : JsonParser} {data tail : Bytes}
    (h : parseObjectLoop (f + 1) json data = some ⟨json2, tail, none⟩) :
    ∃ k d1 rest2 j1 t1 b rest, removeWS data = 0x22 :: k ∧ validateKey k = some (d1, none) ∧
      removeWS d1 = 0x3A :: rest2 ∧
      parseJson f json (removeWS rest2) = some ⟨j1, t1, none⟩ ∧ removeWS t1 = b :: rest ∧
      ((b = 0x2C ∧ parseObjectLoop f j1 rest = some ⟨json2, tail, none⟩) ∨
       (b = 0x7D ∧ json2 = j1 ∧ tail = rest)) := by
  rw [parseObjectLoop] at h
  cases hw : removeWS data with
  | nil => simp [hw] at h
  | cons b0 k =>
    simp only [hw] at h
    split_ifs at h with h0
    · simp at h
    · have hb0 : b0 = 0x22 := by
        by_contra hc
        exact h0 hc
      subst hb0
      obtain ⟨d1, e1, hk, _⟩ := validateKey_total k
      rw [hk] at h
      cases e1 with
      | some e => simp at h
      | none =>
        simp only at h
        cases hw2 : removeWS d1 with
        | nil => simp [hw2] at h
        | cons b2 rest2 =>
          simp only [hw2] at h
          split_ifs at h with h2
          · simp at h
          · have hb2 : b2 = 0x3A := by
              by_contra hc
              exact h2 hc
            subst hb2
            cases hj : parseJson f json (removeWS rest2) with
            | none => simp [hj] at h
            | some r1 =>
              obtain ⟨j1, t1, e1⟩ := r1
              cases e1 with
              | some e => simp [hj] at h
              | none =>
                simp only [hj] at h
                cases hw3 : removeWS t1 with
                | nil => simp [hw3] at h
                | cons b rest =>
                  simp only [hw3] at h
                  refine ⟨k, d1, rest2, j1, t1, b, rest, rfl, hk, hw2, hj, hw3, ?_⟩
                  split_ifs at h with h3 h4
                  · exact Or.inl ⟨h3, h⟩
                  · simp only [Option.some.injEq, Res.mk.injEq, and_true] at h
                    exact Or.inr ⟨h4, h.1.symm, h.2.symm⟩
                  · simp at h

/-! ## Bytes after the input -/

theorem endsWithDigit_append (l1 l2 : Bytes) (h1 : l2 ≠ []) (h2 : ∀ b ∈ l2, isDigit b) :
    EndsWithDigit (l1 ++ l2) := by
  unfold EndsWithDigit
  rw [List.getLast?_append_of_ne_nil l1 h1, List.getLast?_eq_getLast _ h1]
  exact h2 _ (List.getLast_mem h1)

theorem IsNumber.endsWithDigit {l : Bytes} (h : IsNumber l) : EndsWithDigit l := by
  obtain ⟨sign, int, frac, rfl, _, hint, hfrac⟩ := h
  obtain ⟨d, ds, rfl, hds, _⟩ := (IsInt_iff int).1 hint
  rcases hfrac with rfl | ⟨fd, rfl, hfd1, hfd2⟩
  · rw [List.append_nil]
    exact endsWithDigit_append sign (d :: ds) (by simp) hds
  · have := endsWithDigit_append (sign ++ d :: ds ++ [0x2E]) fd hfd1 hfd2
    simpa using this

theorem extends_parseJson_step (f : Nat)
    (ihO : Extends parseObject f (fun _ _ _ => True))
    (ihA : Extends parseArray f (fun _ _ _ => True)) :
    Extends parseJson (f + 1) NumberCond := by
  intro json data json2 tail h
  rcases parseJson_ok_cases h with ⟨rest, rfl, h1⟩ | ⟨rest, rfl, h1⟩ | ⟨rest, rfl, h1, rfl⟩ |
    ⟨rfl, rfl⟩ | ⟨rfl, rfl⟩ | ⟨rfl, rfl⟩ | ⟨num, h1, rfl⟩
  · obtain ⟨ints, floats, hj, hext⟩ := ihO _ _ _ _ h1
    refine ⟨ints, floats, hj, fun g hg json3 ext _ => ?_⟩
    obtain ⟨g, rfl⟩ : ∃ g', g = g' + 1 := ⟨g - 1, by omega⟩
    rw [List.cons_append, parseJson]
    simp only [if_true]
    rw [hext g (by omega) json3 ext trivial]
    rfl
  · obtain ⟨ints, floats, hj, hext⟩ := ihA _ _ _ _ h1
    refine ⟨ints, floats, hj, fun g hg json3 ext _ => ?_⟩
    obtain ⟨g, rfl⟩ : ∃ g', g = g' + 1 := ⟨g - 1, by omega⟩
    rw [List.cons_append, parseJson]
    simp only [show ¬ (0x5B = 0x7B) by decide, if_false, if_true]
    rw [hext g (by omega) json3 ext trivial]
    rfl
  · refine ⟨[], [], (JsonParser.add_nil _).symm, fun g hg json3 ext _ => ?_⟩
    obtain ⟨g, rfl⟩ : ∃ g', g = g' + 1 := ⟨g - 1, by omega⟩
    rw [List.cons_append, parseJson_string _ _ _ _ (parseString_ext ext h1), json3.add_nil]
  · refine ⟨[], [], (JsonParser.add_nil _).symm, fun g hg json3 ext _ => ?_⟩
    obtain ⟨g, rfl⟩ : ∃ g', g = g' + 1 := ⟨g - 1, by omega⟩
    rw [json3.add_nil]
    simp [parseJson]
  · refine ⟨[], [], (JsonParser.add_nil _).symm, fun g hg json3 ext _ => ?_⟩
    obtain ⟨g, rfl⟩ : ∃ g', g = g' + 1 := ⟨g - 1, by omega⟩
    rw [json3.add_nil]
    simp [parseJson]
  · refine ⟨[], [], (JsonParser.add_nil _).symm, fun g hg json3 ext _ => ?_⟩
    obtain ⟨g, rfl⟩ : ∃ g', g = g' + 1 := ⟨g - 1, by omega⟩
    rw [json3.add_nil]
    simp [parseJson]
  · obtain ⟨hnum, hdata, hmax⟩ := parseNumber_ok _ _ _ h1
    obtain ⟨ints, floats, hc⟩ := capture_eq_add num
    refine ⟨ints, floats, hc json, fun g hg json3 ext hcond => ?_⟩
    obtain ⟨g, rfl⟩ : ∃ g', g = g' + 1 := ⟨g - 1, by omega⟩
    rw [hdata, List.append_assoc, parseJson_number g json3 num (tail ++ ext) hnum, hc json3]
    intro b hb
    cases tail with
    | nil =>
      rw [List.append_nil] at hdata
      rcases hcond with h | h | h
      · exact absurd rfl h
      · exact ⟨(h b hb).1, Or.inr (h b hb).2⟩
      · exact absurd (hdata ▸ hnum.endsWithDigit) h
    | cons c t => exact hmax b hb

theorem extends_parseArray_step (f : Nat)
    (ihL : Extends parseArrayLoop f (fun _ _ _ => True)) :
    Extends parseArray (f + 1) (fun _ _ _ => True) := by
  intro json data json2 tail h
  rcases parseArray_ok_cases h with ⟨rest, hw, rfl, rfl⟩ | ⟨b, rest, hw, hb, hl⟩
  · refine ⟨[], [], (JsonParser.add_nil _).symm, fun g hg json3 ext _ => ?_⟩
    obtain ⟨g, rfl⟩ : ∃ g', g = g' + 1 := ⟨g - 1, by omega⟩
    rw [parseArray_of (removeWS_append_of_eq_cons ext hw), json3.add_nil]
    rfl
  · obtain ⟨ints, floats, hj, hext⟩ := ihL _ _ _ _ hl
    refine ⟨ints, floats, hj, fun g hg json3 ext _ => ?_⟩
    obtain ⟨g, rfl⟩ : ∃ g', g = g' + 1 := ⟨g - 1, by omega⟩
    rw [parseArray_of (removeWS_append_of_eq_cons ext hw), if_neg hb]
    exact hext g (by omega) json3 ext trivial

theorem extends_parseObject_step (f : Nat)
    (ihL : Extends parseObjectLoop f (fun _ _ _ => True)) :
    Extends parseObject (f + 1) (fun _ _ _ => True) := by
  intro json data json2 tail h
  rcases parseObject_ok_cases h with ⟨rest, hw, rfl, rfl⟩ | ⟨b, rest, hw, hb, hl⟩
  · refine ⟨[], [], (JsonParser.add_nil _).symm, fun g hg json3 ext _ => ?_⟩
    obtain ⟨g, rfl⟩ : ∃ g', g = g' + 1 := ⟨g - 1, by omega⟩
    rw [parseObject_of (removeWS_append_of_eq_cons ext hw), json3.add_nil]
    rfl
  · obtain ⟨ints, floats, hj, hext⟩ := ihL _ _ _ _ hl
    refine ⟨ints, floats, hj, fun g hg json3 ext _ => ?_⟩
    obtain ⟨g, rfl⟩ : ∃ g', g = g' + 1 := ⟨g - 1, by omega⟩
    rw [parseObject_of (removeWS_append_of_eq_cons ext hw), if_neg hb]
    exact hext g (by omega) json3 ext trivial

theorem removeWS_append_of_ne_nil {data : Bytes} (ext : Bytes) (h : removeWS data ≠ []) :
    removeWS (data ++ ext) = removeWS data ++ ext := by
  obtain ⟨b, rest, hw⟩ := List.exists_cons_of_ne_nil h
  rw [removeWS_append_of_eq_cons ext hw, hw]
  rfl

theorem extends_parseArrayLoop_step (f : Nat)
    (ihJ : Extends parseJson f NumberCond)
    (ihL : Extends parseArrayLoop f (fun _ _ _ => True)) :
    Extends parseArrayLoop (f + 1) (fun _ _ _ => True) := by
  intro json data json2 tail h
  obtain ⟨j1, t1, b, rest, hj1, hw, hcase⟩ := parseArrayLoop_ok_cases h
  obtain ⟨i1, f1, rfl, hext1⟩ := ihJ _ _ _ _ hj1
  have ht1 : t1 ≠ [] := by
    rintro rfl
    simp [removeWS] at hw
  have hrun : ∀ g, f ≤ g → ∀ json3 ext, parseJson g json3 (removeWS (data ++ ext)) =
      some ⟨json3.add i1 f1, t1 ++ ext, none⟩ := by
    intro g hg json3 ext
    rw [removeWS_append_of_ne_nil ext (parseJson_ok_ne_nil hj1)]
    exact hext1 g hg json3 ext (Or.inl ht1)
  rcases hcase with ⟨rfl, hl⟩ | ⟨rfl, rfl, rfl⟩
  · obtain ⟨i2, f2, rfl, hext2⟩ := ihL _ _ _ _ hl
    refine ⟨i1 ++ i2, f1 ++ f2, JsonParser.add_add _ _ _ _ _, fun g hg json3 ext _ => ?_⟩
    obtain ⟨g, rfl⟩ : ∃ g', g = g' + 1 := ⟨g - 1, by omega⟩
    rw [parseArrayLoop_of (hrun g (by omega) json3 ext) (removeWS_append_of_eq_cons ext hw)]
    simp only [if_true]
    rw [hext2 g (by omega) _ ext trivial, JsonParser.add_add]
  · refine ⟨i1, f1, rfl, fun g hg json3 ext _ => ?_⟩
    obtain ⟨g, rfl⟩ : ∃ g', g = g' + 1 := ⟨g - 1, by omega⟩
    rw [parseArrayLoop_of (hrun g (by omega) json3 ext) (removeWS_append_of_eq_cons ext hw)]
    simp

theorem extends_parseObjectLoop_step (f : Nat)
    (ihJ : Extends parseJson f NumberCond)
    (ihL : Extends parseObjectLoop f (fun _ _ _ => True)) :
    Extends parseObjectLoop (f + 1) (fun _ _ _ => True) := by
  intro json data json2 tail h
  obtain ⟨k, d1, rest2, j1, t1, b, rest, hw0, hk, hw2, hj1, hw, hcase⟩ :=
    parseObjectLoop_ok_cases h
  obtain ⟨i1, f1, rfl, hext1⟩ := ihJ _ _ _ _ hj1
  have ht1 : t1 ≠ [] := by
    rintro rfl
    simp [removeWS] at hw
  have hrun : ∀ g, f ≤ g → ∀ json3 ext, parseJson g json3 (removeWS (rest2 ++ ext)) =
      some ⟨json3.add i1 f1, t1 ++ ext, none⟩ := by
    intro g hg json3 ext
    rw [removeWS_append_of_ne_nil ext (parseJson_ok_ne_nil hj1)]
    exact hext1 g hg json3 ext (Or.inl ht1)
  rcases hcase with ⟨rfl, hl⟩ | ⟨rfl, rfl, rfl⟩
  · obtain ⟨i2, f2, rfl, hext2⟩ := ihL _ _ _ _ hl
    refine ⟨i1 ++ i2, f1 ++ f2, JsonParser.add_add _ _ _ _ _, fun g hg json3 ext _ => ?_⟩
    obtain ⟨g, rfl⟩ : ∃ g', g = g' + 1 := ⟨g - 1, by omega⟩
    rw [parseObjectLoop_of (removeWS_append_of_eq_cons ext hw0) (validateKey_ext ext hk)
      (removeWS_append_of_eq_cons ext hw2) (hrun g (by omega) json3 ext)
      (removeWS_append_of_eq_cons ext hw)]
    simp only [if_true]
    rw [hext2 g (by omega) _ ext trivial, JsonParser.add_add]
  · refine ⟨i1, f1, rfl, fun g hg json3 ext _ => ?_⟩
    obtain ⟨g, rfl⟩ : ∃ g', g = g' + 1 := ⟨g - 1, by omega⟩
    rw [parseObjectLoop_of (removeWS_append_of_eq_cons ext hw0) (validateKey_ext ext hk)
      (removeWS_append_of_eq_cons ext hw2) (hrun g (by omega) json3 ext)
      (removeWS_append_of_eq_cons ext hw)]
    simp

/-- A successful run of any of the five parsing methods stays the same run
with more fuel, in another parser, and with more bytes after the input. -/
theorem extends_all (f : Nat) :
    Extends parseJson f NumberCond ∧
    Extends parseObject f (fun _ _ _ => True) ∧
    Extends parseObjectLoop f (fun _ _ _ => True) ∧
    Extends parseArray f (fun _ _ _ => True) ∧
    Extends parseArrayLoop f (fun _ _ _ => True) := by
  induction f with
  | zero =>
    refine ⟨?_, ?_, ?_, ?_, ?_⟩ <;> intro json data json2 tail h
    · simp [parseJson] at h
    · simp [parseObject] at h
    · simp [parseObjectLoop] at h
    · simp [parseArray] at h
    · simp [parseArrayLoop] at h
  | succ f ih =>
    obtain ⟨ihJ, ihO, ihOL, ihA, ihAL⟩ := ih
    exact ⟨extends_parseJson_step f ihO ihA, extends_parseObject_step f ihOL,
      extends_parseObjectLoop_step f ihJ ihOL, extends_parseArray_step f ihAL,
      extends_parseArrayLoop_step f ihJ ihAL⟩

theorem endsWithDigit_of_suffix {s t : Bytes} (hs : t <:+ s) (ht : t ≠ [])
    (h : EndsWithDigit t) : EndsWithDigit s := by
  obtain ⟨pre, rfl⟩ := hs
  unfold EndsWithDigit at h ⊢
  rw [List.getLast?_append_of_ne_nil pre ht]
  exact h

/-- What an accepted input is, in terms of `parseJson`. -/
theorem accepts_run {data : Bytes} (h : Accepts data) :
    ∃ json tail, parseJson (fuelFor (removeWS data)) ⟨removeWS data, [], []⟩ (removeWS data) =
      some ⟨json, tail, none⟩ ∧ ∀ b ∈ tail, isWS b := by
  obtain ⟨json, hj⟩ := h
  obtain ⟨r, hr, _⟩ := parseJson_fuelFor ⟨removeWS data, [], []⟩ (removeWS data)
  rw [IsValid_of_parseJson hr] at hj
  obtain ⟨rj, rt, re⟩ := r
  cases re with
  | some e => simp at hj
  | none =>
    simp only [Option.some.injEq, Prod.mk.injEq] at hj
    refine ⟨rj, rt, hr, removeWS_eq_nil ?_⟩
    by_contra hne
    have : (removeWS rt).length > 0 := List.length_pos.2 hne
    simp [this] at hj

theorem rejects_of_parseJson {data : Bytes} {r : Res} {e : Err}
    (h : parseJson (fuelFor (removeWS data)) ⟨removeWS data, [], []⟩ (removeWS data) = some r)
    (he : r.err = some e) : Rejects data := by
  refine ⟨r.json, .text "cannot parse JSON: " :: e ++
    [.text "; unparsed tail: ", .q (makeErrorTrace r.tail)], ?_⟩
  rw [IsValid_of_parseJson h, he]

theorem accepts_of_parseJson {data : Bytes} {json : JsonParser} {tail : Bytes}
    (h : parseJson (fuelFor (removeWS data)) ⟨removeWS data, [], []⟩ (removeWS data) =
      some ⟨json, tail, none⟩) (ht : ∀ b ∈ tail, isWS b) : Accepts data := by
  refine ⟨json, ?_⟩
  rw [IsValid_of_parseJson h]
  simp [removeWS_of_ws tail ht]

theorem wrap_err (t : String) {r : Res} {e : Err} (he : r.err = some e) :
    (wrap t r).err = some (.text t :: e) := by
  simp [wrap, he]

theorem beginsWith_unexpected_tail (v : Verbs) (ps : Err) :
    BeginsWith (render v (.text "unexpected tail: " :: ps)) "unexpected tail" := by
  refine ⟨lit ": " ++ render v ps, ?_⟩
  rw [render_text_cons, ← List.append_assoc]
  rfl

/-- The array loop on a closing bracket where a value should start. -/
theorem parseArrayLoop_bracket (f : Nat) (json : JsonParser) (w rest : Bytes)
    (hw : ∀ b ∈ w, isWS b) :
    ∃ r e, parseArrayLoop (f + 2) json (w ++ 0x5D :: rest) = some r ∧ r.err = some e := by
  have h1 : removeWS (w ++ 0x5D :: rest) = 0x5D :: rest := by
    rw [removeWS_append_of_ws w _ hw, removeWS_cons_of_not_ws _ (by decide)]
  have h2 : parseJson (f + 1) json (0x5D :: rest) = some ⟨json, 0x5D :: rest,
      some [.text "cannot parse number: ", .text "expecting 0..9 digit, got ", .c 0x5D]⟩ := by
    simp [parseJson, parseNumber, parseNumberDigits, digitRun]
  rw [parseArrayLoop, h1, h2]
  exact ⟨_, _, rfl, rfl⟩

theorem withCommas_loop (vs : List Bytes) (hvs : ∀ v ∈ vs, Accepts v) (w rest : Bytes)
    (hw : ∀ b ∈ w, isWS b) (f : Nat) (json : JsonParser)
    (hf : 3 * (withCommas vs).length + 2 ≤ f) :
    ∃ r e, parseArrayLoop f json (withCommas vs ++ w ++ 0x5D :: rest) = some r ∧
      r.err = some e := by
  induction vs generalizing f json with
  | nil =>
    obtain ⟨f, rfl⟩ : ∃ g, f = g + 2 := ⟨f - 2, by omega⟩
    exact parseArrayLoop_bracket f json w rest hw
  | cons v vs ih =>
    obtain ⟨j1, t1, hp, ht1⟩ := accepts_run (hvs v (List.mem_cons_self _ _))
    obtain ⟨ints, floats, _, hext⟩ := (extends_all _).1 _ _ _ _ hp
    have hlen := removeWS_length_le v
    simp only [withCommas, List.length_append, List.length_cons] at hf
    obtain ⟨f, rfl⟩ : ∃ g, f = g + 1 := ⟨f - 1, by omega⟩
    have hrw : removeWS (withCommas (v :: vs) ++ w ++ 0x5D :: rest) =
        removeWS v ++ (0x2C :: (withCommas vs ++ w ++ 0x5D :: rest)) := by
      have : withCommas (v :: vs) ++ w ++ 0x5D :: rest =
          v ++ (0x2C :: (withCommas vs ++ w ++ 0x5D :: rest)) := by simp [withCommas]
      rw [this, removeWS_append_of_ne_nil _ (parseJson_ok_ne_nil hp)]
    have hrun := hext f (by unfold fuelFor; omega) json
      (0x2C :: (withCommas vs ++ w ++ 0x5D :: rest))
      (Or.inr (Or.inl (fun b hb => by simp at hb; subst hb; simp [isDigit])))
    rw [← hrw] at hrun
    have htail : removeWS (t1 ++ 0x2C :: (withCommas vs ++ w ++ 0x5D :: rest)) =
        0x2C :: (withCommas vs ++ w ++ 0x5D :: rest) := by
      rw [removeWS_append_of_ws t1 _ ht1, removeWS_cons_of_not_ws _ (by decide)]
    rw [parseArrayLoop_of hrun htail]
    simp only [if_true]
    exact ih (fun u hu => hvs u (List.mem_cons_of_mem _ hu)) f _ (by omega)

theorem parseArrayLoop_removeWS (f : Nat) (json : JsonParser) (data : Bytes) :
    parseArrayLoop f json (removeWS data) = parseArrayLoop f json data := by
  cases f with
  | zero => simp [parseArrayLoop]
  | succ f => rw [parseArrayLoop, parseArrayLoop, removeWS_idem]

theorem parseJson_bracket_not_ok {f : Nat} {json json2 : JsonParser} {rest tail : Bytes} :
    parseJson f json (0x5D :: rest) ≠ some ⟨json2, tail, none⟩ := by
  cases f with
  | zero => simp [parseJson]
  | succ f => simp [parseJson, parseNumber, parseNumberDigits, digitRun]

/-! ## An array of numbers -/

theorem capture_eq_filter (json : JsonParser) (l : Bytes) :
    capture json l = json.add ([l].filter (fun l => decide (0x2E ∉ l)))
      ([l].filter (fun l => decide (0x2E ∈ l))) := by
  by_cases h : 0x2E ∈ l <;> simp [capture, h, List.filter]

theorem removeWS_ws_number (w l rest : Bytes) (hw : ∀ b ∈ w, isWS b) (hl : IsNumber l) :
    removeWS (w ++ (l ++ rest)) = l ++ rest := by
  obtain ⟨b, r, rfl, hb⟩ := hl.head
  have : ¬ isWS b := by unfold isWS; unfold isDigit at hb; omega
  rw [removeWS_append_of_ws w _ hw, List.cons_append, removeWS_cons_of_not_ws _ this]

theorem joinCommaSpace_loop (L : List Bytes) (hne : L ≠ []) (hL : ∀ l ∈ L, IsNumber l)
    (w rest : Bytes) (hw : ∀ b ∈ w, isWS b) (f : Nat) (json : JsonParser)
    (hf : L.length + 1 ≤ f) :
    parseArrayLoop f json (w ++ (joinCommaSpace L ++ 0x5D :: rest)) =
      some ⟨json.add (L.filter (fun l => decide (0x2E ∉ l)))
        (L.filter (fun l => decide (0x2E ∈ l))), rest, none⟩ := by
  induction L generalizing f json w with
  | nil => exact absurd rfl hne
  | cons l L ih =>
    have hl := hL l (List.mem_cons_self _ _)
    obtain ⟨f, rfl⟩ : ∃ g, f = g + 1 + 1 := ⟨f - 2, by simp at hf; omega⟩
    cases L with
    | nil =>
      have hj : parseJson (f + 1) json (removeWS (w ++ (joinCommaSpace [l] ++ 0x5D :: rest))) =
          some ⟨capture json l, 0x5D :: rest, none⟩ := by
        rw [joinCommaSpace, removeWS_ws_number w l _ hw hl]
        exact parseJson_number f json l _ hl (fun b hb => by
          simp at hb; subst hb; exact ⟨by simp [isDigit], Or.inr (by decide)⟩)
      rw [parseArrayLoop_of hj (removeWS_cons_of_not_ws _ (by decide))]
      simp only [show ¬ (0x5D = 0x2C) by decide, if_false, if_true, capture_eq_filter]
    | cons l2 L =>
      have hj : parseJson (f + 1) json
          (removeWS (w ++ (joinCommaSpace (l :: l2 :: L) ++ 0x5D :: rest))) =
          some ⟨capture json l,
            0x2C :: ([0x20] ++ (joinCommaSpace (l2 :: L) ++ 0x5D :: rest)), none⟩ := by
        have : joinCommaSpace (l :: l2 :: L) ++ 0x5D :: rest =
            l ++ (0x2C :: ([0x20] ++ (joinCommaSpace (l2 :: L) ++ 0x5D :: rest))) := by
          simp [joinCommaSpace]
        rw [this, removeWS_ws_number w l _ hw hl]
        exact parseJson_number f json l _ hl (fun b hb => by
          simp at hb; subst hb; exact ⟨by simp [isDigit], Or.inr (by decide)⟩)
      rw [parseArrayLoop_of hj (removeWS_cons_of_not_ws _ (by decide))]
      simp only [if_true]
      rw [ih (by simp) (fun u hu => hL u (List.mem_cons_of_mem _ hu)) [0x20] (by decide)
        (f + 1) _ (by simp at hf ⊢; omega), capture_eq_filter, JsonParser.add_add]
      simp [List.filter_cons]
      split_ifs <;> simp

theorem length_le_joinCommaSpace (L : List Bytes) (hL : ∀ l ∈ L, IsNumber l) :
    L.length ≤ (joinCommaSpace L).length := by
  induction L with
  | nil => simp
  | cons l L ih =>
    obtain ⟨b, r, rfl, _⟩ := (hL _ (List.mem_cons_self _ _)).head
    have := ih (fun u hu => hL u (List.mem_cons_of_mem _ hu))
    cases L with
    | nil => simp [joinCommaSpace]
    | cons l2 L =>
      simp only [joinCommaSpace, List.length_cons, List.length_append] at this ⊢
      omega

/-! ## The grammar -/

theorem Derives.of_imp {ok1 ok2 : Nat → Prop} (h : ∀ b, ok1 b → ok2 b) {k : Kind} {l : Bytes}
    (hl : Derives ok1 k l) : Derives ok2 k l := by
  induction hl with
  | number hn => exact .number hn
  | litTrue => exact .litTrue
  | litFalse => exact .litFalse
  | litNull => exact .litNull
  | string hc => exact .string (hc.mono h)
  | emptyArray hw => exact .emptyArray hw
  | array hw _ ih => exact .array hw ih
  | emptyObject hw => exact .emptyObject hw
  | object hw _ ih => exact .object hw ih
  | lastElement _ hw ih => exact .lastElement ih hw
  | moreElements _ hw1 hw2 _ ih1 ih2 => exact .moreElements ih1 hw1 hw2 ih2
  | lastMember hk hw1 hw2 _ hw3 ih => exact .lastMember (hk.mono h) hw1 hw2 ih hw3
  | moreMembers hk hw1 hw2 _ hw3 hw4 _ ih1 ih2 =>
    exact .moreMembers (hk.mono h) hw1 hw2 ih1 hw3 hw4 ih2

theorem StartsValue.append {l : Bytes} (h : StartsValue l) (rest : Bytes) :
    StartsValue (l ++ rest) := by
  obtain ⟨b, r, rfl, hb⟩ := h
  exact ⟨b, r ++ rest, rfl, hb⟩

theorem Derives.starts {ok : Nat → Prop} {k : Kind} {l : Bytes} (h : Derives ok k l) :
    StartsValue l := by
  induction h with
  | @number l hn =>
    obtain ⟨b, r, rfl, hb⟩ := hn.head
    refine ⟨b, r, rfl, ?_⟩
    unfold isWS; unfold isDigit at hb; omega
  | litTrue => exact ⟨_, _, rfl, by decide, by decide, by decide⟩
  | litFalse => exact ⟨_, _, rfl, by decide, by decide, by decide⟩
  | litNull => exact ⟨_, _, rfl, by decide, by decide, by decide⟩
  | string _ => exact ⟨_, _, rfl, by decide, by decide, by decide⟩
  | emptyArray _ => exact ⟨_, _, rfl, by decide, by decide, by decide⟩
  | array _ _ _ => exact ⟨_, _, rfl, by decide, by decide, by decide⟩
  | emptyObject _ => exact ⟨_, _, rfl, by decide, by decide, by decide⟩
  | object _ _ _ => exact ⟨_, _, rfl, by decide, by decide, by decide⟩
  | lastElement _ _ ih => exact ih.append _
  | moreElements _ _ _ _ ih _ => exact ih.append _
  | lastMember _ _ _ _ _ _ => exact ⟨_, _, rfl, by decide, by decide, by decide⟩
  | moreMembers _ _ _ _ _ _ _ _ _ => exact ⟨_, _, rfl, by decide, by decide, by decide⟩

theorem StartsValue.removeWS {l : Bytes} (h : StartsValue l) (w : Bytes) (hw : IsWSRun w) :
    removeWS (w ++ l) = l := by
  obtain ⟨b, r, rfl, hb, _⟩ := h
  rw [removeWS_append_of_ws w _ hw, removeWS_cons_of_not_ws _ hb]

theorem numberEnds_ws_cons (w : Bytes) (c : Nat) (rest : Bytes) (hw : IsWSRun w)
    (hc : ¬ isDigit c ∧ c ≠ 0x2E) : NumberEnds (w ++ c :: rest) := by
  intro b hb
  cases w with
  | nil =>
    simp at hb
    subst hb
    exact hc
  | cons a w =>
    simp at hb
    subst hb
    have := hw a (List.mem_cons_self _ _)
    unfold isWS at this
    unfold isDigit
    omega

theorem numberEnds_ws (w : Bytes) (hw : IsWSRun w) : NumberEnds w := by
  have := numberEnds_ws_cons w 0x20 [] hw (by decide)
  intro b hb
  exact this b (by cases w <;> simp_all)

theorem removeWS_ws_cons (w : Bytes) (c : Nat) (rest : Bytes) (hw : IsWSRun w)
    (hc : ¬ isWS c) : removeWS (w ++ c :: rest) = c :: rest := by
  rw [removeWS_append_of_ws w _ hw, removeWS_cons_of_not_ws _ hc]

theorem parseArrayLoop_ws_append (f : Nat) (json : JsonParser) (w data : Bytes)
    (hw : IsWSRun w) : parseArrayLoop f json (w ++ data) = parseArrayLoop f json data := by
  rw [← parseArrayLoop_removeWS f json (w ++ data), removeWS_append_of_ws w _ hw,
    parseArrayLoop_removeWS]

theorem parseObjectLoop_removeWS (f : Nat) (json : JsonParser) (data : Bytes) :
    parseObjectLoop f json (removeWS data) = parseObjectLoop f json data := by
  cases f with
  | zero => simp [parseObjectLoop]
  | succ f => rw [parseObjectLoop, parseObjectLoop, removeWS_idem]

theorem parseObjectLoop_ws_append (f : Nat) (json : JsonParser) (w data : Bytes)
    (hw : IsWSRun w) : parseObjectLoop f json (w ++ data) = parseObjectLoop f json data := by
  rw [← parseObjectLoop_removeWS f json (w ++ data), removeWS_append_of_ws w _ hw,
    parseObjectLoop_removeWS]

/-- Each parsing method accepts what its nonterminal derives. -/
theorem complete_of_derives {ok : Nat → Prop} (hok : ∀ b, ok b → IsUnescaped b) {k : Kind}
    {l : Bytes} (h : Derives ok k l) : Complete k l := by
  induction h with
  | @number l hn =>
    intro f json rest hrest hf
    obtain ⟨f, rfl⟩ : ∃ g, f = g + 1 := ⟨f - 1, by omega⟩
    exact ⟨_, parseJson_number f json l rest hn
      (fun b hb => ⟨(hrest b hb).1, Or.inr (hrest b hb).2⟩)⟩
  | litTrue =>
    intro f json rest _ hf
    obtain ⟨f, rfl⟩ : ∃ g, f = g + 1 := ⟨f - 1, by omega⟩
    exact ⟨json, by simp [parseJson]⟩
  | litFalse =>
    intro f json rest _ hf
    obtain ⟨f, rfl⟩ : ∃ g, f = g + 1 := ⟨f - 1, by omega⟩
    exact ⟨json, by simp [parseJson]⟩
  | litNull =>
    intro f json rest _ hf
    obtain ⟨f, rfl⟩ : ∃ g, f = g + 1 := ⟨f - 1, by omega⟩
    exact ⟨json, by simp [parseJson]⟩
  | @string c hc =>
    intro f json rest _ hf
    obtain ⟨f, rfl⟩ : ∃ g, f = g + 1 := ⟨f - 1, by omega⟩
    refine ⟨json, ?_⟩
    have := parseJson_string f json _ _ (parseString_of_Chars rest (hc.mono hok))
    simpa using this
  | @emptyArray w hw =>
    intro f json rest _ hf
    obtain ⟨f, rfl⟩ : ∃ g, f = g + 1 + 1 := ⟨f - 2, by simp at hf; omega⟩
    refine ⟨json, ?_⟩
    rw [show (0x5B :: (w ++ [0x5D])) ++ rest = 0x5B :: (w ++ 0x5D :: rest) by simp, parseJson]
    simp only [show ¬ (0x5B = 0x7B) by decide, if_false, if_true]
    rw [parseArray_of (removeWS_ws_cons w 0x5D rest hw (by decide))]
    rfl
  | @array w es hw hes ih =>
    intro f json rest _ hf
    simp only [List.length_cons, List.length_append, List.length_nil] at hf
    obtain ⟨f, rfl⟩ : ∃ g, f = g + 1 + 1 := ⟨f - 2, by omega⟩
    obtain ⟨j2, h2⟩ := ih f json rest (by omega)
    obtain ⟨b, r, hbr, hb1, hb2, _⟩ := hes.starts
    have hX : removeWS (w ++ (es ++ 0x5D :: rest)) = b :: (r ++ 0x5D :: rest) := by
      rw [(hes.starts.append _).removeWS w hw, hbr]
      rfl
    refine ⟨j2, ?_⟩
    rw [show (0x5B :: (w ++ (es ++ [0x5D]))) ++ rest = 0x5B :: (w ++ (es ++ 0x5D :: rest)) by
      simp, parseJson]
    simp only [show ¬ (0x5B = 0x7B) by decide, if_false, if_true]
    rw [parseArray_of hX, if_neg hb2]
    rw [hbr] at h2
    rw [List.cons_append] at h2
    rw [h2]
    rfl
  | @emptyObject w hw =>
    intro f json rest _ hf
    obtain ⟨f, rfl⟩ : ∃ g, f = g + 1 + 1 := ⟨f - 2, by simp at hf; omega⟩
    refine ⟨json, ?_⟩
    rw [show (0x7B :: (w ++ [0x7D])) ++ rest = 0x7B :: (w ++ 0x7D :: rest) by simp, parseJson]
    simp only [if_true]
    rw [parseObject_of (removeWS_ws_cons w 0x7D rest hw (by decide))]
    rfl
  | @object w ms hw hms ih =>
    intro f json rest _ hf
    simp only [List.length_cons, List.length_append, List.length_nil] at hf
    obtain ⟨f, rfl⟩ : ∃ g, f = g + 1 + 1 := ⟨f - 2, by omega⟩
    obtain ⟨j2, h2⟩ := ih f json rest (by omega)
    obtain ⟨b, r, hbr, hb1, _, hb3⟩ := hms.starts
    have hX : removeWS (w ++ (ms ++ 0x7D :: rest)) = b :: (r ++ 0x7D :: rest) := by
      rw [(hms.starts.append _).removeWS w hw, hbr]
      rfl
    refine ⟨j2, ?_⟩
    rw [show (0x7B :: (w ++ (ms ++ [0x7D]))) ++ rest = 0x7B :: (w ++ (ms ++ 0x7D :: rest)) by
      simp, parseJson]
    simp only [if_true]
    rw [parseObject_of hX, if_neg hb3]
    rw [hbr] at h2
    rw [List.cons_append] at h2
    rw [h2]
    rfl
  | @lastElement v w hv hw ih =>
    intro f json rest hf
    simp only [List.length_append] at hf
    obtain ⟨f, rfl⟩ : ∃ g, f = g + 1 := ⟨f - 1, by omega⟩
    obtain ⟨j2, h2⟩ := ih f json (w ++ 0x5D :: rest)
      (numberEnds_ws_cons w 0x5D rest hw (by decide)) (by omega)
    refine ⟨j2, ?_⟩
    rw [← (hv.starts.append _).removeWS [] (by simp [IsWSRun])] at h2
    rw [show v ++ w ++ 0x5D :: rest = [] ++ (v ++ (w ++ 0x5D :: rest)) by simp]
    rw [parseArrayLoop_of h2 (removeWS_ws_cons w 0x5D rest hw (by decide))]
    simp
  | @moreElements v w1 w2 es hv hw1 hw2 hes ih1 ih2 =>
    intro f json rest hf
    simp only [List.length_append, List.length_cons] at hf
    obtain ⟨f, rfl⟩ : ∃ g, f = g + 1 := ⟨f - 1, by omega⟩
    obtain ⟨j2, h2⟩ := ih1 f json (w1 ++ 0x2C :: (w2 ++ (es ++ 0x5D :: rest)))
      (numberEnds_ws_cons w1 0x2C _ hw1 (by decide)) (by omega)
    obtain ⟨j3, h3⟩ := ih2 f j2 rest (by omega)
    refine ⟨j3, ?_⟩
    rw [← (hv.starts.append _).removeWS [] (by simp [IsWSRun])] at h2
    rw [show v ++ (w1 ++ 0x2C :: (w2 ++ es)) ++ 0x5D :: rest =
      [] ++ (v ++ (w1 ++ 0x2C :: (w2 ++ (es ++ 0x5D :: rest)))) by simp]
    rw [parseArrayLoop_of h2 (removeWS_ws_cons w1 0x2C _ hw1 (by decide))]
    simp only [if_true]
    rw [parseArrayLoop_ws_append _ _ _ _ hw2, h3]
  | @lastMember k w1 w2 v w3 hk hw1 hw2 hv hw3 ih =>
    intro f json rest hf
    simp only [List.length_append, List.length_cons] at hf
    obtain ⟨f, rfl⟩ : ∃ g, f = g + 1 := ⟨f - 1, by omega⟩
    obtain ⟨j2, h2⟩ := ih f json (w3 ++ 0x7D :: rest)
      (numberEnds_ws_cons w3 0x7D rest hw3 (by decide)) (by omega)
    refine ⟨j2, ?_⟩
    rw [← (hv.starts.append _).removeWS w2 hw2] at h2
    have hd : (0x22 :: (k ++ 0x22 :: (w1 ++ 0x3A :: (w2 ++ (v ++ w3))))) ++ 0x7D :: rest =
        0x22 :: (k ++ 0x22 :: (w1 ++ 0x3A :: (w2 ++ (v ++ (w3 ++ 0x7D :: rest))))) := by simp
    rw [hd, parseObjectLoop_of (removeWS_cons_of_not_ws _ (by decide))
      (validateKey_of_Chars _ (hk.mono hok)) (removeWS_ws_cons w1 0x3A _ hw1 (by decide)) h2
      (removeWS_ws_cons w3 0x7D rest hw3 (by decide))]
    simp
  | @moreMembers k w1 w2 v w3 w4 ms hk hw1 hw2 hv hw3 hw4 hms ih1 ih2 =>
    intro f json rest hf
    simp only [List.length_append, List.length_cons] at hf
    obtain ⟨f, rfl⟩ : ∃ g, f = g + 1 := ⟨f - 1, by omega⟩
    obtain ⟨j2, h2⟩ := ih1 f json (w3 ++ 0x2C :: (w4 ++ (ms ++ 0x7D :: rest)))
      (numberEnds_ws_cons w3 0x2C _ hw3 (by decide)) (by omega)
    obtain ⟨j3, h3⟩ := ih2 f j2 rest (by omega)
    refine ⟨j3, ?_⟩
    rw [← (hv.starts.append _).removeWS w2 hw2] at h2
    have hd : (0x22 :: (k ++ 0x22 :: (w1 ++ 0x3A :: (w2 ++ (v ++ (w3 ++ 0x2C :: (w4 ++ ms)))))))
        ++ 0x7D :: rest =
        0x22 :: (k ++ 0x22 :: (w1 ++ 0x3A :: (w2 ++ (v ++ (w3 ++ 0x2C ::
          (w4 ++ (ms ++ 0x7D :: rest))))))) := by simp
    rw [hd, parseObjectLoop_of (removeWS_cons_of_not_ws _ (by decide))
      (validateKey_of_Chars _ (hk.mono hok)) (removeWS_ws_cons w1 0x3A _ hw1 (by decide)) h2
      (removeWS_ws_cons w3 0x2C _ hw3 (by decide))]
    simp only [if_true]
    rw [parseObjectLoop_ws_append _ _ _ _ hw4, h3]

/-- A value that starts with a quote is a string. -/
theorem Derives.value_quote {ok : Nat → Prop} {t : Bytes} (h : Derives ok .value (0x22 :: t)) :
    ∃ c, t = c ++ [0x22] ∧ Chars ok c := by
  have key : ∀ k l, Derives ok k l → k = Kind.value → l = 0x22 :: t →
      ∃ c, t = c ++ [0x22] ∧ Chars ok c := by
    intro k l h
    cases h with
    | number hn =>
      intro _ hl
      obtain ⟨b, r, hbr, hb⟩ := hn.head
      rw [hl] at hbr
      injection hbr with hb1 _
      subst hb1
      simp [isDigit] at hb
    | string hc =>
      intro _ hl
      injection hl with _ h2
      exact ⟨_, h2.symm, hc⟩
    | litTrue => intro _ hl; simp at hl
    | litFalse => intro _ hl; simp at hl
    | litNull => intro _ hl; simp at hl
    | emptyArray _ => intro _ hl; simp at hl
    | array _ _ => intro _ hl; simp at hl
    | emptyObject _ => intro _ hl; simp at hl
    | object _ _ => intro _ hl; simp at hl
    | lastElement _ _ => intro hk; cases hk
    | moreElements _ _ _ _ => intro hk; cases hk
    | lastMember _ _ _ _ _ => intro hk; cases hk
    | moreMembers _ _ _ _ _ _ _ => intro hk; cases hk
  exact key _ _ h rfl rfl

/-! ## The claims -/

/-- C4, which the code departs from: a control byte (below 0x20) inside a string
value or an object key must make `IsValid` fail.  The code checks only the
byte that follows a backslash: the string `"\x01"`, the string `"\x01\\n"`
read by the slow path, and the key of `{"\x01":1}` are accepted, while
`"\\\x01"` fails with "string cannot contain control char". -/
theorem control_byte_in_string_accepted :
    IsValid (NewParser [0x22, 0x01, 0x22]) = some (⟨[0x22, 0x01, 0x22], [], []⟩, none) ∧
    IsValid (NewParser [0x22, 0x01, 0x5C, 0x6E, 0x22]) =
      some (⟨[0x22, 0x01, 0x5C, 0x6E, 0x22], [], []⟩, none) ∧
    IsValid (NewParser [0x7B, 0x22, 0x01, 0x22, 0x3A, 0x31, 0x7D]) =
      some (⟨[0x7B, 0x22, 0x01, 0x22, 0x3A, 0x31, 0x7D], [[0x31]], []⟩, none) ∧
    IsValid (NewParser [0x22, 0x5C, 0x01, 0x22]) =
      some (⟨[0x22, 0x5C, 0x01, 0x22], [], []⟩,
        some [.text "cannot parse JSON: ", .text "cannot parse string: ",
          .text "string cannot contain control char 0x", .x02 0x01,
          .text "; unparsed tail: ", .q []]) := by
  refine ⟨?_, ?_, ?_, ?_⟩ <;> decide

/-- C5: after `IsValid` on a fresh parser, for every input, accepted or not
(`IsValid` returns on all of them), no string of `Integers` contains a `.`
and every string of `Floating` contains exactly one. -/
theorem partition_by_dot (data : Bytes) :
    ∃ json e, IsValid (NewParser data) = some (json, e) ∧
      (∀ l ∈ json.Integers, 0x2E ∉ l) ∧ (∀ l ∈ json.Floating, l.count 0x2E = 1) := by
  obtain ⟨r, hr, _, ints, floats, hj, hi, hf⟩ :=
    parseJson_fuelFor ⟨removeWS data, [], []⟩ (removeWS data)
  refine ⟨_, _, IsValid_of_parseJson hr, ?_, ?_⟩
  · intro l hl
    rw [hj] at hl
    exact (hi l (by simpa [JsonParser.add] using hl)).2
  · intro l hl
    rw [hj] at hl
    have := hf l (by simpa [JsonParser.add] using hl)
    exact this.1.count_dot this.2

/-- C7: for every input made only of the bytes 0x09, 0x0A, 0x0D, 0x20 (the empty
input included), `IsValid` returns an error whose message contains "cannot
parse empty string", and `Integers` and `Floating` stay empty. -/
theorem whitespace_only_input (data : Bytes) (h : ∀ b ∈ data, isWS b) :
    ∃ json e, IsValid (NewParser data) = some (json, some e) ∧
      (∀ v, ContainsText (render v e) "cannot parse empty string") ∧
      json.Integers = [] ∧ json.Floating = [] := by
  have hw := removeWS_of_ws data h
  have hp : parseJson (fuelFor (removeWS data)) ⟨removeWS data, [], []⟩ (removeWS data) =
      some ⟨⟨[], [], []⟩, [], some [.text "cannot parse empty string"]⟩ := by
    rw [hw]; rfl
  refine ⟨_, _, IsValid_of_parseJson hp, ?_, rfl, rfl⟩
  intro v
  exact ⟨lit "cannot parse JSON: ", render v [.text "; unparsed tail: ", .q (makeErrorTrace [])],
    by simp [render_text_cons]⟩

theorem whitespace_only_input_witness :
    (∀ b ∈ [0x20, 0x09, 0x0A, 0x0D], isWS b) ∧
    ∃ json e, IsValid (NewParser [0x20, 0x09, 0x0A, 0x0D]) = some (json, some e) ∧
      (∀ v, ContainsText (render v e) "cannot parse empty string") ∧
      json.Integers = [] ∧ json.Floating = [] :=
  ⟨by decide, whitespace_only_input _ (by decide)⟩

/-- C8, as the counterexample shows it false: on the input `1.`, which ends right
after the `.`, `parseNumber` fails with "missing fractional part", a message
that does not contain "expecting 0..9 digit in fractional part". -/
theorem empty_fraction_at_end_of_input :
    parseNumber (lit "1.") = (lit "1.", [], some [.text "missing fractional part"]) ∧
    ∀ v, ¬ ContainsText (render v [.text "missing fractional part"])
      "expecting 0..9 digit in fractional part" := by
  refine ⟨by decide, fun v => not_containsText_of_length_lt _ _ ?_⟩
  have h1 : render v [.text "missing fractional part"] = lit "missing fractional part" := by
    simp [render, Piece.render]
  rw [h1]
  decide

/-- C8, amended: for every input made of a valid integer part (an optional `-`,
then `0` or a non-zero digit followed by digits), a `.` and then a byte that
is not a digit, `parseNumber` fails with a message that contains "expecting
0..9 digit in fractional part"; when the input ends right after the `.`,
`parseNumber` fails with "missing fractional part". -/
theorem empty_fraction (sign int rest : Bytes) (b : Nat) (hs : sign = [] ∨ sign = [0x2D])
    (hi : IsInt int) (hb : ¬ isDigit b) :
    (∃ number tail, parseNumber (sign ++ int ++ 0x2E :: b :: rest) = (number, tail,
      some [.text "expecting 0..9 digit in fractional part, got ", .c b])) ∧
    (∀ v, ContainsText
      (render v [.text "expecting 0..9 digit in fractional part, got ", .c b])
      "expecting 0..9 digit in fractional part") ∧
    (∃ number tail, parseNumber (sign ++ int ++ [0x2E]) =
      (number, tail, some [.text "missing fractional part"])) := by
  obtain ⟨d, ds, rfl, hds, hz⟩ := (IsInt_iff int).1 hi
  have hdot : ∀ r : Bytes, ∀ c, (0x2E :: r).head? = some c → ¬ isDigit c := by
    intro r c hc
    simp at hc
    subst hc
    simp [isDigit]
  have hrun : digitRun (b :: rest) = [] := by
    unfold isDigit at hb
    have h : b < 0x30 ∨ b > 0x39 := by omega
    simp [digitRun, h]
  refine ⟨?_, ?_, ?_⟩
  · rw [parseNumber_sign sign (d :: ds) _ hs hi,
      parseNumberDigits_append sign d ds _ hds (hdot _) hz]
    simp only [if_true, hrun]
    exact ⟨_, _, rfl⟩
  · intro v
    refine ⟨[], lit ", got " ++ render v [.c b], ?_⟩
    rw [render_text_cons]
    have : lit "expecting 0..9 digit in fractional part, got " =
        lit "expecting 0..9 digit in fractional part" ++ lit ", got " := by decide
    rw [this]
    simp
  · rw [parseNumber_sign sign (d :: ds) _ hs hi,
      parseNumberDigits_append sign d ds _ hds (hdot _) hz]
    exact ⟨_, _, rfl⟩

theorem empty_fraction_witness :
    (∃ number tail, parseNumber ([0x2D] ++ [0x31, 0x32] ++ 0x2E :: 0x78 :: [0x35]) =
      (number, tail, some [.text "expecting 0..9 digit in fractional part, got ", .c 0x78])) ∧
    (∀ v, ContainsText
      (render v [.text "expecting 0..9 digit in fractional part, got ", .c 0x78])
      "expecting 0..9 digit in fractional part") ∧
    (∃ number tail, parseNumber ([0x2D] ++ [0x31, 0x32] ++ [0x2E]) =
      (number, tail, some [.text "missing fractional part"])) :=
  empty_fraction [0x2D] [0x31, 0x32] [0x35] 0x78 (Or.inr rfl)
    (Or.inr ⟨0x31, [0x32], rfl, by decide, by decide, by decide⟩) (by decide)

/-- C9: for every input that, after an optional leading `-`, starts with the
digit `0` followed at once by one more digit, `parseNumber` fails with the
message "unexpected number starting from 0"; so `IsValid` rejects `01`, `00`
and `-01`, while it accepts `0`, `-0`, `0.5` and `-0.0`. -/
theorem leading_zero (sign rest : Bytes) (d : Nat) (hs : sign = [] ∨ sign = [0x2D])
    (hd : isDigit d) :
    (∃ number tail, parseNumber (sign ++ 0x30 :: d :: rest) =
      (number, tail, some [.text "unexpected number starting from 0"])) ∧
    (∀ v, render v [.text "unexpected number starting from 0"] =
      lit "unexpected number starting from 0") ∧
    Rejects (lit "01") ∧ Rejects (lit "00") ∧ Rejects (lit "-01") ∧
    Accepts (lit "0") ∧ Accepts (lit "-0") ∧ Accepts (lit "0.5") ∧ Accepts (lit "-0.0") := by
  refine ⟨?_, fun v => by simp [render, Piece.render], ⟨_, _, rfl⟩, ⟨_, _, rfl⟩,
    ⟨_, _, rfl⟩, ⟨_, rfl⟩, ⟨_, rfl⟩, ⟨_, rfl⟩, ⟨_, rfl⟩⟩
  rcases hs with rfl | rfl
  · refine ⟨[] ++ 0x30 :: d :: digitRun rest, 0x30 :: d :: rest, ?_⟩
    rw [List.nil_append, parseNumber]
    simp only [show ¬ (0x30 = 0x2D) by decide, if_false]
    exact parseNumberDigits_leading_zero _ _ _ hd
  · refine ⟨[0x2D] ++ 0x30 :: d :: digitRun rest, 0x30 :: d :: rest, ?_⟩
    rw [List.singleton_append, parseNumber]
    simp only [if_true, List.length_cons, Nat.succ_ne_zero, if_false]
    exact parseNumberDigits_leading_zero _ _ _ hd

theorem leading_zero_witness :
    (∃ number tail, parseNumber ([0x2D] ++ 0x30 :: 0x37 :: [0x2E, 0x35]) =
      (number, tail, some [.text "unexpected number starting from 0"])) ∧
    (∀ v, render v [.text "unexpected number starting from 0"] =
      lit "unexpected number starting from 0") ∧
    Rejects (lit "01") ∧ Rejects (lit "00") ∧ Rejects (lit "-01") ∧
    Accepts (lit "0") ∧ Accepts (lit "-0") ∧ Accepts (lit "0.5") ∧ Accepts (lit "-0.0") :=
  leading_zero [0x2D] [0x2E, 0x35] 0x37 (Or.inr rfl) (by decide)

/-- C6, as the counterexample shows it false: `IsValid` accepts `1`, the byte `2`
is no whitespace, and `IsValid` accepts `12`; with the byte `.` instead,
`IsValid` fails on `1.` with a message that begins with "cannot parse JSON". -/
theorem unexpected_tail_after_digit :
    IsValid (NewParser (lit "1")) = some (⟨lit "1", [lit "1"], []⟩, none) ∧
    ¬ isWS 0x32 ∧
    IsValid (NewParser (lit "1" ++ [0x32])) = some (⟨lit "12", [lit "12"], []⟩, none) ∧
    ¬ isWS 0x2E ∧
    IsValid (NewParser (lit "1" ++ [0x2E])) = some (⟨lit "1.", [], []⟩,
      some [.text "cannot parse JSON: ", .text "cannot parse number: ",
        .text "missing fractional part", .text "; unparsed tail: ", .q []]) := by
  refine ⟨?_, ?_, ?_, ?_, ?_⟩ <;> decide

/-- C10: for every non-empty sequence of inputs, each accepted by `IsValid`, and
every run `w` of whitespace, `IsValid` returns an error on `[`, the inputs
each followed by a comma, `w` and `]`; and it accepts `[`, `w`, `]`. -/
theorem trailing_comma (vs : List Bytes) (w : Bytes) (hne : vs ≠ [])
    (hvs : ∀ v ∈ vs, Accepts v) (hw : ∀ b ∈ w, isWS b) :
    Rejects (0x5B :: (withCommas vs ++ w ++ [0x5D])) ∧ Accepts (0x5B :: (w ++ [0x5D])) := by
  constructor
  · obtain ⟨v, vs2, rfl⟩ := List.exists_cons_of_ne_nil hne
    obtain ⟨j1, t1, hp, _⟩ := accepts_run (hvs v (List.mem_cons_self _ _))
    obtain ⟨b, r, hbr⟩ := List.exists_cons_of_ne_nil (parseJson_ok_ne_nil hp)
    have hb : b ≠ 0x5D := by
      rintro rfl
      rw [hbr] at hp
      exact parseJson_bracket_not_ok hp
    have hX : removeWS (withCommas (v :: vs2) ++ w ++ [0x5D]) =
        b :: (r ++ (0x2C :: withCommas vs2 ++ w ++ [0x5D])) := by
      have : withCommas (v :: vs2) ++ w ++ [0x5D] =
          v ++ (0x2C :: withCommas vs2 ++ w ++ [0x5D]) := by simp [withCommas]
      rw [this, removeWS_append_of_eq_cons _ hbr]
    have hdata : removeWS (0x5B :: (withCommas (v :: vs2) ++ w ++ [0x5D])) =
        0x5B :: (withCommas (v :: vs2) ++ w ++ [0x5D]) :=
      removeWS_cons_of_not_ws _ (by decide)
    have hfuel : fuelFor (0x5B :: (withCommas (v :: vs2) ++ w ++ [0x5D])) =
        (3 * (withCommas (v :: vs2)).length + 3 * w.length + 5) + 1 + 1 := by
      unfold fuelFor
      simp only [List.length_cons, List.length_append, List.length_nil]
      omega
    obtain ⟨r1, e1, hl, he1⟩ := withCommas_loop (v :: vs2) hvs w [] hw
      (3 * (withCommas (v :: vs2)).length + 3 * w.length + 5) ⟨_, [], []⟩ (by omega)
    have hpj : parseJson (fuelFor (removeWS (0x5B :: (withCommas (v :: vs2) ++ w ++ [0x5D]))))
        ⟨removeWS (0x5B :: (withCommas (v :: vs2) ++ w ++ [0x5D])), [], []⟩
        (removeWS (0x5B :: (withCommas (v :: vs2) ++ w ++ [0x5D]))) =
        some (wrap "cannot parse array: " r1) := by
      rw [hdata, hfuel, parseJson]
      simp only [show ¬ (0x5B = 0x7B) by decide, if_false, if_true]
      rw [parseArray_of hX, if_neg hb, ← hX, parseArrayLoop_removeWS, hl]
      rfl
    exact rejects_of_parseJson hpj (wrap_err _ he1)
  · have hdata : removeWS (0x5B :: (w ++ [0x5D])) = 0x5B :: (w ++ [0x5D]) :=
      removeWS_cons_of_not_ws _ (by decide)
    have hX : removeWS (w ++ [0x5D]) = [0x5D] := by
      rw [removeWS_append_of_ws w _ hw, removeWS_cons_of_not_ws _ (by decide)]
    have hpj : parseJson (fuelFor (removeWS (0x5B :: (w ++ [0x5D]))))
        ⟨removeWS (0x5B :: (w ++ [0x5D])), [], []⟩ (removeWS (0x5B :: (w ++ [0x5D]))) =
        some ⟨⟨0x5B :: (w ++ [0x5D]), [], []⟩, [], none⟩ := by
      rw [hdata]
      have : fuelFor (0x5B :: (w ++ [0x5D])) = (3 * w.length + 5) + 1 + 1 := by
        unfold fuelFor
        simp only [List.length_cons, List.length_append, List.length_nil]
        omega
      rw [this, parseJson]
      simp only [show ¬ (0x5B = 0x7B) by decide, if_false, if_true]
      rw [parseArray_of hX]
      rfl
    exact accepts_of_parseJson hpj (by simp)

theorem trailing_comma_witness :
    Rejects (0x5B :: (withCommas [lit "1", lit " true "] ++ [0x20] ++ [0x5D])) ∧
    Accepts (0x5B :: ([0x20] ++ [0x5D])) :=
  trailing_comma [lit "1", lit " true "] [0x20] (by simp)
    (by
      intro v hv
      simp only [List.mem_cons, List.mem_singleton, List.not_mem_nil, or_false] at hv
      rcases hv with rfl | rfl
      · exact ⟨_, rfl⟩
      · exact ⟨_, rfl⟩)
    (by decide)

/-- C3: for every list `L` of number literals of the grammar, `IsValid` on a
fresh parser for `[`, the literals joined by `", "`, `]` succeeds, and then
`Integers` is the sublist of the literals without `.` and `Floating` the
sublist of the literals with a `.`, in their order and unchanged. -/
theorem number_extraction (L : List Bytes) (hL : ∀ l ∈ L, IsNumber l) :
    IsValid (NewParser (0x5B :: (joinCommaSpace L ++ [0x5D]))) =
      some (⟨0x5B :: (joinCommaSpace L ++ [0x5D]),
        L.filter (fun l => decide (0x2E ∉ l)), L.filter (fun l => decide (0x2E ∈ l))⟩, none) := by
  have hdata : removeWS (0x5B :: (joinCommaSpace L ++ [0x5D])) =
      0x5B :: (joinCommaSpace L ++ [0x5D]) := removeWS_cons_of_not_ws _ (by decide)
  have hfuel : fuelFor (0x5B :: (joinCommaSpace L ++ [0x5D])) =
      (3 * (joinCommaSpace L).length + 5) + 1 + 1 := by
    unfold fuelFor
    simp only [List.length_cons, List.length_append, List.length_nil]
    omega
  have hlen := length_le_joinCommaSpace L hL
  have hpj : parseJson (fuelFor (removeWS (0x5B :: (joinCommaSpace L ++ [0x5D]))))
      ⟨removeWS (0x5B :: (joinCommaSpace L ++ [0x5D])), [], []⟩
      (removeWS (0x5B :: (joinCommaSpace L ++ [0x5D]))) =
      some ⟨⟨0x5B :: (joinCommaSpace L ++ [0x5D]), L.filter (fun l => decide (0x2E ∉ l)),
        L.filter (fun l => decide (0x2E ∈ l))⟩, [], none⟩ := by
    rw [hdata, hfuel, parseJson]
    simp only [show ¬ (0x5B = 0x7B) by decide, if_false, if_true]
    cases L with
    | nil =>
      have hX : removeWS (joinCommaSpace [] ++ [0x5D]) = [0x5D] := by
        simp [joinCommaSpace, removeWS]
      rw [parseArray_of hX]
      rfl
    | cons l L =>
      have hl := hL l (List.mem_cons_self _ _)
      obtain ⟨X, hX⟩ : ∃ X, joinCommaSpace (l :: L) = l ++ X := by
        cases L with
        | nil => exact ⟨[], by simp [joinCommaSpace]⟩
        | cons l2 L => exact ⟨_, rfl⟩
      obtain ⟨b, r, hbr, hb⟩ := hl.head
      have hw : removeWS (joinCommaSpace (l :: L) ++ [0x5D]) =
          b :: (r ++ X ++ [0x5D]) := by
        have hnw : ¬ isWS b := by unfold isWS; unfold isDigit at hb; omega
        rw [hX, hbr]
        exact removeWS_cons_of_not_ws _ hnw
      have hne : b ≠ 0x5D := by unfold isDigit at hb; omega
      rw [parseArray_of hw, if_neg hne, ← hw, parseArrayLoop_removeWS]
      have := joinCommaSpace_loop (l :: L) (by simp) hL [] [] (by simp)
        (3 * (joinCommaSpace (l :: L)).length + 5) ⟨0x5B :: (joinCommaSpace (l :: L) ++ [0x5D]), [], []⟩
        (by omega)
      rw [List.nil_append] at this
      rw [this]
      simp [wrap, JsonParser.add]
  rw [IsValid_of_parseJson hpj]
  simp [removeWS]

theorem number_extraction_witness :
    (∀ l ∈ [lit "1", lit "2.5", lit "-3", lit "0", lit "-0.5"], IsNumber l) ∧
    joinCommaSpace [lit "1", lit "2.5", lit "-3", lit "0", lit "-0.5"] = lit "1, 2.5, -3, 0, -0.5" ∧
    IsValid (NewParser (lit "[1, 2.5, -3, 0, -0.5]")) =
      some (⟨lit "[1, 2.5, -3, 0, -0.5]", [lit "1", lit "-3", lit "0"],
        [lit "2.5", lit "-0.5"]⟩, none) := by
  have hL : ∀ l ∈ [lit "1", lit "2.5", lit "-3", lit "0", lit "-0.5"], IsNumber l := by
    intro l hl
    simp only [List.mem_cons, List.mem_singleton, List.not_mem_nil, or_false] at hl
    rcases hl with rfl | rfl | rfl | rfl | rfl
    · exact ⟨[], [0x31], [], rfl, Or.inl rfl, Or.inr ⟨0x31, [], rfl, by decide, by decide,
        by simp⟩, Or.inl rfl⟩
    · exact ⟨[], [0x32], [0x2E, 0x35], rfl, Or.inl rfl, Or.inr ⟨0x32, [], rfl, by decide,
        by decide, by simp⟩, Or.inr ⟨[0x35], rfl, by simp, by decide⟩⟩
    · exact ⟨[0x2D], [0x33], [], rfl, Or.inr rfl, Or.inr ⟨0x33, [], rfl, by decide, by decide,
        by simp⟩, Or.inl rfl⟩
    · exact ⟨[], [0x30], [], rfl, Or.inl rfl, Or.inl rfl, Or.inl rfl⟩
    · exact ⟨[0x2D], [0x30], [0x2E, 0x35], rfl, Or.inr rfl, Or.inl rfl,
        Or.inr ⟨[0x35], rfl, by simp, by decide⟩⟩
  exact ⟨hL, by decide, number_extraction _ hL⟩

/-- C1, which the code departs from: every input that `IsValid` accepts must be
of the form `WS value WS` of the grammar, whose strings hold no byte below
0x20.  `IsValid` accepts the three bytes `"`, 0x09, `"`, a string with a raw
tab, which the grammar does not derive. -/
theorem accepted_input_not_in_grammar :
    Accepts [0x22, 0x09, 0x22] ∧ ¬ InGrammar [0x22, 0x09, 0x22] := by
  refine ⟨⟨_, rfl⟩, ?_⟩
  rintro ⟨w1, v, w2, hs, hw1, hv, _⟩
  cases w1 with
  | cons a w1 =>
    rw [List.cons_append] at hs
    injection hs with h1 _
    have := hw1 a (List.mem_cons_self _ _)
    rw [← h1] at this
    exact absurd this (by decide)
  | nil =>
    obtain ⟨b, r, rfl, _⟩ := hv.starts
    rw [List.nil_append, List.cons_append] at hs
    injection hs with h1 h2
    subst h1
    obtain ⟨c, rfl, hc⟩ := hv.value_quote
    cases c with
    | nil =>
      rw [List.nil_append, List.cons_append] at h2
      injection h2 with h3 _
      exact absurd h3 (by decide)
    | cons x c =>
      rw [List.cons_append, List.cons_append] at h2
      injection h2 with h3 _
      subst h3
      rcases Chars.cons_inv hc with ⟨hp, _⟩ | ⟨hb, _⟩
      · exact absurd hp (by decide)
      · exact absurd hb (by decide)

/-- C2: for every byte string of the form `WS value WS`, where `value` is derived
by the grammar of section 6 and `WS` is a run of the bytes 0x09, 0x0A, 0x0D,
0x20, `IsValid` on a fresh parser returns no error. -/
theorem grammar_complete (s : Bytes) (h : InGrammar s) : Accepts s := by
  obtain ⟨w1, v, w2, rfl, hw1, hv, hw2⟩ := h
  have hX : removeWS (w1 ++ (v ++ w2)) = v ++ w2 := (hv.starts.append _).removeWS w1 hw1
  obtain ⟨j2, h2⟩ := complete_of_derives (fun b hb => ⟨hb.2.1, hb.2.2⟩) hv
    (fuelFor (v ++ w2)) ⟨v ++ w2, [], []⟩ w2 (numberEnds_ws w2 hw2)
    (by unfold fuelFor; simp)
  rw [← hX] at h2
  exact accepts_of_parseJson h2 hw2

theorem grammar_complete_witness :
    InGrammar (lit " \x7b\"k\":[1,\"a\\n\",true]\x7d ") ∧
    Accepts (lit " \x7b\"k\":[1,\"a\\n\",true]\x7d ") := by
  have hnum : Derives IsPlainChar .value [0x31] :=
    .number ⟨[], [0x31], [], rfl, Or.inl rfl,
      Or.inr ⟨0x31, [], rfl, by decide, by decide, by simp⟩, Or.inl rfl⟩
  have hstr : Derives IsPlainChar .value (0x22 :: ([0x61, 0x5C, 0x6E] ++ [0x22])) :=
    .string (.plain (by decide) (.escape (by decide) .nil))
  have hes : Derives IsPlainChar .elements
      ([0x31] ++ ([] ++ 0x2C :: ([] ++
        ((0x22 :: ([0x61, 0x5C, 0x6E] ++ [0x22])) ++ ([] ++ 0x2C :: ([] ++
          ([0x74, 0x72, 0x75, 0x65] ++ []))))))) :=
    .moreElements hnum (by decide) (by decide)
      (.moreElements hstr (by decide) (by decide) (.lastElement .litTrue (by decide)))
  have harr := @Derives.array IsPlainChar [] _ (by decide) hes
  have hms := @Derives.lastMember IsPlainChar [0x6B] [] [] _ []
    (.plain (by decide) .nil) (by decide) (by decide) harr (by decide)
  have hv := @Derives.object IsPlainChar [] _ (by decide) hms
  have hin : InGrammar (lit " \x7b\"k\":[1,\"a\\n\",true]\x7d ") :=
    ⟨[0x20], _, [0x20], by decide, by decide, hv, by decide⟩
  exact ⟨hin, grammar_complete _ hin⟩

/-- C11: for every string `s`, `makeErrorTrace s` is `s` when `s` has at most 80
bytes, and otherwise the first 40 bytes of `s`, then `...`, then the last 40
bytes of `s`; so the result never has more than 83 bytes. -/
theorem error_framing (s : Bytes) :
    (s.length ≤ 80 → makeErrorTrace s = s) ∧
    (80 < s.length →
      makeErrorTrace s = s.take 40 ++ lit "..." ++ s.drop (s.length - 40) ∧
      s.take 40 <+: s ∧ (s.take 40).length = 40 ∧
      s.drop (s.length - 40) <:+ s ∧ (s.drop (s.length - 40)).length = 40) ∧
    (makeErrorTrace s).length ≤ 83 := by
  have hdots : (lit "...").length = 3 := by decide
  refine ⟨?_, ?_, ?_⟩
  · intro h
    simp [makeErrorTrace, maxStartEndStringLen, h]
  · intro h
    have hn : ¬ s.length ≤ 80 := by omega
    refine ⟨by simp [makeErrorTrace, maxStartEndStringLen, hn], List.take_prefix _ _, ?_,
      List.drop_suffix _ _, ?_⟩
    · rw [List.length_take]; omega
    · rw [List.length_drop]; omega
  · unfold makeErrorTrace maxStartEndStringLen
    split_ifs with h
    · omega
    · simp only [List.length_append, List.length_take, List.length_drop, hdots]
      omega

/-- C13: for every input on which `parseNumber` succeeds with the literal `num`,
`parseNumber` on `num` alone succeeds and returns the same literal and the
empty remainder. -/
theorem parseNumber_idempotent (data num tail : Bytes)
    (h : parseNumber data = (num, tail, none)) : parseNumber num = (num, [], none) := by
  have hnum := (parseNumber_ok data num tail h).1
  have := parseNumber_of_IsNumber num [] hnum (fun b hb => by simp at hb)
  simpa using this

theorem parseNumber_idempotent_witness :
    parseNumber (lit "-12.50abc") = (lit "-12.50", lit "abc", none) ∧
    parseNumber (lit "-12.50") = (lit "-12.50", [], none) :=
  ⟨by decide, parseNumber_idempotent (lit "-12.50abc") (lit "-12.50") (lit "abc") (by decide)⟩

/-- C15: for every input on which `parseNumber` succeeds with the literal `num`
and the tail `tail`, the literal followed by the tail is the input, the
literal is a number of the grammar `'-'? ('0' | [1-9][0-9]*) ('.' [0-9]+)?`,
and it is maximal: the tail does not start with a digit and, when the literal
has no `.`, does not start with `.`. -/
theorem parseNumber_postcondition (data num tail : Bytes)
    (h : parseNumber data = (num, tail, none)) :
    num ++ tail = data ∧ IsNumber num ∧
      (∀ b, tail.head? = some b → ¬ isDigit b) ∧
      (0x2E ∉ num → ∀ b, tail.head? = some b → b ≠ 0x2E) := by
  obtain ⟨hnum, hdata, hmax⟩ := parseNumber_ok data num tail h
  refine ⟨hdata.symm, hnum, fun b hb => (hmax b hb).1, fun hdot b hb => ?_⟩
  rcases (hmax b hb).2 with h1 | h1
  · exact absurd h1 hdot
  · exact h1

theorem parseNumber_postcondition_witness :
    lit "1.5" ++ lit ".3" = lit "1.5.3" ∧ IsNumber (lit "1.5") ∧
      (∀ b, (lit ".3").head? = some b → ¬ isDigit b) ∧
      (0x2E ∉ lit "1.5" → ∀ b, (lit ".3").head? = some b → b ≠ 0x2E) :=
  parseNumber_postcondition (lit "1.5.3") (lit "1.5") (lit ".3") (by decide)

/-- C17: for every input, `validateKey` returns no error exactly when
`parseString` returns no error, and when they succeed they return the same
remaining input. -/
theorem key_validator_agrees (data : Bytes) :
    ((∃ tail, validateKey data = some (tail, none)) ↔
      (∃ tail, parseString data = some (tail, none))) ∧
    (∀ tail, validateKey data = some (tail, none) ↔ parseString data = some (tail, none)) ∧
    (∃ t1 e1 t2 e2, validateKey data = some (t1, e1) ∧ parseString data = some (t2, e2)) := by
  refine ⟨?_, fun tail => validateKey_ok_iff data tail, ?_⟩
  · constructor
    · rintro ⟨tail, h⟩
      exact ⟨tail, (validateKey_ok_iff data tail).1 h⟩
    · rintro ⟨tail, h⟩
      exact ⟨tail, (validateKey_ok_iff data tail).2 h⟩
  · obtain ⟨t1, e1, h1, _⟩ := validateKey_total data
    obtain ⟨t2, e2, h2, _⟩ := parseString_total data
    exact ⟨t1, e1, t2, e2, h1, h2⟩

/-- C18: for every string, `removeWS` removes the longest prefix made of the
bytes 0x09, 0x0A, 0x0D, 0x20 and nothing else: the input is a run of
whitespace followed by the result, the result is empty or starts with a byte
that is no whitespace, the bytes 0x00, 0x0B and 0x0C are not skipped, and
`removeWS` applied twice is `removeWS`. -/
theorem whitespace_skipper (data : Bytes) :
    removeWS data = data.dropWhile (fun b => decide (isWS b)) ∧
    (∃ w, IsWSRun w ∧ data = w ++ removeWS data) ∧
    (∀ b rest, removeWS data = b :: rest → ¬ isWS b) ∧
    removeWS (0x00 :: data) = 0x00 :: data ∧
    removeWS (0x0B :: data) = 0x0B :: data ∧
    removeWS (0x0C :: data) = 0x0C :: data ∧
    removeWS (removeWS data) = removeWS data := by
  refine ⟨removeWS_eq_dropWhile data, ?_, fun b rest h => removeWS_head_not_ws h,
    removeWS_cons_of_not_ws _ (by decide), removeWS_cons_of_not_ws _ (by decide),
    removeWS_cons_of_not_ws _ (by decide), removeWS_idem data⟩
  refine ⟨data.takeWhile (fun b => decide (isWS b)), ?_, ?_⟩
  · intro b hb
    simpa using List.mem_takeWhile_imp hb
  · rw [removeWS_eq_dropWhile, List.takeWhile_append_dropWhile]

/-! ## The closing quote -/

theorem get?_append_length (l : Bytes) (c : Nat) (r : Bytes) :
    (l ++ c :: r).get? l.length = some c := by
  induction l with
  | nil => rfl
  | cons a l ih => simpa using ih

theorem foldl_escStep_eq_false (l : Bytes) :
    l.foldl escStep false = false ↔ trailingBackslashes l % 2 = 0 := by
  rw [foldl_escStep]
  simp only [decide_eq_false_iff_not]
  omega

/-- Where the search from the left stops: at a quote reached in the state
`false`, with no such quote before it. -/
theorem splitAtClosingQuote_some_spec {esc : Bool} {data rs tail : Bytes}
    (h : splitAtClosingQuote esc data = some (rs, tail)) :
    rs.foldl escStep esc = false ∧
    ∀ j, j < rs.length →
      ¬ (data.get? j = some 0x22 ∧ (data.take j).foldl escStep esc = false) := by
  induction data generalizing esc rs with
  | nil => simp [splitAtClosingQuote] at h
  | cons b rest ih =>
    unfold splitAtClosingQuote at h
    by_cases hc : esc = false ∧ b = 0x22
    · simp only [hc, and_self, if_true, Option.some.injEq, Prod.mk.injEq] at h
      obtain ⟨rfl, rfl⟩ := h
      exact ⟨hc.1, fun j hj => by simp at hj⟩
    · simp only [hc, if_false, Option.map_eq_some'] at h
      obtain ⟨⟨rs2, tail2⟩, h2, h3⟩ := h
      simp only [Prod.mk.injEq] at h3
      obtain ⟨rfl, rfl⟩ := h3
      obtain ⟨ih1, ih2⟩ := ih h2
      refine ⟨by simpa using ih1, fun j hj => ?_⟩
      cases j with
      | zero =>
        rintro ⟨h4, h5⟩
        simp at h4 h5
        exact hc ⟨h5, h4⟩
      | succ j =>
        have := ih2 j (by simpa using hj)
        simpa using this

/-- When the search from the left fails, no quote is reached in the state `false`. -/
theorem splitAtClosingQuote_none_spec {esc : Bool} {data : Bytes}
    (h : splitAtClosingQuote esc data = none) :
    ∀ k, ¬ (data.get? k = some 0x22 ∧ (data.take k).foldl escStep esc = false) := by
  induction data generalizing esc with
  | nil => intro k; simp
  | cons b rest ih =>
    unfold splitAtClosingQuote at h
    by_cases hc : esc = false ∧ b = 0x22
    · simp [hc] at h
    · simp only [hc, if_false, Option.map_eq_none'] at h
      intro k
      cases k with
      | zero =>
        rintro ⟨h4, h5⟩
        simp at h4 h5
        exact hc ⟨h5, h4⟩
      | succ k =>
        have := ih h k
        simpa using this

/-- C16: for every input, `parseRawString` succeeds exactly when the input has a
`"` that an even number (zero included) of consecutive backslashes precedes;
then it returns the bytes before the first such quote and the bytes after
it; otherwise it fails with "missing closing '"'". -/
theorem closing_quote_search (data : Bytes) :
    ((∃ rs tail, parseRawString data = some (rs, tail, none)) ↔ ∃ k, IsClosingQuote data k) ∧
    (∀ k, IsClosingQuote data k → (∀ j, j < k → ¬ IsClosingQuote data j) →
      parseRawString data = some (data.take k, data.drop (k + 1), none)) ∧
    ((¬ ∃ k, IsClosingQuote data k) →
      parseRawString data = some (data, [], some [.text "missing closing '\"'"])) := by
  rw [parseRawString_eq]
  unfold rawStringResult
  cases hs : splitAtClosingQuote false data with
  | none =>
    have hnone : ∀ k, ¬ IsClosingQuote data k := by
      intro k hk
      exact splitAtClosingQuote_none_spec hs k ⟨hk.1, (foldl_escStep_eq_false _).2 hk.2⟩
    refine ⟨?_, fun k hk _ => absurd hk (hnone k), fun _ => by simp⟩
    constructor
    · rintro ⟨rs, tail, h⟩
      simp at h
    · rintro ⟨k, hk⟩
      exact absurd hk (hnone k)
  | some p =>
    obtain ⟨rs, tail⟩ := p
    obtain ⟨h1, h2⟩ := splitAtClosingQuote_some_spec hs
    have hdata := splitAtClosingQuote_eq_some hs
    have hk0 : IsClosingQuote data rs.length := by
      refine ⟨?_, ?_⟩
      · rw [hdata]; exact get?_append_length rs 0x22 tail
      · rw [hdata, List.take_left]
        exact (foldl_escStep_eq_false _).1 h1
    refine ⟨⟨fun _ => ⟨_, hk0⟩, fun _ => ⟨rs, tail, by simp⟩⟩, ?_, fun h => absurd ⟨_, hk0⟩ h⟩
    intro k hk hleast
    have hk_eq : k = rs.length := by
      rcases Nat.lt_trichotomy k rs.length with hlt | heq | hgt
      · exact absurd ⟨hk.1, (foldl_escStep_eq_false _).2 hk.2⟩ (h2 k hlt)
      · exact heq
      · exact absurd hk0 (hleast _ hgt)
    subst hk_eq
    simp only [List.nil_append]
    rw [hdata, List.take_left, drop_append_length_succ]

/-! ## The branch of line 222 -/

theorem foldl_escStep_of_not_mem (pre : Bytes) (h : 0x5C ∉ pre) :
    pre.foldl escStep false = false := by
  rw [foldl_escStep_eq_false, trailingBackslashes_of_not_mem pre h]

theorem foldl_escStep_escape (pre : Bytes) (ch : Nat) (rest : Bytes) (h : 0x5C ∉ pre) :
    (pre ++ 0x5C :: ch :: rest).foldl escStep false = rest.foldl escStep false := by
  rw [List.foldl_append, foldl_escStep_of_not_mem pre h]
  simp [escStep]

theorem not_backslash_of_isHexDigit {b : Nat} (h : isHexDigit b = true) : b ≠ 0x5C := by
  simp only [isHexDigit, Bool.or_eq_true, Bool.and_eq_true, decide_eq_true_eq] at h
  omega

theorem foldl_escStep_drop_hex (rs : Bytes) (h : ParseUintOk (rs.take 4) = true) :
    rs.foldl escStep false = (rs.drop 4).foldl escStep false := by
  have hmem : 0x5C ∉ rs.take 4 := by
    intro hm
    simp only [ParseUintOk, Bool.and_eq_true, List.all_eq_true] at h
    exact not_backslash_of_isHexDigit (h.2 _ hm) rfl
  conv_lhs => rw [← List.take_append_drop 4 rs]
  rw [List.foldl_append, foldl_escStep_of_not_mem _ hmem]

/-- The loop of `parseString` never reaches line 222 on a raw string that the
search from the left leaves in the state `false`. -/
theorem parseStringLoop_no_bug (fuel : Nat) (rs tail : Bytes)
    (h : rs.foldl escStep false = false) (t q : Bytes) :
    parseStringLoop fuel rs tail ≠ some (t, some (bugError q)) := by
  induction fuel generalizing rs with
  | zero => simp [parseStringLoop]
  | succ fuel ih =>
    unfold parseStringLoop
    cases hn : IndexByte rs 0x5C with
    | none => simp
    | some n =>
      obtain ⟨pre, post, rfl, hpre, rfl⟩ := IndexByte_eq_some hn
      simp only
      cases post with
      | nil =>
        exfalso
        rw [List.foldl_append, foldl_escStep_of_not_mem pre hpre] at h
        simp [escStep] at h
      | cons ch rest =>
        have hlen : ¬ pre.length + 1 ≥ (pre ++ 0x5C :: ch :: rest).length := by simp
        have hg : (pre ++ 0x5C :: ch :: rest).getD (pre.length + 1) 0 = ch := by
          have := getD_append_length (pre ++ [0x5C]) ch rest
          simpa using this
        have hd : (pre ++ 0x5C :: ch :: rest).drop (pre.length + 1 + 1) = rest := by
          have := drop_append_length_succ (pre ++ [0x5C]) ch rest
          simpa using this
        rw [foldl_escStep_escape pre ch rest hpre] at h
        simp only [hlen, hg, hd, if_false]
        split_ifs with h1 h2 h3 h4 h5
        · simp [bugError]
        · exact ih rest h
        · simp [bugError]
        · exact ih _ (by rw [← foldl_escStep_drop_hex rest h5]; exact h)
        · simp [bugError]
        · simp [bugError]

/-- C19: for every input, `parseString` never returns the error "BUG:
parseRawString returned invalid string with trailing backslash"; whenever
`parseRawString` succeeds, the walk over the escape sequences of the raw
string it returns never reaches that branch, whatever the number of rounds;
and `validateKey`, which falls through to `parseString`, never returns it. -/
theorem bug_branch_unreachable (data : Bytes) :
    (∀ tail q, parseString data ≠ some (tail, some (bugError q))) ∧
    (∀ rs tail, parseRawString data = some (rs, tail, none) →
      ∀ fuel t q, parseStringLoop fuel rs tail ≠ some (t, some (bugError q))) ∧
    (∀ tail q, validateKey data ≠ some (tail, some (bugError q))) := by
  have hraw : ∀ rs tail, parseRawString data = some (rs, tail, none) →
      rs.foldl escStep false = false := by
    intro rs tail h
    rw [parseRawString_eq] at h
    unfold rawStringResult at h
    cases hs : splitAtClosingQuote false data with
    | none => simp [hs] at h
    | some p =>
      obtain ⟨rs2, tail2⟩ := p
      simp only [hs, List.nil_append, Option.some.injEq, Prod.mk.injEq, and_true] at h
      rw [← h.1]
      exact (splitAtClosingQuote_some_spec hs).1
  have hstr : ∀ tail q, parseString data ≠ some (tail, some (bugError q)) := by
    intro tail q
    rw [parseString_eq]
    cases hs : splitAtClosingQuote false data with
    | none => simp [bugError]
    | some p =>
      obtain ⟨rs, tail2⟩ := p
      exact parseStringLoop_no_bug _ rs tail2 (splitAtClosingQuote_some_spec hs).1 tail q
  refine ⟨hstr, fun rs tail h fuel t q => parseStringLoop_no_bug fuel rs tail (hraw rs tail h) t q,
    fun tail q => ?_⟩
  rw [validateKey_eq]
  split_ifs
  · simp [bugError]
  · exact hstr tail q

/-! ## More fuel changes nothing -/

theorem parseJson_mono_step (f : Nat)
    (ihO : ∀ json data r, parseObject f json data = some r →
      parseObject (f + 1) json data = some r)
    (ihA : ∀ json data r, parseArray f json data = some r →
      parseArray (f + 1) json data = some r) :
    ∀ json data r, parseJson (f + 1) json data = some r →
      parseJson (f + 1 + 1) json data = some r := by
  intro json data r h
  cases data with
  | nil =>
    rw [parseJson] at h ⊢
    exact h
  | cons b rest =>
    rw [parseJson] at h ⊢
    split_ifs at h ⊢ with h1 h2
    · obtain ⟨r0, h0, rfl⟩ := Option.map_eq_some'.1 h
      rw [ihO _ _ _ h0]
      rfl
    · obtain ⟨r0, h0, rfl⟩ := Option.map_eq_some'.1 h
      rw [ihA _ _ _ h0]
      rfl
    all_goals exact h

theorem parseArray_mono_step (f : Nat)
    (ihL : ∀ json data r, parseArrayLoop f json data = some r →
      parseArrayLoop (f + 1) json data = some r) :
    ∀ json data r, parseArray (f + 1) json data = some r →
      parseArray (f + 1 + 1) json data = some r := by
  intro json data r h
  rw [parseArray] at h ⊢
  cases hw : removeWS data with
  | nil => simpa [hw] using h
  | cons b rest =>
    simp only [hw] at h ⊢
    split_ifs at h ⊢
    · exact h
    · exact ihL _ _ _ h

theorem parseObject_mono_step (f : Nat)
    (ihL : ∀ json data r, parseObjectLoop f json data = some r →
      parseObjectLoop (f + 1) json data = some r) :
    ∀ json data r, parseObject (f + 1) json data = some r →
      parseObject (f + 1 + 1) json data = some r := by
  intro json data r h
  rw [parseObject] at h ⊢
  cases hw : removeWS data with
  | nil => simpa [hw] using h
  | cons b rest =>
    simp only [hw] at h ⊢
    split_ifs at h ⊢
    · exact h
    · exact ihL _ _ _ h

theorem parseArrayLoop_mono_step (f : Nat)
    (ihJ : ∀ json data r, parseJson f json data = some r →
      parseJson (f + 1) json data = some r)
    (ihL : ∀ json data r, parseArrayLoop f json data = some r →
      parseArrayLoop (f + 1) json data = some r) :
    ∀ json data r, parseArrayLoop (f + 1) json data = some r →
      parseArrayLoop (f + 1 + 1) json data = some r := by
  intro json data r h
  rw [parseArrayLoop] at h ⊢
  cases hj : parseJson f json (removeWS data) with
  | none => simp [hj] at h
  | some r1 =>
    rw [ihJ _ _ _ hj]
    rw [hj] at h
    obtain ⟨j1, t1, e1⟩ := r1
    cases e1 with
    | some e => exact h
    | none =>
      simp only at h ⊢
      cases hw : removeWS t1 with
      | nil => simpa [hw] using h
      | cons b rest =>
        simp only [hw] at h ⊢
        split_ifs at h ⊢
        · exact ihL _ _ _ h
        · exact h
        · exact h

theorem parseObjectLoop_mono_step (f : Nat)
    (ihJ : ∀ json data r, parseJson f json data = some r →
      parseJson (f + 1) json data = some r)
    (ihL : ∀ json data r, parseObjectLoop f json data = some r →
      parseObjectLoop (f + 1) json data = some r) :
    ∀ json data r, parseObjectLoop (f + 1) json data = some r →
      parseObjectLoop (f + 1 + 1) json data = some r := by
  intro json data r h
  rw [parseObjectLoop] at h ⊢
  cases hw : removeWS data with
  | nil => simpa [hw] using h
  | cons b rest =>
    simp only [hw] at h ⊢
    split_ifs at h ⊢
    · exact h
    · obtain ⟨d1, e1, hk, _⟩ := validateKey_total rest
      rw [hk] at h ⊢
      cases e1 with
      | some e => exact h
      | none =>
        simp only at h ⊢
        cases hw2 : removeWS d1 with
        | nil => simpa [hw2] using h
        | cons b2 rest2 =>
          simp only [hw2] at h ⊢
          split_ifs at h ⊢
          · exact h
          · cases hj : parseJson f json (removeWS rest2) with
            | none => simp [hj] at h
            | some r1 =>
              rw [ihJ _ _ _ hj]
              rw [hj] at h
              obtain ⟨j1, t1, e1⟩ := r1
              cases e1 with
              | some e => exact h
              | none =>
                simp only at h ⊢
                cases hw3 : removeWS t1 with
                | nil => simpa [hw3] using h
                | cons b3 rest3 =>
                  simp only [hw3] at h ⊢
                  split_ifs at h ⊢
                  · exact ihL _ _ _ h
                  · exact h
                  · exact h

/-- A run that returns with fuel `f` returns the same with fuel `f + 1`. -/
theorem mono_all (f : Nat) :
    (∀ json data r, parseJson f json data = some r → parseJson (f + 1) json data = some r) ∧
    (∀ json data r, parseObject f json data = some r →
      parseObject (f + 1) json data = some r) ∧
    (∀ json data r, parseObjectLoop f json data = some r →
      parseObjectLoop (f + 1) json data = some r) ∧
    (∀ json data r, parseArray f json data = some r → parseArray (f + 1) json data = some r) ∧
    (∀ json data r, parseArrayLoop f json data = some r →
      parseArrayLoop (f + 1) json data = some r) := by
  induction f with
  | zero =>
    refine ⟨?_, ?_, ?_, ?_, ?_⟩ <;> intro json data r h
    · simp [parseJson] at h
    · simp [parseObject] at h
    · simp [parseObjectLoop] at h
    · simp [parseArray] at h
    · simp [parseArrayLoop] at h
  | succ f ih =>
    obtain ⟨ihJ, ihO, ihOL, ihA, ihAL⟩ := ih
    exact ⟨parseJson_mono_step f ihO ihA, parseObject_mono_step f ihOL,
      parseObjectLoop_mono_step f ihJ ihOL, parseArray_mono_step f ihAL,
      parseArrayLoop_mono_step f ihJ ihAL⟩

theorem fuel_le {run : Nat → JsonParser → Bytes → Option Res}
    (hmono : ∀ f json data r, run f json data = some r → run (f + 1) json data = some r)
    {f g : Nat} (hfg : f ≤ g) {json : JsonParser} {data : Bytes} {r : Res}
    (h : run f json data = some r) : run g json data = some r := by
  induction g with
  | zero =>
    have : f = 0 := by omega
    subst this
    exact h
  | succ g ih =>
    by_cases hf : f = g + 1
    · subst hf; exact h
    · exact hmono g json data r (ih (by omega))

/-- An accepted value takes at least one byte. -/
theorem parseJson_ok_length_lt {f : Nat} {json json2 : JsonParser} {data tail : Bytes}
    (h : parseJson f json data = some ⟨json2, tail, none⟩) : tail.length < data.length := by
  cases f with
  | zero => simp [parseJson] at h
  | succ f =>
    rcases parseJson_ok_cases h with ⟨rest, rfl, h1⟩ | ⟨rest, rfl, h1⟩ | ⟨rest, rfl, h1, _⟩ |
      ⟨rfl, _⟩ | ⟨rfl, _⟩ | ⟨rfl, _⟩ | ⟨num, h1, _⟩
    · have := ((inv_all f).2.1 _ _ _ h1).1.length_le
      simp only [List.length_cons] at this ⊢
      omega
    · have := ((inv_all f).2.2.2.1 _ _ _ h1).1.length_le
      simp only [List.length_cons] at this ⊢
      omega
    · obtain ⟨t, e, he, hs⟩ := parseString_total rest
      rw [he] at h1
      simp only [Option.some.injEq, Prod.mk.injEq] at h1
      have := hs.length_le
      rw [h1.1] at this
      simp only [List.length_cons]
      omega
    · simp only [List.length_append, List.length_cons, List.length_nil]; omega
    · simp only [List.length_append, List.length_cons, List.length_nil]; omega
    · simp only [List.length_append, List.length_cons, List.length_nil]; omega
    · obtain ⟨hnum, hdata, _⟩ := parseNumber_ok _ _ _ h1
      obtain ⟨b, r, hbr, _⟩ := hnum.head
      rw [hdata, hbr]
      simp only [List.length_append, List.length_cons]
      omega

/-- C20: for every input, `parseJson`, `parseObject` and `parseArray` return, and
return the same with any fuel from three times the length of the input (and
one to three more) on; `parseString` and `parseNumber` return; each returns a
tail that is a suffix of its input; when `parseJson` succeeds the tail is
strictly shorter than the input, so each round of the loops of `parseArray`
and `parseObject` that goes on hands a strictly shorter input to the next
round; and `IsValid` returns on every input. -/
theorem progress_and_termination (json : JsonParser) (data : Bytes) :
    (∃ r, (∀ f, 3 * data.length + 1 ≤ f → parseJson f json data = some r) ∧ r.tail <:+ data ∧
      (r.err = none → r.tail.length < data.length)) ∧
    (∃ r, (∀ f, 3 * data.length + 3 ≤ f → parseObject f json data = some r) ∧
      r.tail <:+ data) ∧
    (∃ r, (∀ f, 3 * data.length + 3 ≤ f → parseArray f json data = some r) ∧
      r.tail <:+ data) ∧
    (∃ tail e, parseString data = some (tail, e) ∧ tail <:+ data) ∧
    (parseNumber data).2.1 <:+ data ∧
    (∀ f j1 t1 rest, parseJson f json (removeWS data) = some ⟨j1, t1, none⟩ →
      removeWS t1 = 0x2C :: rest → rest.length < data.length) ∧
    (∀ f k d1 rest2 j1 t1 rest, removeWS data = 0x22 :: k → validateKey k = some (d1, none) →
      removeWS d1 = 0x3A :: rest2 → parseJson f json (removeWS rest2) = some ⟨j1, t1, none⟩ →
      removeWS t1 = 0x2C :: rest → rest.length < data.length) ∧
    (∃ json2 e, IsValid json = some (json2, e)) := by
  refine ⟨?_, ?_, ?_, parseString_total data, parseNumber_tail_suffix data, ?_, ?_,
    IsValid_total json⟩
  · obtain ⟨r, hr⟩ := (total_all _).1 json data (le_refl _)
    refine ⟨r, fun f hf => fuel_le (fun f => (mono_all f).1) hf hr,
      ((inv_all _).1 _ _ _ hr).1, fun he => ?_⟩
    obtain ⟨j, t, e⟩ := r
    simp only at he
    subst he
    exact parseJson_ok_length_lt hr
  · obtain ⟨r, hr⟩ := (total_all _).2.1 json data (le_refl _)
    exact ⟨r, fun f hf => fuel_le (fun f => (mono_all f).2.1) hf hr,
      ((inv_all _).2.1 _ _ _ hr).1⟩
  · obtain ⟨r, hr⟩ := (total_all _).2.2.2.1 json data (le_refl _)
    exact ⟨r, fun f hf => fuel_le (fun f => (mono_all f).2.2.2.1) hf hr,
      ((inv_all _).2.2.2.1 _ _ _ hr).1⟩
  · intro f j1 t1 rest hj hw
    have h1 := parseJson_ok_length_lt hj
    have h2 := removeWS_length_le data
    have h3 := (suffix_of_removeWS_eq hw).length_le
    omega
  · intro f k d1 rest2 j1 t1 rest hw hk hw2 hj hw3
    have h1 := parseJson_ok_length_lt hj
    have h2 := (suffix_of_removeWS_eq hw).length_le
    obtain ⟨d, e, hk2, hs⟩ := validateKey_total k
    rw [hk] at hk2
    simp only [Option.some.injEq, Prod.mk.injEq] at hk2
    have h3 := hs.length_le
    rw [← hk2.1] at h3
    have h4 := (suffix_of_removeWS_eq hw2).length_le
    have h5 := removeWS_length_le rest2
    have h6 := (suffix_of_removeWS_eq hw3).length_le
    omega

/-! ## The prefixes of the layers -/

/-- C12, as the counterexample shows it false: on `[01]` the number parser fails
with its own message "unexpected number starting from 0", and the error of
`IsValid` carries, between "cannot parse JSON: " and that message, the three
prefixes "cannot parse array: ", "cannot parse array value: " and
"cannot parse number: " that `parseJson` and `parseArray` added; it is not the
own message with the one prefix "cannot parse JSON: ". -/
theorem layers_add_prefixes :
    ∃ own, parseNumber (lit "01]") = (lit "01", lit "01]", some own) ∧
      IsValid (NewParser (lit "[01]")) = some (⟨lit "[01]", [], []⟩,
        some (.text "cannot parse JSON: " ::
          ([.text "cannot parse array: ", .text "cannot parse array value: ",
            .text "cannot parse number: "] ++ own) ++
          [.text "; unparsed tail: ", .q (makeErrorTrace (lit "01]"))])) ∧
      IsValid (NewParser (lit "[01]")) ≠ some (⟨lit "[01]", [], []⟩,
        some (.text "cannot parse JSON: " :: own ++
          [.text "; unparsed tail: ", .q (makeErrorTrace (lit "01]"))])) :=
  ⟨[.text "unexpected number starting from 0"], by decide, by decide, by decide⟩

/-! ## The captures of a text of the grammar -/

theorem addAll_nil (json : JsonParser) : json.addAll [] = json := by
  simp [JsonParser.addAll, JsonParser.add]

theorem addAll_append (json : JsonParser) (a b : List Bytes) :
    (json.addAll a).addAll b = json.addAll (a ++ b) := by
  simp [JsonParser.addAll, JsonParser.add]

theorem addAll_singleton (json : JsonParser) (l : Bytes) : json.addAll [l] = capture json l :=
  (capture_eq_filter json l).symm

theorem Captures.derives {ok : Nat → Prop} {k : Kind} {l : Bytes} {ns : List Bytes}
    (h : Captures ok k l ns) : Derives ok k l := by
  induction h with
  | number hn => exact .number hn
  | litTrue => exact .litTrue
  | litFalse => exact .litFalse
  | litNull => exact .litNull
  | string hc => exact .string hc
  | emptyArray hw => exact .emptyArray hw
  | array hw _ ih => exact .array hw ih
  | emptyObject hw => exact .emptyObject hw
  | object hw _ ih => exact .object hw ih
  | lastElement _ hw ih => exact .lastElement ih hw
  | moreElements _ hw1 hw2 _ ih1 ih2 => exact .moreElements ih1 hw1 hw2 ih2
  | lastMember hk hw1 hw2 _ hw3 ih => exact .lastMember hk hw1 hw2 ih hw3
  | moreMembers hk hw1 hw2 _ hw3 hw4 _ ih1 ih2 => exact .moreMembers hk hw1 hw2 ih1 hw3 hw4 ih2

theorem Derives.captures {ok : Nat → Prop} {k : Kind} {l : Bytes} (h : Derives ok k l) :
    ∃ ns, Captures ok k l ns := by
  induction h with
  | number hn => exact ⟨_, .number hn⟩
  | litTrue => exact ⟨_, .litTrue⟩
  | litFalse => exact ⟨_, .litFalse⟩
  | litNull => exact ⟨_, .litNull⟩
  | string hc => exact ⟨_, .string hc⟩
  | emptyArray hw => exact ⟨_, .emptyArray hw⟩
  | array hw _ ih => exact ⟨_, .array hw ih.choose_spec⟩
  | emptyObject hw => exact ⟨_, .emptyObject hw⟩
  | object hw _ ih => exact ⟨_, .object hw ih.choose_spec⟩
  | lastElement _ hw ih => exact ⟨_, .lastElement ih.choose_spec hw⟩
  | moreElements _ hw1 hw2 _ ih1 ih2 =>
    exact ⟨_, .moreElements ih1.choose_spec hw1 hw2 ih2.choose_spec⟩
  | lastMember hk hw1 hw2 _ hw3 ih => exact ⟨_, .lastMember hk hw1 hw2 ih.choose_spec hw3⟩
  | moreMembers hk hw1 hw2 _ hw3 hw4 _ ih1 ih2 =>
    exact ⟨_, .moreMembers hk hw1 hw2 ih1.choose_spec hw3 hw4 ih2.choose_spec⟩

/-- Each parsing method accepts what its nonterminal derives and captures the
number literals of the text, in order. -/
theorem completeCaps_of_captures {ok : Nat → Prop} (hok : ∀ b, ok b → IsUnescaped b)
    {k : Kind} {l : Bytes} {ns : List Bytes} (h : Captures ok k l ns) :
    CompleteCaps k l ns := by
  induction h with
  | @number l hn =>
    intro f json rest hrest hf
    obtain ⟨f, rfl⟩ : ∃ g, f = g + 1 := ⟨f - 1, by omega⟩
    rw [addAll_singleton]
    exact parseJson_number f json l rest hn
      (fun b hb => ⟨(hrest b hb).1, Or.inr (hrest b hb).2⟩)
  | litTrue =>
    intro f json rest _ hf
    obtain ⟨f, rfl⟩ : ∃ g, f = g + 1 := ⟨f - 1, by omega⟩
    rw [addAll_nil]
    simp [parseJson]
  | litFalse =>
    intro f json rest _ hf
    obtain ⟨f, rfl⟩ : ∃ g, f = g + 1 := ⟨f - 1, by omega⟩
    rw [addAll_nil]
    simp [parseJson]
  | litNull =>
    intro f json rest _ hf
    obtain ⟨f, rfl⟩ : ∃ g, f = g + 1 := ⟨f - 1, by omega⟩
    rw [addAll_nil]
    simp [parseJson]
  | @string c hc =>
    intro f json rest _ hf
    obtain ⟨f, rfl⟩ : ∃ g, f = g + 1 := ⟨f - 1, by omega⟩
    rw [addAll_nil]
    have := parseJson_string f json _ _ (parseString_of_Chars rest (hc.mono hok))
    simpa using this
  | @emptyArray w hw =>
    intro f json rest _ hf
    obtain ⟨f, rfl⟩ : ∃ g, f = g + 1 + 1 := ⟨f - 2, by simp at hf; omega⟩
    rw [addAll_nil]
    rw [show (0x5B :: (w ++ [0x5D])) ++ rest = 0x5B :: (w ++ 0x5D :: rest) by simp, parseJson]
    simp only [show ¬ (0x5B = 0x7B) by decide, if_false, if_true]
    rw [parseArray_of (removeWS_ws_cons w 0x5D rest hw (by decide))]
    rfl
  | @array w es ns hw hes ih =>
    intro f json rest _ hf
    simp only [List.length_cons, List.length_append, List.length_nil] at hf
    obtain ⟨f, rfl⟩ : ∃ g, f = g + 1 + 1 := ⟨f - 2, by omega⟩
    have h2 := ih f json rest (by omega)
    obtain ⟨b, r, hbr, hb1, hb2, _⟩ := hes.derives.starts
    have hX : removeWS (w ++ (es ++ 0x5D :: rest)) = b :: (r ++ 0x5D :: rest) := by
      rw [(hes.derives.starts.append _).removeWS w hw, hbr]
      rfl
    rw [show (0x5B :: (w ++ (es ++ [0x5D]))) ++ rest = 0x5B :: (w ++ (es ++ 0x5D :: rest)) by
      simp, parseJson]
    simp only [show ¬ (0x5B = 0x7B) by decide, if_false, if_true]
    rw [parseArray_of hX, if_neg hb2]
    rw [hbr] at h2
    rw [List.cons_append] at h2
    rw [h2]
    rfl
  | @emptyObject w hw =>
    intro f json rest _ hf
    obtain ⟨f, rfl⟩ : ∃ g, f = g + 1 + 1 := ⟨f - 2, by simp at hf; omega⟩
    rw [addAll_nil]
    rw [show (0x7B :: (w ++ [0x7D])) ++ rest = 0x7B :: (w ++ 0x7D :: rest) by simp, parseJson]
    simp only [if_true]
    rw [parseObject_of (removeWS_ws_cons w 0x7D rest hw (by decide))]
    rfl
  | @object w ms ns hw hms ih =>
    intro f json rest _ hf
    simp only [List.length_cons, List.length_append, List.length_nil] at hf
    obtain ⟨f, rfl⟩ : ∃ g, f = g + 1 + 1 := ⟨f - 2, by omega⟩
    have h2 := ih f json rest (by omega)
    obtain ⟨b, r, hbr, hb1, _, hb3⟩ := hms.derives.starts
    have hX : removeWS (w ++ (ms ++ 0x7D :: rest)) = b :: (r ++ 0x7D :: rest) := by
      rw [(hms.derives.starts.append _).removeWS w hw, hbr]
      rfl
    rw [show (0x7B :: (w ++ (ms ++ [0x7D]))) ++ rest = 0x7B :: (w ++ (ms ++ 0x7D :: rest)) by
      simp, parseJson]
    simp only [if_true]
    rw [parseObject_of hX, if_neg hb3]
    rw [hbr] at h2
    rw [List.cons_append] at h2
    rw [h2]
    rfl
  | @lastElement v w ns hv hw ih =>
    intro f json rest hf
    simp only [List.length_append] at hf
    obtain ⟨f, rfl⟩ : ∃ g, f = g + 1 := ⟨f - 1, by omega⟩
    have h2 := ih f json (w ++ 0x5D :: rest)
      (numberEnds_ws_cons w 0x5D rest hw (by decide)) (by omega)
    rw [← (hv.derives.starts.append _).removeWS [] (by simp [IsWSRun])] at h2
    rw [show v ++ w ++ 0x5D :: rest = [] ++ (v ++ (w ++ 0x5D :: rest)) by simp]
    rw [parseArrayLoop_of h2 (removeWS_ws_cons w 0x5D rest hw (by decide))]
    simp
  | @moreElements v w1 w2 es ns1 ns2 hv hw1 hw2 hes ih1 ih2 =>
    intro f json rest hf
    simp only [List.length_append, List.length_cons] at hf
    obtain ⟨f, rfl⟩ : ∃ g, f = g + 1 := ⟨f - 1, by omega⟩
    have h2 := ih1 f json (w1 ++ 0x2C :: (w2 ++ (es ++ 0x5D :: rest)))
      (numberEnds_ws_cons w1 0x2C _ hw1 (by decide)) (by omega)
    have h3 := ih2 f (json.addAll ns1) rest (by omega)
    rw [addAll_append] at h3
    rw [← (hv.derives.starts.append _).removeWS [] (by simp [IsWSRun])] at h2
    rw [show v ++ (w1 ++ 0x2C :: (w2 ++ es)) ++ 0x5D :: rest =
      [] ++ (v ++ (w1 ++ 0x2C :: (w2 ++ (es ++ 0x5D :: rest)))) by simp]
    rw [parseArrayLoop_of h2 (removeWS_ws_cons w1 0x2C _ hw1 (by decide))]
    simp only [if_true]
    rw [parseArrayLoop_ws_append _ _ _ _ hw2, h3]
  | @lastMember k w1 w2 v w3 ns hk hw1 hw2 hv hw3 ih =>
    intro f json rest hf
    simp only [List.length_append, List.length_cons] at hf
    obtain ⟨f, rfl⟩ : ∃ g, f = g + 1 := ⟨f - 1, by omega⟩
    have h2 := ih f json (w3 ++ 0x7D :: rest)
      (numberEnds_ws_cons w3 0x7D rest hw3 (by decide)) (by omega)
    rw [← (hv.derives.starts.append _).removeWS w2 hw2] at h2
    have hd : (0x22 :: (k ++ 0x22 :: (w1 ++ 0x3A :: (w2 ++ (v ++ w3))))) ++ 0x7D :: rest =
        0x22 :: (k ++ 0x22 :: (w1 ++ 0x3A :: (w2 ++ (v ++ (w3 ++ 0x7D :: rest))))) := by simp
    rw [hd, parseObjectLoop_of (removeWS_cons_of_not_ws _ (by decide))
      (validateKey_of_Chars _ (hk.mono hok)) (removeWS_ws_cons w1 0x3A _ hw1 (by decide)) h2
      (removeWS_ws_cons w3 0x7D rest hw3 (by decide))]
    simp
  | @moreMembers k w1 w2 v w3 w4 ms ns1 ns2 hk hw1 hw2 hv hw3 hw4 hms ih1 ih2 =>
    intro f json rest hf
    simp only [List.length_append, List.length_cons] at hf
    obtain ⟨f, rfl⟩ : ∃ g, f = g + 1 := ⟨f - 1, by omega⟩
    have h2 := ih1 f json (w3 ++ 0x2C :: (w4 ++ (ms ++ 0x7D :: rest)))
      (numberEnds_ws_cons w3 0x2C _ hw3 (by decide)) (by omega)
    have h3 := ih2 f (json.addAll ns1) rest (by omega)
    rw [addAll_append] at h3
    rw [← (hv.derives.starts.append _).removeWS w2 hw2] at h2
    have hd : (0x22 :: (k ++ 0x22 :: (w1 ++ 0x3A :: (w2 ++ (v ++ (w3 ++ 0x2C :: (w4 ++ ms)))))))
        ++ 0x7D :: rest =
        0x22 :: (k ++ 0x22 :: (w1 ++ 0x3A :: (w2 ++ (v ++ (w3 ++ 0x2C ::
          (w4 ++ (ms ++ 0x7D :: rest))))))) := by simp
    rw [hd, parseObjectLoop_of (removeWS_cons_of_not_ws _ (by decide))
      (validateKey_of_Chars _ (hk.mono hok)) (removeWS_ws_cons w1 0x3A _ hw1 (by decide)) h2
      (removeWS_ws_cons w3 0x2C _ hw3 (by decide))]
    simp only [if_true]
    rw [parseObjectLoop_ws_append _ _ _ _ hw4, h3]

/-- On a text of the grammar between runs of whitespace, `IsValid` succeeds and
leaves in `Integers` and `Floating` the number values of the text, in order. -/
theorem isValid_of_captures (w1 v w2 : Bytes) (ns : List Bytes) (hw1 : IsWSRun w1)
    (hv : Captures IsUnescaped .value v ns) (hw2 : IsWSRun w2) :
    IsValid (NewParser (w1 ++ (v ++ w2))) =
      some ((⟨removeWS (w1 ++ (v ++ w2)), [], []⟩ : JsonParser).addAll ns, none) := by
  have hX : removeWS (w1 ++ (v ++ w2)) = v ++ w2 :=
    (hv.derives.starts.append _).removeWS w1 hw1
  have h2 := completeCaps_of_captures (fun b hb => hb) hv
    (fuelFor (v ++ w2)) ⟨v ++ w2, [], []⟩ w2 (numberEnds_ws w2 hw2)
    (by unfold fuelFor; simp)
  rw [← hX] at h2
  rw [IsValid_of_parseJson h2]
  simp [removeWS_of_ws w2 hw2]

/-- A string value leaves the parser as it was, whether the string is accepted
or not. -/
theorem parseJson_string_frame (f : Nat) (json : JsonParser) (rest : Bytes) (r : Res)
    (h : parseJson (f + 1) json (0x22 :: rest) = some r) : r.json = json := by
  rw [parseJson] at h
  simp only [show ¬ (0x22 = 0x7B) by decide, show ¬ (0x22 = 0x5B) by decide, if_false,
    if_true] at h
  obtain ⟨tail, e, hs, _⟩ := parseString_total rest
  rw [hs] at h
  cases e with
  | none =>
    simp only [Option.some.injEq] at h
    rw [← h]
  | some e =>
    simp only [Option.some.injEq] at h
    rw [← h]

/-- An object key that is refused leaves the parser as it was. -/
theorem parseObjectLoop_key_frame (f : Nat) (json : JsonParser) (data k d1 : Bytes) (e : Err)
    (hw : removeWS data = 0x22 :: k) (hk : validateKey k = some (d1, some e)) :
    parseObjectLoop (f + 1) json data =
      some ⟨json, d1, some (.text "cannot parse object key: " :: e)⟩ := by
  rw [parseObjectLoop]
  simp only [hw, ne_eq, not_true_eq_false, if_false, hk]

/-- C14: a string value, accepted or not, leaves `Integers` and `Floating` as
they were, and so does an object key that is refused; and for every input of
the form `WS value WS` of the grammar in which no value is a number (digits
may occur in strings and keys), `IsValid` on a fresh parser succeeds with
both sequences empty. -/
theorem strings_and_keys_capture_nothing (s : Bytes) (h : NumberFree s) :
    IsValid (NewParser s) = some (⟨removeWS s, [], []⟩, none) ∧
    (∀ f json rest r, parseJson (f + 1) json (0x22 :: rest) = some r →
      r.json.Integers = json.Integers ∧ r.json.Floating = json.Floating) ∧
    (∀ f json data k d1 e, removeWS data = 0x22 :: k → validateKey k = some (d1, some e) →
      ∃ r, parseObjectLoop (f + 1) json data = some r ∧
        r.json.Integers = json.Integers ∧ r.json.Floating = json.Floating) := by
  refine ⟨?_, ?_, ?_⟩
  · obtain ⟨w1, v, w2, rfl, hw1, hv, hw2⟩ := h
    rw [isValid_of_captures w1 v w2 [] hw1 hv hw2, addAll_nil]
  · intro f json rest r hr
    rw [parseJson_string_frame f json rest r hr]
    exact ⟨rfl, rfl⟩
  · intro f json data k d1 e hw hk
    exact ⟨_, parseObjectLoop_key_frame f json data k d1 e hw hk, rfl, rfl⟩

theorem strings_and_keys_capture_nothing_witness :
    NumberFree (lit "\x7b\x7d") ∧
    IsValid (NewParser (lit "\x7b\x7d")) = some (⟨lit "\x7b\x7d", [], []⟩, none) ∧
    NumberFree (lit "\x7b\"a\":true,\"b\":[null,\"x\\n\"]\x7d") ∧
    IsValid (NewParser (lit "\x7b\"a\":true,\"b\":[null,\"x\\n\"]\x7d")) =
      some (⟨lit "\x7b\"a\":true,\"b\":[null,\"x\\n\"]\x7d", [], []⟩, none) ∧
    NumberFree (lit " \x7b\"k1\": \"23\"\x7d") ∧
    IsValid (NewParser (lit " \x7b\"k1\": \"23\"\x7d")) =
      some (⟨lit "\x7b\"k1\": \"23\"\x7d", [], []⟩, none) := by
  have h1 : NumberFree (lit "\x7b\x7d") :=
    ⟨[], _, [], by decide, by decide, @Captures.emptyObject IsUnescaped [] (by decide),
      by decide⟩
  have hstr : Captures IsUnescaped .value (0x22 :: ([0x78, 0x5C, 0x6E] ++ [0x22])) [] :=
    .string (.plain (by decide) (.escape (by decide) .nil))
  have hes : Captures IsUnescaped .elements
      ([0x6E, 0x75, 0x6C, 0x6C] ++ ([] ++ 0x2C :: ([] ++
        ((0x22 :: ([0x78, 0x5C, 0x6E] ++ [0x22])) ++ [])))) ([] ++ []) :=
    .moreElements .litNull (by decide) (by decide) (.lastElement hstr (by decide))
  have harr := @Captures.array IsUnescaped [] _ _ (by decide) hes
  have hms2 := @Captures.lastMember IsUnescaped [0x62] [] [] _ [] _
    (.plain (by decide) .nil) (by decide) (by decide) harr (by decide)
  have hms := @Captures.moreMembers IsUnescaped [0x61] [] [] _ [] [] _ _ _
    (.plain (by decide) .nil) (by decide) (by decide) .litTrue (by decide) (by decide) hms2
  have hv := @Captures.object IsUnescaped [] _ _ (by decide) hms
  have h2 : NumberFree (lit "\x7b\"a\":true,\"b\":[null,\"x\\n\"]\x7d") :=
    ⟨[], _, [], by decide, by decide, hv, by decide⟩
  have hstr3 : Captures IsUnescaped .value (0x22 :: ([0x32, 0x33] ++ [0x22])) [] :=
    .string (.plain (by decide) (.plain (by decide) .nil))
  have hms3 := @Captures.lastMember IsUnescaped [0x6B, 0x31] [] [0x20] _ [] _
    (.plain (by decide) (.plain (by decide) .nil)) (by decide) (by decide) hstr3 (by decide)
  have hv3 := @Captures.object IsUnescaped [] _ _ (by decide) hms3
  have h3 : NumberFree (lit " \x7b\"k1\": \"23\"\x7d") :=
    ⟨[0x20], _, [], by decide, by decide, hv3, by decide⟩
  exact ⟨h1, (strings_and_keys_capture_nothing _ h1).1, h2,
    (strings_and_keys_capture_nothing _ h2).1, h3, (strings_and_keys_capture_nothing _ h3).1⟩

/-! ## The byte that closes an accepted value -/

theorem parseArrayLoop_closes (f : Nat) : ∀ (json json2 : JsonParser) (data tail : Bytes),
    parseArrayLoop f json data = some ⟨json2, tail, none⟩ → (0x5D :: tail) <:+ data := by
  induction f with
  | zero => intro json json2 data tail h; simp [parseArrayLoop] at h
  | succ f ih =>
    intro json json2 data tail h
    obtain ⟨j1, t1, b, rest, hj, hw, hcase⟩ := parseArrayLoop_ok_cases h
    have ht1 : t1 <:+ data := (((inv_all f).1 _ _ _ hj).1).trans (removeWS_suffix data)
    rcases hcase with ⟨_, hl⟩ | ⟨hb, _, ht⟩
    · exact ((ih _ _ _ _ hl).trans (suffix_of_removeWS_eq hw)).trans ht1
    · subst hb ht
      exact (hw ▸ removeWS_suffix t1).trans ht1

theorem parseObjectLoop_closes (f : Nat) : ∀ (json json2 : JsonParser) (data tail : Bytes),
    parseObjectLoop f json data = some ⟨json2, tail, none⟩ → (0x7D :: tail) <:+ data := by
  induction f with
  | zero => intro json json2 data tail h; simp [parseObjectLoop] at h
  | succ f ih =>
    intro json json2 data tail h
    obtain ⟨k, d1, rest2, j1, t1, b, rest, hw, hk, hw2, hj, hw3, hcase⟩ :=
      parseObjectLoop_ok_cases h
    have hd1 : d1 <:+ k := by
      obtain ⟨t, e, he, hs⟩ := validateKey_total k
      rw [hk] at he
      simp only [Option.some.injEq, Prod.mk.injEq] at he
      rw [he.1]
      exact hs
    have ht1 : t1 <:+ data :=
      ((((((inv_all f).1 _ _ _ hj).1).trans (removeWS_suffix rest2)).trans
        (suffix_of_removeWS_eq hw2)).trans hd1).trans (suffix_of_removeWS_eq hw)
    rcases hcase with ⟨_, hl⟩ | ⟨hb, _, ht⟩
    · exact ((ih _ _ _ _ hl).trans (suffix_of_removeWS_eq hw3)).trans ht1
    · subst hb ht
      exact (hw3 ▸ removeWS_suffix t1).trans ht1

theorem parseArray_closes {f : Nat} {json json2 : JsonParser} {data tail : Bytes}
    (h : parseArray f json data = some ⟨json2, tail, none⟩) : (0x5D :: tail) <:+ data := by
  cases f with
  | zero => simp [parseArray] at h
  | succ f =>
    rcases parseArray_ok_cases h with ⟨rest, hw, _, ht⟩ | ⟨b, rest, hw, _, hl⟩
    · subst ht
      exact hw ▸ removeWS_suffix data
    · exact (parseArrayLoop_closes f _ _ _ _ hl).trans (hw ▸ removeWS_suffix data)

theorem parseObject_closes {f : Nat} {json json2 : JsonParser} {data tail : Bytes}
    (h : parseObject f json data = some ⟨json2, tail, none⟩) : (0x7D :: tail) <:+ data := by
  cases f with
  | zero => simp [parseObject] at h
  | succ f =>
    rcases parseObject_ok_cases h with ⟨rest, hw, _, ht⟩ | ⟨b, rest, hw, _, hl⟩
    · subst ht
      exact hw ▸ removeWS_suffix data
    · exact (parseObjectLoop_closes f _ _ _ _ hl).trans (hw ▸ removeWS_suffix data)

theorem parseString_closes {data tail : Bytes} (h : parseString data = some (tail, none)) :
    (0x22 :: tail) <:+ data := by
  rw [parseString_eq] at h
  cases hs : splitAtClosingQuote false data with
  | none => simp [hs] at h
  | some p =>
    obtain ⟨rs, t0⟩ := p
    simp only [hs] at h
    obtain ⟨ht, _⟩ := parseStringLoop_tail_eq [] (Nat.lt_succ_self _) h
    subst ht
    exact ⟨rs, (splitAtClosingQuote_eq_some hs).symm⟩

theorem not_endsWithDigit_of_suffix {c : Nat} {data : Bytes} (h : [c] <:+ data)
    (hc : ¬ isDigit c) : ¬ EndsWithDigit data := by
  obtain ⟨pre, rfl⟩ := h
  simp [EndsWithDigit, hc]

/-- An accepted value that ends the input with a digit is a number. -/
theorem parseJson_number_of_endsWithDigit {f : Nat} {json json2 : JsonParser} {data : Bytes}
    (h : parseJson f json data = some ⟨json2, [], none⟩) (hd : EndsWithDigit data) :
    IsNumber data ∧ json2 = capture json data := by
  cases f with
  | zero => simp [parseJson] at h
  | succ f =>
    rcases parseJson_ok_cases h with ⟨rest, rfl, h1⟩ | ⟨rest, rfl, h1⟩ | ⟨rest, rfl, h1, _⟩ |
      ⟨rfl, _⟩ | ⟨rfl, _⟩ | ⟨rfl, _⟩ | ⟨num, h1, hj⟩
    · exact absurd hd (not_endsWithDigit_of_suffix
        ((parseObject_closes h1).trans (List.suffix_cons _ _)) (by decide))
    · exact absurd hd (not_endsWithDigit_of_suffix
        ((parseArray_closes h1).trans (List.suffix_cons _ _)) (by decide))
    · exact absurd hd (not_endsWithDigit_of_suffix
        ((parseString_closes h1).trans (List.suffix_cons _ _)) (by decide))
    · exact absurd hd (by decide)
    · exact absurd hd (by decide)
    · exact absurd hd (by decide)
    · obtain ⟨hnum, hdata, _⟩ := parseNumber_ok _ _ _ h1
      rw [List.append_nil] at hdata
      subst hdata
      exact ⟨hnum, hj⟩

theorem endsWithDigit_suffix_iff {s t : Bytes} (hs : t <:+ s) (ht : t ≠ []) :
    EndsWithDigit s ↔ EndsWithDigit t := by
  obtain ⟨pre, rfl⟩ := hs
  unfold EndsWithDigit
  rw [List.getLast?_append_of_ne_nil _ ht]

theorem not_endsWithDigit_of_ws {t : Bytes} (ht : ∀ b ∈ t, isWS b) : ¬ EndsWithDigit t := by
  unfold EndsWithDigit
  cases h : t.getLast? with
  | none => simp
  | some l =>
    have hl := ht l (List.mem_of_mem_getLast? (by rw [h]; rfl))
    simp only
    unfold isWS at hl
    unfold isDigit
    omega

theorem mem_removeWS_of_not_ws {s : Bytes} {c : Nat} (hc : ¬ isWS c) (h : c ∈ s) :
    c ∈ removeWS s := by
  rw [removeWS_eq_dropWhile]
  rw [← List.takeWhile_append_dropWhile (fun b => decide (isWS b)) s] at h
  rcases List.mem_append.1 h with h1 | h2
  · have := List.mem_takeWhile_imp h1
    simp at this
    exact absurd this hc
  · exact h2

/-- After an accepted input that ends with a digit, a digit, or a `.` when the
input holds none, continues the number that ends the input: the error of
`IsValid`, if any, is never "unexpected tail". -/
theorem unexpected_tail_exception (s : Bytes) (b : Nat) (hs : Accepts s)
    (hex : EndsWithDigit s ∧ (isDigit b ∨ (b = 0x2E ∧ 0x2E ∉ s))) :
    ∀ json ps,
      IsValid (NewParser (s ++ [b])) ≠ some (json, some (.text "unexpected tail: " :: ps)) := by
  intro json ps hv
  obtain ⟨hd, hb⟩ := hex
  obtain ⟨j1, t1, hp, ht1⟩ := accepts_run hs
  have hne := parseJson_ok_ne_nil hp
  have hrw : removeWS (s ++ [b]) = removeWS s ++ [b] := removeWS_append_of_ne_nil _ hne
  have hd2 : EndsWithDigit (removeWS s) :=
    (endsWithDigit_suffix_iff (removeWS_suffix s) hne).1 hd
  have ht : t1 = [] := by
    by_contra htne
    have hsuf : t1 <:+ removeWS s := ((inv_all _).1 _ _ _ hp).1
    exact not_endsWithDigit_of_ws ht1 ((endsWithDigit_suffix_iff hsuf htne).1 hd2)
  subst ht
  obtain ⟨hnumber, _⟩ := parseJson_number_of_endsWithDigit hp hd2
  obtain ⟨r, hr, _⟩ := parseJson_fuelFor ⟨removeWS s ++ [b], [], []⟩ (removeWS s ++ [b])
  rw [← hrw] at hr
  rw [IsValid_of_parseJson hr] at hv
  rw [hrw] at hr
  obtain ⟨rj, rt, re⟩ := r
  cases re with
  | some e => simp at hv
  | none =>
    have hrt : rt = [] := by
      obtain ⟨c, rest, hc, hc2⟩ := hnumber.head
      have hcd : c ≠ 0x7B ∧ c ≠ 0x5B ∧ c ≠ 0x22 ∧ c ≠ 0x74 ∧ c ≠ 0x66 ∧ c ≠ 0x6E := by
        unfold isDigit at hc2; omega
      unfold fuelFor at hr
      rw [hc, List.cons_append] at hr
      rcases parseJson_ok_cases hr with ⟨_, h1, _⟩ | ⟨_, h1, _⟩ | ⟨_, h1, _⟩ |
        ⟨h1, _⟩ | ⟨h1, _⟩ | ⟨h1, _⟩ | ⟨n', h1, _⟩
      · injection h1 with h1 _; exact absurd h1 hcd.1
      · injection h1 with h1 _; exact absurd h1 hcd.2.1
      · injection h1 with h1 _; exact absurd h1 hcd.2.2.1
      · injection h1 with h1 _; exact absurd h1 hcd.2.2.2.1
      · injection h1 with h1 _; exact absurd h1 hcd.2.2.2.2.1
      · injection h1 with h1 _; exact absurd h1 hcd.2.2.2.2.2
      · rw [← List.cons_append, ← hc] at h1
        obtain ⟨hn', hdata, hrest⟩ := parseNumber_ok _ _ _ h1
        by_contra hrtne
        rcases List.eq_nil_or_concat rt with h0 | ⟨t0, c0, h0⟩
        · exact hrtne h0
        · simp only [List.concat_eq_append] at h0
          subst h0
          rw [← List.append_assoc] at hdata
          obtain ⟨hnum, hbc⟩ := List.append_inj' hdata rfl
          simp only [List.cons.injEq, and_true] at hbc
          subst hbc
          cases t0 with
          | nil =>
            rw [List.append_nil] at hnum
            subst hnum
            obtain ⟨h3, h4⟩ := hrest b rfl
            rcases hb with hdig | ⟨hdot, hno⟩
            · exact h3 hdig
            · rcases h4 with h4 | h4
              · exact hno ((removeWS_suffix s).subset h4)
              · exact h4 hdot
          | cons d t0 =>
            have h5 := parseNumber_of_IsNumber_maximal n' (d :: t0) hn'
              (fun c hc => hrest c (by simpa using hc))
            have h6 := parseNumber_of_IsNumber (removeWS s) [] hnumber
              (fun c hc => by simp at hc)
            rw [List.append_nil, hnum, h5] at h6
            simp at h6
    subst hrt
    simp [removeWS] at hv

/-- C6, amended: for every input `s` on which `IsValid` succeeds and every byte
`b` that is not one of 0x09, 0x0A, 0x0D, 0x20, unless `s` ends with a digit
and `b` is a digit, or is `.` while `s` holds no `.`, `IsValid` on `s`
followed by `b` fails with the error "unexpected tail: " and the quoted byte,
whose message begins with "unexpected tail". -/
theorem unexpected_tail (s : Bytes) (b : Nat) (hs : Accepts s) (hb : ¬ isWS b)
    (hnum : ¬ (EndsWithDigit s ∧ (isDigit b ∨ (b = 0x2E ∧ 0x2E ∉ s)))) :
    ∃ json, IsValid (NewParser (s ++ [b])) =
        some (json, some [.text "unexpected tail: ", .q (makeErrorTrace [b])]) ∧
      ∀ v, BeginsWith (render v [.text "unexpected tail: ", .q (makeErrorTrace [b])])
        "unexpected tail" := by
  obtain ⟨j1, t1, hp, ht1⟩ := accepts_run hs
  obtain ⟨ints, floats, _, hext⟩ := (extends_all _).1 _ _ _ _ hp
  have hne := parseJson_ok_ne_nil hp
  have hrw : removeWS (s ++ [b]) = removeWS s ++ [b] := removeWS_append_of_ne_nil _ hne
  have hrun : ∃ json, parseJson (fuelFor (removeWS s ++ [b])) ⟨removeWS s ++ [b], [], []⟩
      (removeWS s ++ [b]) = some ⟨json, t1 ++ [b], none⟩ := by
    by_cases hd : EndsWithDigit s ∧ b = 0x2E
    · obtain ⟨hd, hb2⟩ := hd
      have hdot : 0x2E ∈ s := by
        by_contra hno
        exact hnum ⟨hd, Or.inr ⟨hb2, hno⟩⟩
      subst hb2
      have hd2 : EndsWithDigit (removeWS s) :=
        (endsWithDigit_suffix_iff (removeWS_suffix s) hne).1 hd
      have ht : t1 = [] := by
        by_contra htne
        have hsuf : t1 <:+ removeWS s := ((inv_all _).1 _ _ _ hp).1
        exact not_endsWithDigit_of_ws ht1 ((endsWithDigit_suffix_iff hsuf htne).1 hd2)
      subst ht
      obtain ⟨hnumber, _⟩ := parseJson_number_of_endsWithDigit hp hd2
      refine ⟨capture ⟨removeWS s ++ [0x2E], [], []⟩ (removeWS s), ?_⟩
      unfold fuelFor
      exact parseJson_number _ _ (removeWS s) [0x2E] hnumber (fun c hc => by
        simp only [List.head?_cons, Option.some.injEq] at hc
        subst hc
        exact ⟨by decide, Or.inl (mem_removeWS_of_not_ws (by decide) hdot)⟩)
    · have hcond : NumberCond (removeWS s) t1 [b] := by
        by_cases hdb : isDigit b ∨ b = 0x2E
        · right; right
          intro he
          have hes := endsWithDigit_of_suffix (removeWS_suffix s) hne he
          rcases hdb with hdig | hdotb
          · exact hnum ⟨hes, Or.inl hdig⟩
          · exact hd ⟨hes, hdotb⟩
        · right; left
          intro c hc
          simp at hc
          subst hc
          exact ⟨fun h => hdb (Or.inl h), fun h => hdb (Or.inr h)⟩
      exact ⟨_, hext (fuelFor (removeWS s ++ [b])) (by unfold fuelFor; simp)
        ⟨removeWS s ++ [b], [], []⟩ [b] hcond⟩
  obtain ⟨j2, hrun⟩ := hrun
  rw [← hrw] at hrun
  have htail : removeWS (t1 ++ [b]) = [b] := by
    rw [removeWS_append_of_ws t1 _ ht1, removeWS_cons_of_not_ws _ hb]
  refine ⟨j2, ?_, fun v => beginsWith_unexpected_tail v _⟩
  rw [IsValid_of_parseJson hrun]
  simp [htail]

theorem unexpected_tail_witness :
    (Accepts (lit "1.5") ∧ ¬ isWS 0x2E ∧
      ∃ json, IsValid (NewParser (lit "1.5" ++ [0x2E])) =
          some (json, some [.text "unexpected tail: ", .q (makeErrorTrace [0x2E])]) ∧
        ∀ v, BeginsWith (render v [.text "unexpected tail: ", .q (makeErrorTrace [0x2E])])
          "unexpected tail") ∧
    (Accepts (lit "[1, 2]") ∧ ¬ isWS 0x31 ∧
      ∃ json, IsValid (NewParser (lit "[1, 2]" ++ [0x31])) =
          some (json, some [.text "unexpected tail: ", .q (makeErrorTrace [0x31])]) ∧
        ∀ v, BeginsWith (render v [.text "unexpected tail: ", .q (makeErrorTrace [0x31])])
          "unexpected tail") :=
  ⟨⟨⟨_, rfl⟩, by decide, unexpected_tail (lit "1.5") 0x2E ⟨_, rfl⟩ (by decide) (by decide)⟩,
    ⟨⟨_, rfl⟩, by decide,
      unexpected_tail (lit "[1, 2]") 0x31 ⟨_, rfl⟩ (by decide) (by decide)⟩⟩

/-! ## The tail and the error of a run do not depend on the parser -/

theorem frame_of_eq {json json' : JsonParser} {tail : Bytes} {e : Option Err} {r : Res}
    (h : some (⟨json, tail, e⟩ : Res) = some r) :
    ∃ j', some (⟨json', tail, e⟩ : Res) = some ⟨j', r.tail, r.err⟩ := by
  simp only [Option.some.injEq] at h
  subst h
  exact ⟨_, rfl⟩

theorem parseJson_frame_step (f : Nat)
    (ihO : ∀ json json' data r, parseObject f json data = some r →
      ∃ j', parseObject f json' data = some ⟨j', r.tail, r.err⟩)
    (ihA : ∀ json json' data r, parseArray f json data = some r →
      ∃ j', parseArray f json' data = some ⟨j', r.tail, r.err⟩) :
    ∀ json json' data r, parseJson (f + 1) json data = some r →
      ∃ j', parseJson (f + 1) json' data = some ⟨j', r.tail, r.err⟩ := by
  intro json json' data r h
  cases data with
  | nil =>
    rw [parseJson] at h ⊢
    exact frame_of_eq h
  | cons b rest =>
    rw [parseJson] at h ⊢
    split_ifs at h ⊢ with h1 h2 h3 h4 h5 h6 h7 h8 h9
    · obtain ⟨r0, h0, rfl⟩ := Option.map_eq_some'.1 h
      obtain ⟨j', hj⟩ := ihO _ json' _ _ h0
      rw [hj]
      obtain ⟨j0, t0, e0⟩ := r0
      cases e0 <;> exact ⟨j', rfl⟩
    · obtain ⟨r0, h0, rfl⟩ := Option.map_eq_some'.1 h
      obtain ⟨j', hj⟩ := ihA _ json' _ _ h0
      rw [hj]
      obtain ⟨j0, t0, e0⟩ := r0
      cases e0 <;> exact ⟨j', rfl⟩
    · obtain ⟨tail, e1, hs, _⟩ := parseString_total rest
      rw [hs] at h ⊢
      cases e1 <;> exact frame_of_eq h
    · exact frame_of_eq h
    · exact frame_of_eq h
    · exact frame_of_eq h
    · exact frame_of_eq h
    · exact frame_of_eq h
    · exact frame_of_eq h
    · generalize parseNumber (b :: rest) = p at h ⊢
      obtain ⟨num, tail, e1⟩ := p
      cases e1 with
      | some e1 => exact frame_of_eq h
      | none =>
        simp only at h ⊢
        cases hn : IndexByte num 0x2E with
        | none =>
          simp only [hn] at h ⊢
          exact frame_of_eq h
        | some n =>
          simp only [hn] at h ⊢
          split_ifs at h ⊢ <;> exact frame_of_eq h

theorem parseArray_frame_step (f : Nat)
    (ihL : ∀ json json' data r, parseArrayLoop f json data = some r →
      ∃ j', parseArrayLoop f json' data = some ⟨j', r.tail, r.err⟩) :
    ∀ json json' data r, parseArray (f + 1) json data = some r →
      ∃ j', parseArray (f + 1) json' data = some ⟨j', r.tail, r.err⟩ := by
  intro json json' data r h
  rw [parseArray] at h ⊢
  cases hw : removeWS data with
  | nil =>
    simp only [hw] at h ⊢
    exact frame_of_eq h
  | cons b rest =>
    simp only [hw] at h ⊢
    split_ifs at h ⊢
    · exact frame_of_eq h
    · exact ihL _ _ _ _ h

theorem parseObject_frame_step (f : Nat)
    (ihL : ∀ json json' data r, parseObjectLoop f json data = some r →
      ∃ j', parseObjectLoop f json' data = some ⟨j', r.tail, r.err⟩) :
    ∀ json json' data r, parseObject (f + 1) json data = some r →
      ∃ j', parseObject (f + 1) json' data = some ⟨j', r.tail, r.err⟩ := by
  intro json json' data r h
  rw [parseObject] at h ⊢
  cases hw : removeWS data with
  | nil =>
    simp only [hw] at h ⊢
    exact frame_of_eq h
  | cons b rest =>
    simp only [hw] at h ⊢
    split_ifs at h ⊢
    · exact frame_of_eq h
    · exact ihL _ _ _ _ h

theorem parseArrayLoop_frame_step (f : Nat)
    (ihJ : ∀ json json' data r, parseJson f json data = some r →
      ∃ j', parseJson f json' data = some ⟨j', r.tail, r.err⟩)
    (ihL : ∀ json json' data r, parseArrayLoop f json data = some r →
      ∃ j', parseArrayLoop f json' data = some ⟨j', r.tail, r.err⟩) :
    ∀ json json' data r, parseArrayLoop (f + 1) json data = some r →
      ∃ j', parseArrayLoop (f + 1) json' data = some ⟨j', r.tail, r.err⟩ := by
  intro json json' data r h
  rw [parseArrayLoop] at h ⊢
  cases hj : parseJson f json (removeWS data) with
  | none => simp [hj] at h
  | some r1 =>
    obtain ⟨j1', hj'⟩ := ihJ _ json' _ _ hj
    rw [hj']
    rw [hj] at h
    obtain ⟨j1, t1, e1⟩ := r1
    cases e1 with
    | some e => exact frame_of_eq h
    | none =>
      simp only at h ⊢
      cases hw : removeWS t1 with
      | nil =>
        simp only [hw] at h ⊢
        exact frame_of_eq h
      | cons b rest =>
        simp only [hw] at h ⊢
        split_ifs at h ⊢
        · exact ihL _ _ _ _ h
        · exact frame_of_eq h
        · exact frame_of_eq h

theorem parseObjectLoop_frame_step (f : Nat)
    (ihJ : ∀ json json' data r, parseJson f json data = some r →
      ∃ j', parseJson f json' data = some ⟨j', r.tail, r.err⟩)
    (ihL : ∀ json json' data r, parseObjectLoop f json data = some r →
      ∃ j', parseObjectLoop f json' data = some ⟨j', r.tail, r.err⟩) :
    ∀ json json' data r, parseObjectLoop (f + 1) json data = some r →
      ∃ j', parseObjectLoop (f + 1) json' data = some ⟨j', r.tail, r.err⟩ := by
  intro json json' data r h
  rw [parseObjectLoop] at h ⊢
  cases hw : removeWS data with
  | nil =>
    simp only [hw] at h ⊢
    exact frame_of_eq h
  | cons b rest =>
    simp only [hw] at h ⊢
    split_ifs at h ⊢
    · exact frame_of_eq h
    · obtain ⟨d1, e1, hk, _⟩ := validateKey_total rest
      rw [hk] at h ⊢
      cases e1 with
      | some e => exact frame_of_eq h
      | none =>
        simp only at h ⊢
        cases hw2 : removeWS d1 with
        | nil =>
          simp only [hw2] at h ⊢
          exact frame_of_eq h
        | cons b2 rest2 =>
          simp only [hw2] at h ⊢
          split_ifs at h ⊢
          · exact frame_of_eq h
          · cases hj : parseJson f json (removeWS rest2) with
            | none => simp [hj] at h
            | some r1 =>
              obtain ⟨j1', hj'⟩ := ihJ _ json' _ _ hj
              rw [hj']
              rw [hj] at h
              obtain ⟨j1, t1, e1⟩ := r1
              cases e1 with
              | some e => exact frame_of_eq h
              | none =>
                simp only at h ⊢
                cases hw3 : removeWS t1 with
                | nil =>
                  simp only [hw3] at h ⊢
                  exact frame_of_eq h
                | cons b3 rest3 =>
                  simp only [hw3] at h ⊢
                  split_ifs at h ⊢
                  · exact ihL _ _ _ _ h
                  · exact frame_of_eq h
                  · exact frame_of_eq h

/-- A run in another parser leaves the same tail and returns the same error. -/
theorem frame_all (f : Nat) :
    (∀ json json' data r, parseJson f json data = some r →
      ∃ j', parseJson f json' data = some ⟨j', r.tail, r.err⟩) ∧
    (∀ json json' data r, parseObject f json data = some r →
      ∃ j', parseObject f json' data = some ⟨j', r.tail, r.err⟩) ∧
    (∀ json json' data r, parseObjectLoop f json data = some r →
      ∃ j', parseObjectLoop f json' data = some ⟨j', r.tail, r.err⟩) ∧
    (∀ json json' data r, parseArray f json data = some r →
      ∃ j', parseArray f json' data = some ⟨j', r.tail, r.err⟩) ∧
    (∀ json json' data r, parseArrayLoop f json data = some r →
      ∃ j', parseArrayLoop f json' data = some ⟨j', r.tail, r.err⟩) := by
  induction f with
  | zero =>
    refine ⟨?_, ?_, ?_, ?_, ?_⟩ <;> intro json json' data r h
    · simp [parseJson] at h
    · simp [parseObject] at h
    · simp [parseObjectLoop] at h
    · simp [parseArray] at h
    · simp [parseArrayLoop] at h
  | succ f ih =>
    obtain ⟨ihJ, ihO, ihOL, ihA, ihAL⟩ := ih
    exact ⟨parseJson_frame_step f ihO ihA, parseObject_frame_step f ihOL,
      parseObjectLoop_frame_step f ihJ ihOL, parseArray_frame_step f ihAL,
      parseArrayLoop_frame_step f ihJ ihAL⟩

/-! ## Errors of nested values -/

theorem run_agree {run : Nat → JsonParser → Bytes → Option Res}
    (hmono : ∀ f json data r, run f json data = some r → run (f + 1) json data = some r)
    {f g : Nat} {json : JsonParser} {data : Bytes} {r r' : Res}
    (h : run f json data = some r) (h' : run g json data = some r') : r = r' := by
  have h1 := fuel_le hmono (le_max_left f g) h
  have h2 := fuel_le hmono (le_max_right f g) h'
  rw [h1] at h2
  exact Option.some.inj h2

theorem failsWith_parseJson {f : Nat} {json j : JsonParser} {x t : Bytes} {e : Err}
    (h : parseJson f json x = some ⟨j, t, some e⟩) : FailsWith parseJson x t e := by
  refine ⟨f, fun g hg json' => ?_⟩
  obtain ⟨j', hj⟩ := (frame_all f).1 json json' x _ h
  exact ⟨j', fuel_le (fun f => (mono_all f).1) hg hj⟩

theorem elementsBefore_starts {ok : Nat → Prop} {q x : Bytes} (hq : ElementsBefore ok q)
    (hx : removeWS x = x) (hfirst : q.isEmpty = true → ∃ b r, x = b :: r ∧ b ≠ 0x5D) :
    ∃ b r, q ++ x = b :: r ∧ ¬ isWS b ∧ b ≠ 0x5D := by
  cases hq with
  | nil =>
    obtain ⟨b, r, rfl, hb⟩ := hfirst rfl
    exact ⟨b, r, rfl, removeWS_head_not_ws hx, hb⟩
  | @cons v w1 w2 q hv hw1 hw2 hq =>
    obtain ⟨b, r, rfl, hb1, hb2, _⟩ := hv.starts
    exact ⟨b, _, rfl, hb1, hb2⟩

/-- The loop of `parseArray` hands the error of an element on behind
"cannot parse array value: ". -/
theorem parseArrayLoop_fails {ok : Nat → Prop} (hok : ∀ b, ok b → IsUnescaped b) {q : Bytes}
    (hq : ElementsBefore ok q) {x t : Bytes} {e : Err} (hx : removeWS x = x)
    (h : FailsWith parseJson x t e) :
    FailsWith parseArrayLoop (q ++ x) t (.text "cannot parse array value: " :: e) := by
  induction hq with
  | nil =>
    obtain ⟨f, hf⟩ := h
    refine ⟨f + 1, fun g hg json => ?_⟩
    obtain ⟨g, rfl⟩ : ∃ g', g = g' + 1 := ⟨g - 1, by omega⟩
    obtain ⟨j, hj⟩ := hf g (by omega) json
    refine ⟨j, ?_⟩
    rw [List.nil_append, parseArrayLoop, hx, hj]
  | @cons v w1 w2 q hv hw1 hw2 hq ih =>
    obtain ⟨f1, hf1⟩ := ih
    refine ⟨max f1 (3 * v.length + 1) + 1, fun g hg json => ?_⟩
    obtain ⟨g, rfl⟩ : ∃ g', g = g' + 1 := ⟨g - 1, by omega⟩
    obtain ⟨j2, h2⟩ := complete_of_derives hok hv g json (w1 ++ 0x2C :: (w2 ++ (q ++ x)))
      (numberEnds_ws_cons w1 0x2C _ hw1 (by decide))
      (by have := le_max_right f1 (3 * v.length + 1); omega)
    obtain ⟨j3, h3⟩ := hf1 g (by have := le_max_left f1 (3 * v.length + 1); omega) j2
    refine ⟨j3, ?_⟩
    rw [← (hv.starts.append _).removeWS [] (by simp [IsWSRun])] at h2
    rw [show v ++ (w1 ++ 0x2C :: (w2 ++ q)) ++ x =
      [] ++ (v ++ (w1 ++ 0x2C :: (w2 ++ (q ++ x)))) by simp]
    rw [parseArrayLoop_of h2 (removeWS_ws_cons w1 0x2C _ hw1 (by decide))]
    simp only [if_true]
    rw [parseArrayLoop_ws_append _ _ _ _ hw2, h3]

/-- An array hands the error of an element on behind "cannot parse array: " and
"cannot parse array value: ". -/
theorem parseJson_array_fails {ok : Nat → Prop} (hok : ∀ b, ok b → IsUnescaped b)
    {w q : Bytes} (hw : IsWSRun w) (hq : ElementsBefore ok q) {x t : Bytes} {e : Err}
    (hx : removeWS x = x) (hfirst : q.isEmpty = true → ∃ b r, x = b :: r ∧ b ≠ 0x5D)
    (h : FailsWith parseJson x t e) :
    FailsWith parseJson (0x5B :: (w ++ (q ++ x))) t
      (.text "cannot parse array: " :: .text "cannot parse array value: " :: e) := by
  obtain ⟨f, hf⟩ := parseArrayLoop_fails hok hq hx h
  obtain ⟨b, r, hbr, hb1, hb2⟩ := elementsBefore_starts hq hx hfirst
  refine ⟨f + 2, fun g hg json => ?_⟩
  obtain ⟨g, rfl⟩ : ∃ g', g = g' + 1 + 1 := ⟨g - 2, by omega⟩
  obtain ⟨j, hj⟩ := hf g (by omega) json
  refine ⟨j, ?_⟩
  have hX : removeWS (w ++ (q ++ x)) = b :: r := by
    rw [hbr, removeWS_ws_cons w b r hw hb1]
  rw [parseJson]
  simp only [show ¬ (0x5B = 0x7B) by decide, if_false, if_true]
  rw [parseArray_of hX, if_neg hb2, ← hbr, hj]
  rfl

/-- The loop of `parseObject` hands the error of the value of a member on behind
"cannot parse object value: ". -/
theorem parseObjectLoop_fails {ok : Nat → Prop} (hok : ∀ b, ok b → IsUnescaped b) {q : Bytes}
    (hq : MembersBefore ok q) {x t : Bytes} {e : Err} (hx : removeWS x = x)
    (h : FailsWith parseJson x t e) :
    FailsWith parseObjectLoop (q ++ x) t (.text "cannot parse object value: " :: e) := by
  induction hq with
  | @key k w1 w2 hk hw1 hw2 =>
    obtain ⟨f, hf⟩ := h
    refine ⟨f + 1, fun g hg json => ?_⟩
    obtain ⟨g, rfl⟩ : ∃ g', g = g' + 1 := ⟨g - 1, by omega⟩
    obtain ⟨j, hj⟩ := hf g (by omega) json
    refine ⟨j, ?_⟩
    have hd : (0x22 :: (k ++ 0x22 :: (w1 ++ 0x3A :: w2))) ++ x =
        0x22 :: (k ++ 0x22 :: (w1 ++ 0x3A :: (w2 ++ x))) := by simp
    have hw : removeWS (0x22 :: (k ++ 0x22 :: (w1 ++ 0x3A :: (w2 ++ x)))) =
        0x22 :: (k ++ 0x22 :: (w1 ++ 0x3A :: (w2 ++ x))) :=
      removeWS_cons_of_not_ws _ (by decide)
    have hj2 : parseJson g json (removeWS (w2 ++ x)) = some ⟨j, t, some e⟩ := by
      rw [removeWS_append_of_ws w2 _ hw2, hx, hj]
    rw [hd, parseObjectLoop]
    simp only [hw, ne_eq, not_true_eq_false, if_false, validateKey_of_Chars _ (hk.mono hok),
      removeWS_ws_cons w1 0x3A _ hw1 (by decide), hj2]
  | @cons k w1 w2 v w3 w4 q hk hw1 hw2 hv hw3 hw4 hq ih =>
    obtain ⟨f1, hf1⟩ := ih
    refine ⟨max f1 (3 * v.length + 1) + 1, fun g hg json => ?_⟩
    obtain ⟨g, rfl⟩ : ∃ g', g = g' + 1 := ⟨g - 1, by omega⟩
    obtain ⟨j2, h2⟩ := complete_of_derives hok hv g json (w3 ++ 0x2C :: (w4 ++ (q ++ x)))
      (numberEnds_ws_cons w3 0x2C _ hw3 (by decide))
      (by have := le_max_right f1 (3 * v.length + 1); omega)
    obtain ⟨j3, h3⟩ := hf1 g (by have := le_max_left f1 (3 * v.length + 1); omega) j2
    refine ⟨j3, ?_⟩
    rw [← (hv.starts.append _).removeWS w2 hw2] at h2
    have hd : (0x22 :: (k ++ 0x22 :: (w1 ++ 0x3A :: (w2 ++ (v ++ (w3 ++ 0x2C :: (w4 ++ q)))))))
        ++ x =
        0x22 :: (k ++ 0x22 :: (w1 ++ 0x3A :: (w2 ++ (v ++ (w3 ++ 0x2C ::
          (w4 ++ (q ++ x))))))) := by simp
    rw [hd, parseObjectLoop_of (removeWS_cons_of_not_ws _ (by decide))
      (validateKey_of_Chars _ (hk.mono hok)) (removeWS_ws_cons w1 0x3A _ hw1 (by decide)) h2
      (removeWS_ws_cons w3 0x2C _ hw3 (by decide))]
    simp only [if_true]
    rw [parseObjectLoop_ws_append _ _ _ _ hw4, h3]

theorem membersBefore_starts {ok : Nat → Prop} {q : Bytes} (hq : MembersBefore ok q) :
    ∃ r, q = 0x22 :: r := by
  cases hq with
  | key _ _ _ => exact ⟨_, rfl⟩
  | cons _ _ _ _ _ _ _ => exact ⟨_, rfl⟩

/-- An object hands the error of the value of a member on behind
"cannot parse object: " and "cannot parse object value: ". -/
theorem parseJson_object_fails {ok : Nat → Prop} (hok : ∀ b, ok b → IsUnescaped b)
    {w q : Bytes} (hw : IsWSRun w) (hq : MembersBefore ok q) {x t : Bytes} {e : Err}
    (hx : removeWS x = x) (h : FailsWith parseJson x t e) :
    FailsWith parseJson (0x7B :: (w ++ (q ++ x))) t
      (.text "cannot parse object: " :: .text "cannot parse object value: " :: e) := by
  obtain ⟨f, hf⟩ := parseObjectLoop_fails hok hq hx h
  obtain ⟨r, hr⟩ := membersBefore_starts hq
  refine ⟨f + 2, fun g hg json => ?_⟩
  obtain ⟨g, rfl⟩ : ∃ g', g = g' + 1 + 1 := ⟨g - 2, by omega⟩
  obtain ⟨j, hj⟩ := hf g (by omega) json
  refine ⟨j, ?_⟩
  have hX : removeWS (w ++ (q ++ x)) = 0x22 :: (r ++ x) := by
    rw [hr, List.cons_append, removeWS_ws_cons w 0x22 _ hw (by decide)]
  rw [parseJson]
  simp only [if_true]
  rw [parseObject_of hX, if_neg (by decide), ← List.cons_append, ← hr, hj]
  rfl

theorem Nesting.head_not_ws {ok : Nat → Prop} {pre : Bytes} {layers : Err} {first : Bool}
    (h : Nesting ok pre layers first) :
    pre = [] ∨ ∃ b r, pre = b :: r ∧ ¬ isWS b ∧ b ≠ 0x5D := by
  induction h with
  | top => exact Or.inl rfl
  | @array pre layers first w q _ _ _ ih =>
    rcases ih with rfl | ⟨b, r, rfl, hb⟩
    · exact Or.inr ⟨0x5B, _, rfl, by decide, by decide⟩
    · exact Or.inr ⟨b, _, rfl, hb⟩
  | @object pre layers first w q _ _ _ ih =>
    rcases ih with rfl | ⟨b, r, rfl, hb⟩
    · exact Or.inr ⟨0x7B, _, rfl, by decide, by decide⟩
    · exact Or.inr ⟨b, _, rfl, hb⟩

/-- The error of a nested value reaches the outermost `parseJson` behind the
prefixes of the arrays and objects around it, with the same tail. -/
theorem Nesting.fails {ok : Nat → Prop} (hok : ∀ b, ok b → IsUnescaped b) {pre : Bytes}
    {layers : Err} {first : Bool} (h : Nesting ok pre layers first) :
    ∀ {x t : Bytes} {e : Err}, removeWS x = x →
      (first = true → ∃ b r, x = b :: r ∧ b ≠ 0x5D) → FailsWith parseJson x t e →
      FailsWith parseJson (pre ++ x) t (layers ++ e) := by
  induction h with
  | top => intro x t e _ _ hf; exact hf
  | @array pre layers first w q _ hw hq ih =>
    intro x t e hx hfirst hf
    have := ih (removeWS_cons_of_not_ws _ (by decide))
      (fun _ => ⟨0x5B, _, rfl, by decide⟩) (parseJson_array_fails hok hw hq hx hfirst hf)
    simpa using this
  | @object pre layers first w q _ hw hq ih =>
    intro x t e hx _ hf
    have := ih (removeWS_cons_of_not_ws _ (by decide))
      (fun _ => ⟨0x7B, _, rfl, by decide⟩) (parseJson_object_fails hok hw hq hx hf)
    simpa using this

/-- The ways `parseJson` fails: a nested parser failed and `parseJson` put its
one prefix in front of that error, or `parseJson` refused the value itself. -/
theorem parseJson_err_cases {f : Nat} {json j : JsonParser} {x t : Bytes} {e : Err}
    (h : parseJson (f + 1) json x = some ⟨j, t, some e⟩) :
    (∃ y e0, x = 0x22 :: y ∧ parseString y = some (t, some e0) ∧
      e = .text "cannot parse string: " :: e0) ∨
    (∃ num e0, parseNumber x = (num, t, some e0) ∧ e = .text "cannot parse number: " :: e0) ∨
    (∃ y e0, x = 0x5B :: y ∧ parseArray f json y = some ⟨j, t, some e0⟩ ∧
      e = .text "cannot parse array: " :: e0) ∨
    (∃ y e0, x = 0x7B :: y ∧ parseObject f json y = some ⟨j, t, some e0⟩ ∧
      e = .text "cannot parse object: " :: e0) ∨
    (x = [] ∧ t = [] ∧ e = [.text "cannot parse empty string"]) ∨
    (t = x ∧ e = [.text "unexpected value found: ", .q x]) := by
  cases x with
  | nil =>
    rw [parseJson] at h
    simp only [Option.some.injEq, Res.mk.injEq] at h
    exact Or.inr (Or.inr (Or.inr (Or.inr (Or.inl ⟨rfl, h.2.1.symm, h.2.2.symm⟩))))
  | cons b rest =>
    rw [parseJson] at h
    split_ifs at h with h1 h2 h3 h4 h5 h6 h7 h8 h9
    · obtain ⟨r0, h0, hr⟩ := Option.map_eq_some'.1 h
      obtain ⟨j0, t0, e0⟩ := r0
      cases e0 with
      | none => simp [wrap] at hr
      | some e0 =>
        simp only [wrap, Res.mk.injEq, Option.some.injEq] at hr
        obtain ⟨rfl, rfl, rfl⟩ := hr
        exact Or.inr (Or.inr (Or.inr (Or.inl ⟨rest, e0, by rw [h1], h0, rfl⟩)))
    · obtain ⟨r0, h0, hr⟩ := Option.map_eq_some'.1 h
      obtain ⟨j0, t0, e0⟩ := r0
      cases e0 with
      | none => simp [wrap] at hr
      | some e0 =>
        simp only [wrap, Res.mk.injEq, Option.some.injEq] at hr
        obtain ⟨rfl, rfl, rfl⟩ := hr
        exact Or.inr (Or.inr (Or.inl ⟨rest, e0, by rw [h2], h0, rfl⟩))
    · obtain ⟨tail, e1, hs, _⟩ := parseString_total rest
      rw [hs] at h
      cases e1 with
      | none => simp at h
      | some e1 =>
        simp only [Option.some.injEq, Res.mk.injEq] at h
        obtain ⟨_, rfl, rfl⟩ := h
        exact Or.inl ⟨rest, e1, by rw [h3], hs, rfl⟩
    · simp only [Option.some.injEq, Res.mk.injEq] at h
      exact Or.inr (Or.inr (Or.inr (Or.inr (Or.inr ⟨h.2.1.symm, h.2.2.symm⟩))))
    · simp at h
    · simp only [Option.some.injEq, Res.mk.injEq] at h
      exact Or.inr (Or.inr (Or.inr (Or.inr (Or.inr ⟨h.2.1.symm, h.2.2.symm⟩))))
    · simp at h
    · simp only [Option.some.injEq, Res.mk.injEq] at h
      exact Or.inr (Or.inr (Or.inr (Or.inr (Or.inr ⟨h.2.1.symm, h.2.2.symm⟩))))
    · simp at h
    · rcases hp : parseNumber (b :: rest) with ⟨num, tail, e1⟩
      simp only [hp] at h
      cases e1 with
      | some e1 =>
        simp only [Option.some.injEq, Res.mk.injEq] at h
        obtain ⟨_, rfl, rfl⟩ := h
        exact Or.inr (Or.inl ⟨num, e1, rfl, rfl⟩)
      | none =>
        exfalso
        simp only at h
        cases hn : IndexByte num 0x2E with
        | none => simp [hn] at h
        | some n =>
          simp only [hn] at h
          split_ifs at h <;> simp at h

/-- C12, amended: for every input that consists of whitespace, then the text
`pre` that leads to a value `x` nested in arrays and objects (the elements and
members before `x` being values of the grammar), then `x` and what follows
it: when `parseJson` fails on `x` with the error `e` and the tail `t`,
`IsValid` returns "cannot parse JSON: ", then "cannot parse array: " and
"cannot parse array value: " for each array and "cannot parse object: " and
"cannot parse object value: " for each object around `x`, outermost first,
then `e`, then "; unparsed tail: " with the excerpt of `t`; and `e` is
"cannot parse string: ", "cannot parse number: ", "cannot parse array: " or
"cannot parse object: " followed by the error the nested parser returned with
the tail `t`, or the message of `parseJson` for a value it refuses itself. -/
theorem error_propagation (w0 pre x : Bytes) (layers : Err) (first : Bool) (f : Nat)
    (json j : JsonParser) (t : Bytes) (e : Err) (hw0 : IsWSRun w0)
    (hpre : Nesting IsUnescaped pre layers first) (hx : removeWS x = x)
    (hfirst : first = true → ∃ b r, x = b :: r ∧ b ≠ 0x5D)
    (h : parseJson f json x = some ⟨j, t, some e⟩) :
    (∃ json2, IsValid (NewParser (w0 ++ (pre ++ x))) = some (json2,
      some (.text "cannot parse JSON: " :: (layers ++ e) ++
        [.text "; unparsed tail: ", .q (makeErrorTrace t)]))) ∧
    ((∃ y e0, x = 0x22 :: y ∧ parseString y = some (t, some e0) ∧
        e = .text "cannot parse string: " :: e0) ∨
      (∃ num e0, parseNumber x = (num, t, some e0) ∧
        e = .text "cannot parse number: " :: e0) ∨
      (∃ y g e0, x = 0x5B :: y ∧ parseArray g json y = some ⟨j, t, some e0⟩ ∧
        e = .text "cannot parse array: " :: e0) ∨
      (∃ y g e0, x = 0x7B :: y ∧ parseObject g json y = some ⟨j, t, some e0⟩ ∧
        e = .text "cannot parse object: " :: e0) ∨
      (x = [] ∧ t = [] ∧ e = [.text "cannot parse empty string"]) ∨
      (t = x ∧ e = [.text "unexpected value found: ", .q x])) := by
  refine ⟨?_, ?_⟩
  · obtain ⟨f0, hf0⟩ := hpre.fails (fun b hb => hb) hx hfirst (failsWith_parseJson h)
    have hrw : removeWS (w0 ++ (pre ++ x)) = pre ++ x := by
      rw [removeWS_append_of_ws w0 _ hw0]
      rcases hpre.head_not_ws with rfl | ⟨b, r, rfl, hb, _⟩
      · exact hx
      · exact removeWS_cons_of_not_ws _ hb
    obtain ⟨r, hr, _⟩ := parseJson_fuelFor ⟨pre ++ x, [], []⟩ (pre ++ x)
    obtain ⟨j2, hj2⟩ := hf0 f0 (le_refl _) ⟨pre ++ x, [], []⟩
    have heq := run_agree (fun f => (mono_all f).1) hr hj2
    subst heq
    rw [← hrw] at hr
    exact ⟨j2, IsValid_of_parseJson hr⟩
  · cases f with
    | zero => simp [parseJson] at h
    | succ f =>
      rcases parseJson_err_cases h with h1 | h1 | ⟨y, e0, h1⟩ | ⟨y, e0, h1⟩ | h1 | h1
      · exact Or.inl h1
      · exact Or.inr (Or.inl h1)
      · exact Or.inr (Or.inr (Or.inl ⟨y, f, e0, h1⟩))
      · exact Or.inr (Or.inr (Or.inr (Or.inl ⟨y, f, e0, h1⟩)))
      · exact Or.inr (Or.inr (Or.inr (Or.inr (Or.inl h1))))
      · exact Or.inr (Or.inr (Or.inr (Or.inr (Or.inr h1))))

theorem error_propagation_witness :
    (Nesting IsUnescaped (lit "[") [.text "cannot parse array: ",
        .text "cannot parse array value: "] true ∧
      parseJson 1 (NewParser []) (lit "01]") = some ⟨NewParser [], lit "01]",
        some [.text "cannot parse number: ", .text "unexpected number starting from 0"]⟩ ∧
      ∃ json2, IsValid (NewParser (lit "[01]")) = some (json2,
        some [.text "cannot parse JSON: ", .text "cannot parse array: ",
          .text "cannot parse array value: ", .text "cannot parse number: ",
          .text "unexpected number starting from 0", .text "; unparsed tail: ",
          .q (lit "01]")])) ∧
    (Nesting IsUnescaped (lit "\x7b\"a\":[1,") [.text "cannot parse object: ",
        .text "cannot parse object value: ", .text "cannot parse array: ",
        .text "cannot parse array value: "] false ∧
      parseJson 1 (NewParser []) (lit "\"x]\x7d") = some ⟨NewParser [], [],
        some [.text "cannot parse string: ", .text "missing closing '\"'"]⟩ ∧
      ∃ json2, IsValid (NewParser (lit " \x7b\"a\":[1,\"x]\x7d")) = some (json2,
        some [.text "cannot parse JSON: ", .text "cannot parse object: ",
          .text "cannot parse object value: ", .text "cannot parse array: ",
          .text "cannot parse array value: ", .text "cannot parse string: ",
          .text "missing closing '\"'", .text "; unparsed tail: ", .q []])) := by
  have h1 : Nesting IsUnescaped (lit "[") [.text "cannot parse array: ",
      .text "cannot parse array value: "] true :=
    @Nesting.array IsUnescaped [] [] false [] [] .top (by decide) .nil
  have hnum : Derives IsUnescaped .value [0x31] :=
    .number ⟨[], [0x31], [], rfl, Or.inl rfl,
      Or.inr ⟨0x31, [], rfl, by decide, by decide, by simp⟩, Or.inl rfl⟩
  have hobj := @Nesting.object IsUnescaped [] [] false [] _ .top (by decide)
    (@MembersBefore.key IsUnescaped [0x61] [] [] (.plain (by decide) .nil) (by decide)
      (by decide))
  have h2 : Nesting IsUnescaped (lit "\x7b\"a\":[1,") [.text "cannot parse object: ",
      .text "cannot parse object value: ", .text "cannot parse array: ",
      .text "cannot parse array value: "] false :=
    @Nesting.array IsUnescaped _ _ false [] _ hobj (by decide)
      (@ElementsBefore.cons IsUnescaped [0x31] [] [] [] hnum (by decide) (by decide) .nil)
  exact ⟨⟨h1, by decide,
      (error_propagation [] (lit "[") (lit "01]") _ true 1 (NewParser []) (NewParser [])
        (lit "01]") [.text "cannot parse number: ", .text "unexpected number starting from 0"]
        (by decide) h1 (by decide) (fun _ => ⟨0x30, _, rfl, by decide⟩) (by decide)).1⟩,
    ⟨h2, by decide,
      (error_propagation [0x20] (lit "\x7b\"a\":[1,") (lit "\"x]\x7d") _ false 1
        (NewParser []) (NewParser []) []
        [.text "cannot parse string: ", .text "missing closing '\"'"]
        (by decide) h2 (by decide) (fun h => absurd h (by decide)) (by decide)).1⟩⟩

end jsonparser
